import Mathlib

/-!
Verification of the analytics core of the India electricity generation
dashboard (`src/ElectricityDashboard.tsx`, with a near-duplicate variant in a
second source file).

The dashboard keys its time series by canonical ISO `YYYY-MM-DD` strings.  We
model a date key by its numeric triple `YMD` (year, month, day); for the
canonical zero-padded keys the two representations are in bijection and
lexicographic string order coincides with chronological order, so list/map
operations on triples are faithful to the string-keyed code.  JavaScript
`Date` UTC arithmetic (the proleptic Gregorian calendar used by
`isoPlusDays`, `isoMinusDays`, `toISOString`, `Date.UTC` normalisation,
`getUTCDay`, …) is modelled by the serial-day conversions `daysFromCivil` /
`civilFromDays` below (day 0 = 1970-01-01, matching the JS epoch).

JavaScript numbers are modelled by `ℚ`: every value the dashboard stores is
parsed from a finite decimal literal and the arithmetic performed on it is
addition, subtraction, division and comparison, which the rationals model
exactly.
-/

structure YMD where
  y : Int
  m : Int
  d : Int
deriving DecidableEq, Repr

/-- Gregorian leap-year rule, as implemented by the JS `Date` runtime. -/
def isLeap (y : Int) : Prop := (y % 4 = 0 ∧ y % 100 ≠ 0) ∨ y % 400 = 0

instance (y : Int) : Decidable (isLeap y) := by unfold isLeap; infer_instance

def daysInMonth (y m : Int) : Int :=
  if m = 2 then (if isLeap y then 29 else 28)
  else if m = 4 ∨ m = 6 ∨ m = 9 ∨ m = 11 then 30
  else 31

/-- A real proleptic-Gregorian calendar date. -/
def YMD.Valid (x : YMD) : Prop :=
  1 ≤ x.m ∧ x.m ≤ 12 ∧ 1 ≤ x.d ∧ x.d ≤ daysInMonth x.y x.m

instance (x : YMD) : Decidable x.Valid := by unfold YMD.Valid; infer_instance

/-- Day offset of the start of year-of-era `yoe` (March-based) inside an era. -/
def ystart (yoe : Int) : Int := 365 * yoe + yoe / 4 - yoe / 100 + yoe / 400

/-- March-shifted year used by the civil/serial conversions. -/
def yyOf (x : YMD) : Int := if x.m ≤ 2 then x.y - 1 else x.y

/-- March-based month index (March = 0 … February = 11). -/
def mpOfMonth (m : Int) : Int := if 2 < m then m - 3 else m + 9

/-- Serial day number (days since 1970-01-01) of a civil date; models the
epoch arithmetic of the JS `Date` runtime. -/
def daysFromCivil (x : YMD) : Int :=
  146097 * (yyOf x / 400) + ystart (yyOf x - 400 * (yyOf x / 400))
    + (153 * mpOfMonth x.m + 2) / 5 + x.d - 1 - 719468

def eraOf (z : Int) : Int := (z + 719468) / 146097

def doeOf (z : Int) : Int := (z + 719468) % 146097

def centOf (doe : Int) : Int := (4 * doe + 3) / 146097

def docOf (doe : Int) : Int := doe - 36524 * centOf doe

def yocOf (doc : Int) : Int := (4 * doc + 3) / 1461

def doyOfDoc (doc : Int) : Int := (4 * doc + 3) % 1461 / 4

def yoeOf (doe : Int) : Int := 100 * centOf doe + yocOf (docOf doe)

def doyOf (doe : Int) : Int := doyOfDoc (docOf doe)

def mpOf (doy : Int) : Int := (5 * doy + 2) / 153

def domOf (doy : Int) : Int := doy - (153 * mpOf doy + 2) / 5 + 1

def monthOf (doy : Int) : Int := if mpOf doy < 10 then mpOf doy + 3 else mpOf doy - 9

/-- Civil date of a serial day number; inverse of `daysFromCivil`. -/
def civilFromDays (z : Int) : YMD :=
  let doe := doeOf z
  let y := yoeOf doe + 400 * eraOf z
  let m := monthOf (doyOf doe)
  let d := domOf (doyOf doe)
  ⟨if m ≤ 2 then y + 1 else y, m, d⟩

theorem cent_facts (a : Int) (h1 : 0 ≤ a) (h2 : a ≤ 146096) :
    0 ≤ centOf a ∧ centOf a ≤ 3 ∧ 0 ≤ docOf a ∧ docOf a ≤ 36524 ∧
    (centOf a ≤ 2 → docOf a ≤ 36523) := by
  have hc : centOf a = (4 * a + 3) / 146097 := rfl
  have hd : docOf a = a - 36524 * centOf a := rfl
  omega

theorem yoc_facts (doc : Int) (h1 : 0 ≤ doc) (h2 : doc ≤ 36524) :
    0 ≤ yocOf doc ∧ yocOf doc ≤ 99 ∧ 0 ≤ doyOfDoc doc ∧ doyOfDoc doc ≤ 365 ∧
    365 * yocOf doc + yocOf doc / 4 + doyOfDoc doc = doc := by
  have hj : yocOf doc = (4 * doc + 3) / 1461 := rfl
  have hy : doyOfDoc doc = (4 * doc + 3) % 1461 / 4 := rfl
  omega

theorem cent_inv (b doc : Int) (hb1 : 0 ≤ b) (hb2 : b ≤ 3) (hd1 : 0 ≤ doc)
    (hd2 : doc ≤ 36524) (h3 : b ≤ 2 → doc ≤ 36523) :
    centOf (36524 * b + doc) = b := by
  have hc : centOf (36524 * b + doc) = (4 * (36524 * b + doc) + 3) / 146097 := rfl
  omega

theorem yoc_inv (j doy : Int) (hj1 : 0 ≤ j) (hj2 : j ≤ 99) (hd : 0 ≤ doy)
    (h : doy ≤ 364 ∨ (doy = 365 ∧ j % 4 = 3)) :
    yocOf (365 * j + j / 4 + doy) = j ∧ doyOfDoc (365 * j + j / 4 + doy) = doy := by
  have hj : yocOf (365 * j + j / 4 + doy) = (4 * (365 * j + j / 4 + doy) + 3) / 1461 := rfl
  have hy : doyOfDoc (365 * j + j / 4 + doy) = (4 * (365 * j + j / 4 + doy) + 3) % 1461 / 4 := rfl
  have h1 : yocOf (365 * j + j / 4 + doy) = j := by omega
  exact ⟨h1, by omega⟩

theorem ystart_eq (v : Int) : ystart v = 365 * v + v / 4 - v / 100 + v / 400 := rfl

theorem yoe_facts (a : Int) (h1 : 0 ≤ a) (h2 : a ≤ 146096) :
    0 ≤ yoeOf a ∧ yoeOf a ≤ 399 ∧ 0 ≤ doyOf a ∧ doyOf a ≤ 365 ∧
    ystart (yoeOf a) + doyOf a = a := by
  obtain ⟨c1, c2, c3, c4, -⟩ := cent_facts a h1 h2
  obtain ⟨y1, y2, y3, y4, y5⟩ := yoc_facts (docOf a) c3 c4
  have he : yoeOf a = 100 * centOf a + yocOf (docOf a) := rfl
  have hdy : doyOf a = doyOfDoc (docOf a) := rfl
  have hys := ystart_eq (yoeOf a)
  have hdoc : docOf a = a - 36524 * centOf a := rfl
  have hf4 : yoeOf a / 4 = 25 * centOf a + yocOf (docOf a) / 4 := by rw [he]; omega
  have hf100 : yoeOf a / 100 = centOf a := by rw [he]; omega
  have hf400 : yoeOf a / 400 = 0 := by rw [he]; omega
  omega

theorem mp_recompose (doy : Int) (h1 : 0 ≤ doy) (h2 : doy ≤ 365) :
    0 ≤ mpOf doy ∧ mpOf doy ≤ 11 ∧ 1 ≤ domOf doy ∧
    (153 * mpOf doy + 2) / 5 + domOf doy - 1 = doy := by
  have hm : mpOf doy = (5 * doy + 2) / 153 := rfl
  have hd : domOf doy = doy - (153 * mpOf doy + 2) / 5 + 1 := rfl
  omega

theorem mp_extract (mp d : Int) (h1 : 0 ≤ mp) (h2 : mp ≤ 11) (h3 : 1 ≤ d)
    (h4 : d ≤ (153 * (mp + 1) + 2) / 5 - (153 * mp + 2) / 5) :
    mpOf ((153 * mp + 2) / 5 + d - 1) = mp ∧ domOf ((153 * mp + 2) / 5 + d - 1) = d := by
  have hm : mpOf ((153 * mp + 2) / 5 + d - 1)
      = (5 * ((153 * mp + 2) / 5 + d - 1) + 2) / 153 := rfl
  have hd : domOf ((153 * mp + 2) / 5 + d - 1)
      = ((153 * mp + 2) / 5 + d - 1) - (153 * mpOf ((153 * mp + 2) / 5 + d - 1) + 2) / 5 + 1 := rfl
  have h5 : mpOf ((153 * mp + 2) / 5 + d - 1) = mp := by omega
  exact ⟨h5, by omega⟩

/-- Round-trip: converting a serial day to a civil date and back is the
identity.  This certifies that `civilFromDays` models the same calendar as
`daysFromCivil`. -/
theorem daysFromCivil_civilFromDays (z : Int) : daysFromCivil (civilFromDays z) = z := by
  have hdoe : 0 ≤ doeOf z ∧ doeOf z ≤ 146096 ∧ 146097 * eraOf z + doeOf z = z + 719468 := by
    have h1 : eraOf z = (z + 719468) / 146097 := rfl
    have h2 : doeOf z = (z + 719468) % 146097 := rfl
    omega
  obtain ⟨e1, e2, e3⟩ := hdoe
  obtain ⟨f1, f2, f3, f4, f5⟩ := yoe_facts (doeOf z) e1 e2
  obtain ⟨g1, g2, g3, g4⟩ := mp_recompose (doyOf (doeOf z)) f3 f4
  have hY : (civilFromDays z).y = if monthOf (doyOf (doeOf z)) ≤ 2
      then yoeOf (doeOf z) + 400 * eraOf z + 1 else yoeOf (doeOf z) + 400 * eraOf z := rfl
  have hM : (civilFromDays z).m = monthOf (doyOf (doeOf z)) := rfl
  have hD : (civilFromDays z).d = domOf (doyOf (doeOf z)) := rfl
  have hmono : monthOf (doyOf (doeOf z)) = if mpOf (doyOf (doeOf z)) < 10
      then mpOf (doyOf (doeOf z)) + 3 else mpOf (doyOf (doeOf z)) - 9 := rfl
  have hdf : daysFromCivil (civilFromDays z) =
      146097 * (yyOf (civilFromDays z) / 400)
      + ystart (yyOf (civilFromDays z) - 400 * (yyOf (civilFromDays z) / 400))
      + (153 * mpOfMonth (civilFromDays z).m + 2) / 5 + (civilFromDays z).d - 1 - 719468 := rfl
  have hyy : yyOf (civilFromDays z) = if (civilFromDays z).m ≤ 2
      then (civilFromDays z).y - 1 else (civilFromDays z).y := rfl
  have hmp : mpOfMonth (civilFromDays z).m = if 2 < (civilFromDays z).m
      then (civilFromDays z).m - 3 else (civilFromDays z).m + 9 := rfl
  rcases lt_or_le (mpOf (doyOf (doeOf z))) 10 with hc | hc
  · have hmono' : monthOf (doyOf (doeOf z)) = mpOf (doyOf (doeOf z)) + 3 := by
      rw [hmono, if_pos hc]
    have hM' : (civilFromDays z).m = mpOf (doyOf (doeOf z)) + 3 := by rw [hM, hmono']
    have hY' : (civilFromDays z).y = yoeOf (doeOf z) + 400 * eraOf z := by
      rw [hY, hmono', if_neg (by omega)]
    have hyy' : yyOf (civilFromDays z) = yoeOf (doeOf z) + 400 * eraOf z := by
      rw [hyy, hM', if_neg (by omega), hY']
    have hmp' : mpOfMonth (civilFromDays z).m = mpOf (doyOf (doeOf z)) := by
      rw [hmp, hM', if_pos (by omega)]
      ring
    rw [hdf, hyy', hmp', hD]
    have hv : (yoeOf (doeOf z) + 400 * eraOf z) / 400 = eraOf z := by omega
    rw [hv]
    have hu : yoeOf (doeOf z) + 400 * eraOf z - 400 * eraOf z = yoeOf (doeOf z) := by ring
    rw [hu]
    omega
  · have hmono' : monthOf (doyOf (doeOf z)) = mpOf (doyOf (doeOf z)) - 9 := by
      rw [hmono, if_neg (by omega)]
    have hM' : (civilFromDays z).m = mpOf (doyOf (doeOf z)) - 9 := by rw [hM, hmono']
    have hY' : (civilFromDays z).y = yoeOf (doeOf z) + 400 * eraOf z + 1 := by
      rw [hY, hmono', if_pos (by omega)]
    have hyy' : yyOf (civilFromDays z) = yoeOf (doeOf z) + 400 * eraOf z := by
      rw [hyy, hM', if_pos (by omega), hY']
      ring
    have hmp' : mpOfMonth (civilFromDays z).m = mpOf (doyOf (doeOf z)) := by
      rw [hmp, hM', if_neg (by omega)]
      ring
    rw [hdf, hyy', hmp', hD]
    have hv : (yoeOf (doeOf z) + 400 * eraOf z) / 400 = eraOf z := by omega
    rw [hv]
    have hu : yoeOf (doeOf z) + 400 * eraOf z - 400 * eraOf z = yoeOf (doeOf z) := by ring
    rw [hu]
    omega

theorem ystart_mono_bound (yoe : Int) (h1 : 0 ≤ yoe) (h2 : yoe ≤ 399) :
    0 ≤ ystart yoe ∧ ystart yoe ≤ 145731 := by
  have h := ystart_eq yoe
  omega

theorem ystart_split (b j : Int) (hb1 : 0 ≤ b) (hb2 : b ≤ 3) (hj1 : 0 ≤ j) (hj2 : j ≤ 99) :
    ystart (100 * b + j) = 36524 * b + 365 * j + j / 4 := by
  have h := ystart_eq (100 * b + j)
  omega

theorem extraction_inv (yoe doy : Int) (h1 : 0 ≤ yoe) (h2 : yoe ≤ 399) (h3 : 0 ≤ doy)
    (h4 : doy ≤ 364 ∨ (doy = 365 ∧
      (((yoe + 1) % 4 = 0 ∧ (yoe + 1) % 100 ≠ 0) ∨ (yoe + 1) % 400 = 0))) :
    yoeOf (ystart yoe + doy) = yoe ∧ doyOf (ystart yoe + doy) = doy ∧
    0 ≤ ystart yoe + doy ∧ ystart yoe + doy ≤ 146096 := by
  have hb1 : 0 ≤ yoe / 100 := by omega
  have hb2 : yoe / 100 ≤ 3 := by omega
  have hj1 : 0 ≤ yoe % 100 := by omega
  have hj2 : yoe % 100 ≤ 99 := by omega
  have hsplit : yoe = 100 * (yoe / 100) + yoe % 100 := by omega
  have hys := ystart_split (yoe / 100) (yoe % 100) hb1 hb2 hj1 hj2
  rw [← hsplit] at hys
  have hj4 : yoe / 4 = 25 * (yoe / 100) + (yoe % 100) / 4 := by omega
  -- the day-of-civil-year offset inside the century
  have hdocLe : 365 * (yoe % 100) + (yoe % 100) / 4 + doy ≤ 36524 := by omega
  have hdoc0 : 0 ≤ 365 * (yoe % 100) + (yoe % 100) / 4 + doy := by omega
  have hleapj : doy ≤ 364 ∨ (doy = 365 ∧ (yoe % 100) % 4 = 3) := by omega
  have hcentCond : yoe / 100 ≤ 2 → 365 * (yoe % 100) + (yoe % 100) / 4 + doy ≤ 36523 := by
    intro hle2
    rcases h4 with h | ⟨h365, hlp⟩
    · omega
    · omega
  have hcent := cent_inv (yoe / 100) (365 * (yoe % 100) + (yoe % 100) / 4 + doy)
    hb1 hb2 hdoc0 hdocLe hcentCond
  have hyoc := yoc_inv (yoe % 100) doy hj1 hj2 h3 hleapj
  have hrw : ystart yoe + doy
      = 36524 * (yoe / 100) + (365 * (yoe % 100) + (yoe % 100) / 4 + doy) := by omega
  have hdocOf : docOf (ystart yoe + doy) = 365 * (yoe % 100) + (yoe % 100) / 4 + doy := by
    have : docOf (ystart yoe + doy) = (ystart yoe + doy) - 36524 * centOf (ystart yoe + doy) := rfl
    rw [this, hrw, hcent]
    ring
  have hyoe : yoeOf (ystart yoe + doy) = yoe := by
    have : yoeOf (ystart yoe + doy)
        = 100 * centOf (ystart yoe + doy) + yocOf (docOf (ystart yoe + doy)) := rfl
    rw [this, hdocOf, hyoc.1, hrw, hcent]
    omega
  have hdoy : doyOf (ystart yoe + doy) = doy := by
    have : doyOf (ystart yoe + doy) = doyOfDoc (docOf (ystart yoe + doy)) := rfl
    rw [this, hdocOf, hyoc.2]
  exact ⟨hyoe, hdoy, by omega, by omega⟩

theorem valid_doy_facts (x : YMD) (hx : x.Valid) :
    0 ≤ mpOfMonth x.m ∧ mpOfMonth x.m ≤ 11 ∧
    x.d ≤ (153 * (mpOfMonth x.m + 1) + 2) / 5 - (153 * mpOfMonth x.m + 2) / 5 ∧
    0 ≤ (153 * mpOfMonth x.m + 2) / 5 + x.d - 1 ∧
    ((153 * mpOfMonth x.m + 2) / 5 + x.d - 1 ≤ 364 ∨
      ((153 * mpOfMonth x.m + 2) / 5 + x.d - 1 = 365 ∧ isLeap x.y ∧ x.m = 2)) := by
  obtain ⟨Y, M, D⟩ := x
  obtain ⟨h1, h2, h3, h4⟩ := hx
  dsimp only at h1 h2 h3 h4 ⊢
  unfold daysInMonth at h4
  unfold mpOfMonth isLeap at *
  interval_cases M <;> split_ifs at * <;> omega

/-- Round-trip: converting a real calendar date to its serial day and back is
the identity. -/
theorem civilFromDays_daysFromCivil (x : YMD) (hx : x.Valid) :
    civilFromDays (daysFromCivil x) = x := by
  obtain ⟨hm1, hm2, hd1, hd2⟩ := hx
  obtain ⟨p1, p2, p3, p4, p5⟩ := valid_doy_facts x ⟨hm1, hm2, hd1, hd2⟩
  have hyoe1 : 0 ≤ yyOf x - 400 * (yyOf x / 400) := by omega
  have hyoe2 : yyOf x - 400 * (yyOf x / 400) ≤ 399 := by omega
  have hcond : (153 * mpOfMonth x.m + 2) / 5 + x.d - 1 ≤ 364 ∨
      ((153 * mpOfMonth x.m + 2) / 5 + x.d - 1 = 365 ∧
        (((yyOf x - 400 * (yyOf x / 400) + 1) % 4 = 0 ∧
          (yyOf x - 400 * (yyOf x / 400) + 1) % 100 ≠ 0) ∨
          (yyOf x - 400 * (yyOf x / 400) + 1) % 400 = 0)) := by
    rcases p5 with h | ⟨h365, hlp, hmeq⟩
    · exact Or.inl h
    · refine Or.inr ⟨h365, ?_⟩
      have hyy : yyOf x = x.y - 1 := by unfold yyOf; rw [if_pos (by omega)]
      unfold isLeap at hlp
      omega
  obtain ⟨hE1, hE2, hE3, hE4⟩ := extraction_inv (yyOf x - 400 * (yyOf x / 400))
    ((153 * mpOfMonth x.m + 2) / 5 + x.d - 1) hyoe1 hyoe2 (by omega) hcond
  obtain ⟨hX1, hX2⟩ := mp_extract (mpOfMonth x.m) x.d p1 p2 (by omega) p3
  have hz : daysFromCivil x = 146097 * (yyOf x / 400)
      + (ystart (yyOf x - 400 * (yyOf x / 400)) + ((153 * mpOfMonth x.m + 2) / 5 + x.d - 1))
      - 719468 := by
    have h0 : daysFromCivil x = 146097 * (yyOf x / 400)
        + ystart (yyOf x - 400 * (yyOf x / 400))
        + (153 * mpOfMonth x.m + 2) / 5 + x.d - 1 - 719468 := rfl
    rw [h0]; ring
  have hdoez : doeOf (daysFromCivil x)
      = ystart (yyOf x - 400 * (yyOf x / 400)) + ((153 * mpOfMonth x.m + 2) / 5 + x.d - 1) := by
    have h0 : doeOf (daysFromCivil x) = (daysFromCivil x + 719468) % 146097 := rfl
    rw [h0, hz]; omega
  have heraz : eraOf (daysFromCivil x) = yyOf x / 400 := by
    have h0 : eraOf (daysFromCivil x) = (daysFromCivil x + 719468) / 146097 := rfl
    rw [h0, hz]; omega
  have hyoez : yoeOf (doeOf (daysFromCivil x)) = yyOf x - 400 * (yyOf x / 400) := by
    rw [hdoez]; exact hE1
  have hdoyz : doyOf (doeOf (daysFromCivil x)) = (153 * mpOfMonth x.m + 2) / 5 + x.d - 1 := by
    rw [hdoez]; exact hE2
  have hmpz : mpOf (doyOf (doeOf (daysFromCivil x))) = mpOfMonth x.m := by
    rw [hdoyz]; exact hX1
  have hdomz : domOf (doyOf (doeOf (daysFromCivil x))) = x.d := by
    rw [hdoyz]; exact hX2
  have hY : (civilFromDays (daysFromCivil x)).y
      = if monthOf (doyOf (doeOf (daysFromCivil x))) ≤ 2
        then yoeOf (doeOf (daysFromCivil x)) + 400 * eraOf (daysFromCivil x) + 1
        else yoeOf (doeOf (daysFromCivil x)) + 400 * eraOf (daysFromCivil x) := rfl
  have hM : (civilFromDays (daysFromCivil x)).m = monthOf (doyOf (doeOf (daysFromCivil x))) := rfl
  have hD : (civilFromDays (daysFromCivil x)).d = domOf (doyOf (doeOf (daysFromCivil x))) := rfl
  have hmono : monthOf (doyOf (doeOf (daysFromCivil x)))
      = if mpOf (doyOf (doeOf (daysFromCivil x))) < 10
        then mpOf (doyOf (doeOf (daysFromCivil x))) + 3
        else mpOf (doyOf (doeOf (daysFromCivil x))) - 9 := rfl
  rcases le_or_lt x.m 2 with hc | hc
  · have hmp' : mpOfMonth x.m = x.m + 9 := by unfold mpOfMonth; rw [if_neg (by omega)]
    have hmon2 : monthOf (doyOf (doeOf (daysFromCivil x))) = x.m := by
      rw [hmono, hmpz, hmp', if_neg (by omega)]; omega
    have hMeq : (civilFromDays (daysFromCivil x)).m = x.m := by rw [hM, hmon2]
    have hyy : yyOf x = x.y - 1 := by unfold yyOf; rw [if_pos hc]
    have hYeq : (civilFromDays (daysFromCivil x)).y = x.y := by
      rw [hY, hmon2, if_pos hc, hyoez, heraz, hyy]
      omega
    have hDeq : (civilFromDays (daysFromCivil x)).d = x.d := by rw [hD, hdomz]
    calc civilFromDays (daysFromCivil x)
        = ⟨(civilFromDays (daysFromCivil x)).y, (civilFromDays (daysFromCivil x)).m,
            (civilFromDays (daysFromCivil x)).d⟩ := rfl
      _ = ⟨x.y, x.m, x.d⟩ := by rw [hYeq, hMeq, hDeq]
      _ = x := rfl
  · have hmp' : mpOfMonth x.m = x.m - 3 := by unfold mpOfMonth; rw [if_pos (by omega)]
    have hmon2 : monthOf (doyOf (doeOf (daysFromCivil x))) = x.m := by
      rw [hmono, hmpz, hmp']
      rcases lt_or_le (x.m - 3) 10 with hlt | hge
      · rw [if_pos hlt]; omega
      · rw [if_neg (by omega)]; omega
    have hMeq : (civilFromDays (daysFromCivil x)).m = x.m := by rw [hM, hmon2]
    have hyy : yyOf x = x.y := by unfold yyOf; rw [if_neg (by omega)]
    have hYeq : (civilFromDays (daysFromCivil x)).y = x.y := by
      rw [hY, hmon2, if_neg (by omega), hyoez, heraz, hyy]
      omega
    have hDeq : (civilFromDays (daysFromCivil x)).d = x.d := by rw [hD, hdomz]
    calc civilFromDays (daysFromCivil x)
        = ⟨(civilFromDays (daysFromCivil x)).y, (civilFromDays (daysFromCivil x)).m,
            (civilFromDays (daysFromCivil x)).d⟩ := rfl
      _ = ⟨x.y, x.m, x.d⟩ := by rw [hYeq, hMeq, hDeq]
      _ = x := rfl

/-- The civil date of every serial day is a real calendar date. -/
theorem civilFromDays_valid (z : Int) : (civilFromDays z).Valid := by
  have hdoe : 0 ≤ doeOf z ∧ doeOf z ≤ 146096 := by
    have h2 : doeOf z = (z + 719468) % 146097 := rfl
    omega
  obtain ⟨e1, e2⟩ := hdoe
  obtain ⟨f1, f2, f3, f4, f5⟩ := yoe_facts (doeOf z) e1 e2
  obtain ⟨c1, c2, c3, c4, c5⟩ := cent_facts (doeOf z) e1 e2
  obtain ⟨y1, y2, y3, y4, y5⟩ := yoc_facts (docOf (doeOf z)) c3 c4
  obtain ⟨g1, g2, g3, g4⟩ := mp_recompose (doyOf (doeOf z)) f3 f4
  have hY : (civilFromDays z).y = if monthOf (doyOf (doeOf z)) ≤ 2
      then yoeOf (doeOf z) + 400 * eraOf z + 1 else yoeOf (doeOf z) + 400 * eraOf z := rfl
  have hM : (civilFromDays z).m = monthOf (doyOf (doeOf z)) := rfl
  have hD : (civilFromDays z).d = domOf (doyOf (doeOf z)) := rfl
  have hmono : monthOf (doyOf (doeOf z)) = if mpOf (doyOf (doeOf z)) < 10
      then mpOf (doyOf (doeOf z)) + 3 else mpOf (doyOf (doeOf z)) - 9 := rfl
  have hmpd : mpOf (doyOf (doeOf z)) = (5 * doyOf (doeOf z) + 2) / 153 := rfl
  have hyoed : yoeOf (doeOf z) = 100 * centOf (doeOf z) + yocOf (docOf (doeOf z)) := rfl
  have hdoyd : doyOf (doeOf z) = doyOfDoc (docOf (doeOf z)) := rfl
  -- a 366th day of the March-based year forces a leap February
  have hleap : doyOf (doeOf z) = 365 → yocOf (docOf (doeOf z)) % 4 = 3 ∧
      (yocOf (docOf (doeOf z)) ≠ 99 ∨ centOf (doeOf z) = 3) := by
    intro h365
    have hdocd : docOf (doeOf z) = doeOf z - 36524 * centOf (doeOf z) := rfl
    have hyocd : yocOf (docOf (doeOf z)) = (4 * docOf (doeOf z) + 3) / 1461 := rfl
    have hdyd : doyOfDoc (docOf (doeOf z)) = (4 * docOf (doeOf z) + 3) % 1461 / 4 := rfl
    constructor
    · omega
    · by_contra hcon
      push_neg at hcon
      obtain ⟨hj99, hcne⟩ := hcon
      have := c5 (by omega)
      omega
  unfold YMD.Valid
  rw [hY, hM, hD, hmono]
  rcases lt_or_le (mpOf (doyOf (doeOf z))) 10 with hc | hc
  · rw [if_pos hc, if_neg (by omega)]
    unfold daysInMonth
    rw [if_neg (by omega)]
    have hdom : domOf (doyOf (doeOf z))
        = doyOf (doeOf z) - (153 * mpOf (doyOf (doeOf z)) + 2) / 5 + 1 := rfl
    split_ifs with h30 <;> omega
  · rw [if_neg (by omega), if_pos (by omega)]
    have hdom : domOf (doyOf (doeOf z))
        = doyOf (doeOf z) - (153 * mpOf (doyOf (doeOf z)) + 2) / 5 + 1 := rfl
    unfold daysInMonth isLeap
    split_ifs with h2 hlp
    · -- February of a leap year: at most 29 days
      omega
    · -- February of a non-leap year: at most 28 days; `doy = 365` is impossible
      rcases lt_or_le (domOf (doyOf (doeOf z))) 29 with hlt | hge
      · omega
      · exfalso
        have h365 : doyOf (doeOf z) = 365 := by omega
        obtain ⟨hj4, hj99⟩ := hleap h365
        push_neg at hlp
        omega
    · omega
    · omega

theorem dfc_expand (x : YMD) : daysFromCivil x = 146097 * (yyOf x / 400)
    + ystart (yyOf x - 400 * (yyOf x / 400)) + (153 * mpOfMonth x.m + 2) / 5 + x.d - 1
    - 719468 := rfl

theorem ystart_succ (v : Int) (h1 : 0 ≤ v) (h2 : v ≤ 398) :
    ystart (v + 1) = ystart v +
      (if ((v + 1) % 4 = 0 ∧ (v + 1) % 100 ≠ 0) ∨ (v + 1) % 400 = 0 then 366 else 365) := by
  have e1 := ystart_eq (v + 1)
  have e2 := ystart_eq v
  split_ifs with h <;> omega

/-- 1 March is the day after the last day of February. -/
theorem month_boundary_feb (Y : Int) :
    daysFromCivil ⟨Y, 3, 1⟩ = daysFromCivil ⟨Y, 2, daysInMonth Y 2⟩ + 1 := by
  have e1 := dfc_expand ⟨Y, 3, 1⟩
  have e2 := dfc_expand ⟨Y, 2, daysInMonth Y 2⟩
  dsimp only at e1 e2
  unfold yyOf mpOfMonth at e1 e2
  dsimp only at e1 e2
  rw [if_neg (by norm_num), if_pos (by norm_num)] at e1
  rw [if_pos (by norm_num), if_neg (by norm_num)] at e2
  norm_num at e1 e2
  rw [e1, e2]
  unfold daysInMonth isLeap
  rw [if_pos rfl]
  rcases lt_or_le (Y - 1 - 400 * ((Y - 1) / 400)) 399 with hv | hv
  · rw [show Y / 400 = (Y - 1) / 400 from by omega]
    rw [show Y - 400 * ((Y - 1) / 400) = (Y - 1 - 400 * ((Y - 1) / 400)) + 1 from by ring]
    rw [ystart_succ _ (by omega) (by omega)]
    split_ifs <;> omega
  · rw [show Y / 400 = (Y - 1) / 400 + 1 from by omega]
    rw [show Y - 400 * ((Y - 1) / 400 + 1) = 0 from by omega]
    rw [show ystart 0 = 0 from rfl]
    rw [show Y - 1 - 400 * ((Y - 1) / 400) = 399 from by omega]
    rw [show ystart 399 = 145731 from by decide]
    split_ifs <;> omega

set_option maxHeartbeats 1600000 in
/-- The serial day after the last day of a month is the first day of the next
month (within a year). -/
theorem month_boundary (Y m : Int) (h1 : 1 ≤ m) (h2 : m ≤ 11) :
    daysFromCivil ⟨Y, m + 1, 1⟩ = daysFromCivil ⟨Y, m, daysInMonth Y m⟩ + 1 := by
  have e1 := dfc_expand ⟨Y, m + 1, 1⟩
  have e2 := dfc_expand ⟨Y, m, daysInMonth Y m⟩
  dsimp only at e1 e2
  unfold yyOf mpOfMonth at e1 e2
  dsimp only at e1 e2
  rcases eq_or_ne m 2 with rfl | hne
  · exact month_boundary_feb Y
  · rw [e1, e2]
    unfold daysInMonth isLeap
    interval_cases m <;> split_ifs at * <;> omega

/-- The serial day after 31 December is 1 January of the next year. -/
theorem year_boundary (Y : Int) :
    daysFromCivil ⟨Y + 1, 1, 1⟩ = daysFromCivil ⟨Y, 12, 31⟩ + 1 := by
  have e1 := dfc_expand ⟨Y + 1, 1, 1⟩
  have e2 := dfc_expand ⟨Y, 12, 31⟩
  dsimp only at e1 e2
  unfold yyOf mpOfMonth at e1 e2
  dsimp only at e1 e2
  rw [show Y + 1 - 1 = Y from by ring] at e1
  split_ifs at e1 e2 <;> omega

/-- `daysFromCivil` is injective on real calendar dates. -/
theorem daysFromCivil_inj (a b : YMD) (ha : a.Valid) (hb : b.Valid)
    (h : daysFromCivil a = daysFromCivil b) : a = b := by
  have h1 := civilFromDays_daysFromCivil a ha
  have h2 := civilFromDays_daysFromCivil b hb
  rw [← h1, ← h2, h]

/-- `daysFromCivil x` only depends on the day through a `+ (d - 1)` term. -/
theorem dfc_linear_d (y m d : Int) :
    daysFromCivil ⟨y, m, d⟩ = daysFromCivil ⟨y, m, 1⟩ + d - 1 := by
  have e1 := dfc_expand ⟨y, m, d⟩
  have e2 := dfc_expand ⟨y, m, 1⟩
  dsimp only at e1 e2
  unfold yyOf at e1 e2
  dsimp only at e1 e2
  split_ifs at e1 e2 <;> omega

/-- Serial day produced by `Date.UTC(y, monthIndex, day)`: two-digit years are
remapped to 19xx and out-of-range month/day components are normalised, exactly
as the ECMAScript `MakeDay` algorithm does. -/
def jsDateUTCserial (y mIdx d : Int) : Int :=
  let yr := if 0 ≤ y ∧ y ≤ 99 then 1900 + y else y
  let t := 12 * yr + mIdx
  daysFromCivil ⟨t / 12, t % 12 + 1, 1⟩ + d - 1

/-- Civil date produced by `Date.UTC(y, monthIndex, day)` followed by reading
the UTC year/month/day fields back. -/
def jsDateUTC (y mIdx d : Int) : YMD := civilFromDays (jsDateUTCserial y mIdx d)

/-- On a real calendar date with a four-digit-safe year, `Date.UTC` is the
identity (no remapping, no normalisation). -/
theorem jsDateUTC_id (x : YMD) (hx : x.Valid) (hy : 100 ≤ x.y) :
    jsDateUTC x.y (x.m - 1) x.d = x := by
  obtain ⟨h1, h2, h3, h4⟩ := hx
  have hs : jsDateUTCserial x.y (x.m - 1) x.d = daysFromCivil x := by
    have he : jsDateUTCserial x.y (x.m - 1) x.d
        = daysFromCivil ⟨(12 * (if 0 ≤ x.y ∧ x.y ≤ 99 then 1900 + x.y else x.y) + (x.m - 1)) / 12,
            (12 * (if 0 ≤ x.y ∧ x.y ≤ 99 then 1900 + x.y else x.y) + (x.m - 1)) % 12 + 1, 1⟩
          + x.d - 1 := rfl
    rw [he, if_neg (by omega)]
    have hq : (12 * x.y + (x.m - 1)) / 12 = x.y := by omega
    have hr : (12 * x.y + (x.m - 1)) % 12 + 1 = x.m := by omega
    rw [hq, hr]
    have := dfc_linear_d x.y x.m x.d
    calc daysFromCivil ⟨x.y, x.m, 1⟩ + x.d - 1
        = daysFromCivil ⟨x.y, x.m, x.d⟩ := by omega
      _ = daysFromCivil x := rfl
  unfold jsDateUTC
  rw [hs]
  exact civilFromDays_daysFromCivil x ⟨h1, h2, h3, h4⟩

/-- `Date.UTC(y, m, 0)` (day zero of the next month index) is the last day of
month `m`, the clamping target used by `isoAddYears`. -/
theorem jsDateUTC_day0 (Y m : Int) (h1 : 1 ≤ m) (h2 : m ≤ 12) (hy : 100 ≤ Y) :
    jsDateUTC Y m 0 = ⟨Y, m, daysInMonth Y m⟩ := by
  have hvalid : (YMD.mk Y m (daysInMonth Y m)).Valid := by
    unfold YMD.Valid daysInMonth isLeap
    dsimp only
    split_ifs <;> omega
  have he : jsDateUTCserial Y m 0
      = daysFromCivil ⟨(12 * (if 0 ≤ Y ∧ Y ≤ 99 then 1900 + Y else Y) + m) / 12,
          (12 * (if 0 ≤ Y ∧ Y ≤ 99 then 1900 + Y else Y) + m) % 12 + 1, 1⟩ + 0 - 1 := rfl
  rcases lt_or_le m 12 with hm | hm
  · have hs : jsDateUTCserial Y m 0 = daysFromCivil ⟨Y, m, daysInMonth Y m⟩ := by
      rw [he, if_neg (by omega)]
      have hq : (12 * Y + m) / 12 = Y := by omega
      have hr : (12 * Y + m) % 12 + 1 = m + 1 := by omega
      rw [hq, hr, month_boundary Y m h1 (by omega)]
      omega
    unfold jsDateUTC
    rw [hs]
    exact civilFromDays_daysFromCivil _ hvalid
  · have hm12 : m = 12 := by omega
    subst hm12
    have hs : jsDateUTCserial Y 12 0 = daysFromCivil ⟨Y, 12, daysInMonth Y 12⟩ := by
      rw [he, if_neg (by omega)]
      have hq : (12 * Y + 12) / 12 = Y + 1 := by omega
      have hr : (12 * Y + 12) % 12 + 1 = 1 := by omega
      rw [hq, hr, year_boundary Y]
      have hdim : daysInMonth Y 12 = 31 := by unfold daysInMonth; norm_num
      rw [hdim]
      omega
    unfold jsDateUTC
    rw [hs]
    exact civilFromDays_daysFromCivil _ hvalid

/-! ### App-level date helpers (translations of the dashboard's date utilities) -/

/-- `isoPlusDays` (add N days via JS `Date`). -/
def isoPlusDays (x : YMD) (n : Int) : YMD := civilFromDays (daysFromCivil x + n)

/-- `isoMinusDays` (subtract N days via JS `Date`). -/
def isoMinusDays (x : YMD) (n : Int) : YMD := civilFromDays (daysFromCivil x - n)

/-- `getUTCDay` on a serial day: 0 = Sunday (1970-01-01 was a Thursday). -/
def dowOfSerial (z : Int) : Int := (z + 4) % 7

/-- `startOfWeekISO` (week starts on Monday), acting on serial days. -/
def startOfWeekSerial (z : Int) : Int :=
  z + (if dowOfSerial z = 0 then -6 else 1 - dowOfSerial z)

/-- `startOfWeekISO` on a date key. -/
def startOfWeekISO (x : YMD) : YMD := civilFromDays (startOfWeekSerial (daysFromCivil x))

/-- `isoAddYears` from `computeKPIs`: try the same month/day in the target
year; if `Date.UTC` does not round-trip it (the day does not exist), fall back
to `Date.UTC(y + delta, m, 0)`, the last day of the target month. -/
def isoAddYears (x : YMD) (delta : Int) : YMD :=
  let tryDt := jsDateUTC (x.y + delta) (x.m - 1) x.d
  if tryDt = ⟨x.y + delta, x.m, x.d⟩ then tryDt
  else jsDateUTC (x.y + delta) x.m 0

/-! ### The time-series store

`dataMap` is a string-keyed JS `Map`; `sortedDaily` is its entry list in
ascending key order.  We model the entry list directly.  All store keys are
canonical zero-padded `YYYY-MM-DD` strings of real calendar dates (both
parsers validate), so the triple representation and serial ordering are
faithful; the hypotheses `ValidStore` (with four-digit years whose prior year
is still four-digit and unpadded year arithmetic in template strings stays
four-digit, i.e. `1001 ≤ y`) and `NodupDates` (JS `Map` keys are unique)
record exactly the invariants the code guarantees. -/

structure DP where
  date : YMD
  value : ℚ
deriving DecidableEq, Repr

def ValidStore (l : List DP) : Prop :=
  ∀ p ∈ l, p.date.Valid ∧ 1001 ≤ p.date.y ∧ p.date.y ≤ 9999

instance (l : List DP) : Decidable (ValidStore l) := by
  unfold ValidStore; infer_instance

def NodupDates (l : List DP) : Prop := (l.map (fun p => p.date)).Nodup

instance (l : List DP) : Decidable (NodupDates l) := by
  unfold NodupDates; infer_instance

/-- Sorted ascending by date, as `sortedDaily` is. -/
def SortedStore (l : List DP) : Prop :=
  l.Pairwise (fun a b => daysFromCivil a.date < daysFromCivil b.date)

instance (l : List DP) : Decidable (SortedStore l) := by
  unfold SortedStore; infer_instance

/-- `dailyLookup.get d`: the stored value at date key `d`. -/
def lookup (l : List DP) (d : YMD) : Option ℚ :=
  (l.find? (fun p => decide (p.date = d))).map (fun p => p.value)

theorem lookup_eq_none_iff (l : List DP) (d : YMD) :
    lookup l d = none ↔ ∀ p ∈ l, p.date ≠ d := by
  unfold lookup
  rw [Option.map_eq_none', List.find?_eq_none]
  simp

theorem lookup_eq_some_iff (l : List DP) (hnd : NodupDates l) (d : YMD) (v : ℚ) :
    lookup l d = some v ↔ DP.mk d v ∈ l := by
  induction l with
  | nil => simp [lookup]
  | cons p l ih =>
    have hnd' : NodupDates l := by
      unfold NodupDates at *
      exact (List.nodup_cons.mp hnd).2
    have hni : p.date ∉ l.map (fun q => q.date) := by
      unfold NodupDates at hnd
      exact (List.nodup_cons.mp hnd).1
    by_cases he : p.date = d
    · rw [lookup, List.find?_cons_of_pos _ (by simpa using he)]
      simp only [Option.map_some', Option.some.injEq, List.mem_cons]
      constructor
      · intro hv
        left
        obtain ⟨pd, pv⟩ := p
        simp only at he hv
        rw [he, hv]
      · rintro (hmk | hmem)
        · rw [← hmk]
        · exact absurd (he ▸ List.mem_map.mpr ⟨_, hmem, rfl⟩) hni
    · rw [lookup, List.find?_cons_of_neg _ (by simpa using he)]
      rw [show Option.map (fun p => p.value) (List.find? (fun p => decide (p.date = d)) l)
          = lookup l d from rfl, ih hnd']
      simp only [List.mem_cons]
      constructor
      · exact Or.inr
      · rintro (hmk | hmem)
        · exact absurd (show p.date = d from by rw [← hmk]) he
        · exact hmem

/-! ### Gap-tolerant accumulation

Every aggregation loop in the dashboard shares one shape: walk a list of
candidate keys, add the stored value when the key is present, and remember
whether anything was found (`hasAny ? s : null`).  `sumKeysOpt` is that loop;
`specSum` is the specification-level description (the sum over the store
entries whose key qualifies, or `none` when there are none). -/

def sumKeysOpt {κ : Type} (f : κ → Option ℚ) : List κ → Option ℚ
  | [] => none
  | k :: ks =>
    match f k, sumKeysOpt f ks with
    | none, r => r
    | some v, none => some v
    | some v, some s => some (v + s)

def specSum (l : List DP) (p : DP → Bool) : Option ℚ :=
  if (l.filter p).isEmpty then none
  else some (((l.filter p).map (fun q => q.value)).sum)

theorem sumKeysOpt_eq_none_iff {κ : Type} (f : κ → Option ℚ) (ks : List κ) :
    sumKeysOpt f ks = none ↔ ∀ k ∈ ks, f k = none := by
  induction ks with
  | nil => simp [sumKeysOpt]
  | cons k ks ih =>
    unfold sumKeysOpt
    rcases hf : f k with - | v
    · simpa [hf] using ih
    · rcases hs : sumKeysOpt f ks with - | s <;> simp [hf]

theorem sumKeysOpt_eq_some (f : YMD → Option ℚ) (ks : List YMD)
    (h : ¬ ∀ k ∈ ks, f k = none) :
    sumKeysOpt f ks = some ((ks.map (fun k => (f k).getD 0)).sum) := by
  induction ks with
  | nil => simp at h
  | cons k ks ih =>
    unfold sumKeysOpt
    rcases hf : f k with - | v
    · have h' : ¬ ∀ k ∈ ks, f k = none := by
        intro hall
        exact h (by
          intro k' hk'
          rcases List.mem_cons.mp hk' with rfl | hmem
          · exact hf
          · exact hall k' hmem)
      rw [ih h']
      simp [hf]
    · rcases hs : sumKeysOpt f ks with - | s
      · have hall := (sumKeysOpt_eq_none_iff f ks).mp hs
        have hmap : (ks.map (fun k => (f k).getD 0)).sum = 0 := by
          rw [List.sum_eq_zero]
          intro q hq
          obtain ⟨k', hk', rfl⟩ := List.mem_map.mp hq
          rw [hall k' hk']
          rfl
        simp [hf, hmap]
      · have h' : ¬ ∀ k' ∈ ks, f k' = none := by
          intro hall
          rw [(sumKeysOpt_eq_none_iff f ks).mpr hall] at hs
          cases hs
        have := ih h'
        rw [hs] at this
        simp only [Option.some.injEq] at this
        simp [hf, this]

/-- Splitting the sum of values over a disjunction of disjoint predicates. -/
theorem sum_filter_or (l : List DP) (p q : DP → Bool)
    (hdisj : ∀ x ∈ l, ¬(p x = true ∧ q x = true)) :
    ((l.filter (fun x => p x || q x)).map (fun x => x.value)).sum
      = ((l.filter p).map (fun x => x.value)).sum
        + ((l.filter q).map (fun x => x.value)).sum := by
  induction l with
  | nil => simp
  | cons a l ih =>
    have hd : ¬(p a = true ∧ q a = true) := hdisj a (List.mem_cons_self a l)
    have ih' := ih (fun x hx => hdisj x (List.mem_cons_of_mem a hx))
    by_cases hp : p a = true
    · have hq : q a = false := by
        rcases hq0 : q a with - | -
        · rfl
        · exact absurd ⟨hp, hq0⟩ hd
      simp only [List.filter_cons, hp, hq, Bool.true_or, if_true, List.map_cons, List.sum_cons,
        Bool.false_eq_true, if_false]
      rw [ih']
      ring
    · rw [Bool.not_eq_true] at hp
      by_cases hq : q a = true
      · simp only [List.filter_cons, hp, hq, Bool.false_or, if_true, List.map_cons, List.sum_cons]
        simp only [Bool.false_eq_true, if_false]
        rw [ih']
        ring
      · rw [Bool.not_eq_true] at hq
        simp only [List.filter_cons, hp, hq, Bool.or_self, Bool.false_eq_true, if_false]
        exact ih'

/-- A date-equality filter sums to the looked-up value when keys are unique. -/
theorem sum_filter_eq_lookup (l : List DP) (hnd : NodupDates l) (k : YMD) :
    ((l.filter (fun p => decide (p.date = k))).map (fun p => p.value)).sum
      = (lookup l k).getD 0 := by
  induction l with
  | nil => simp [lookup]
  | cons p l ih =>
    have hnd' : NodupDates l := by
      unfold NodupDates at *
      exact (List.nodup_cons.mp hnd).2
    have hni : p.date ∉ l.map (fun q => q.date) := by
      unfold NodupDates at hnd
      exact (List.nodup_cons.mp hnd).1
    by_cases he : p.date = k
    · rw [lookup, List.find?_cons_of_pos _ (by simpa using he)]
      have hrest : l.filter (fun q => decide (q.date = k)) = [] := by
        rw [List.filter_eq_nil_iff]
        intro q hq
        simp only [decide_eq_true_eq]
        intro hqk
        exact hni (he ▸ hqk ▸ List.mem_map.mpr ⟨q, hq, rfl⟩)
      simp [List.filter_cons, he, hrest]
    · rw [lookup, List.find?_cons_of_neg _ (by simpa using he)]
      rw [show Option.map (fun p => p.value) (List.find? (fun p => decide (p.date = k)) l)
          = lookup l k from rfl]
      rw [List.filter_cons, if_neg (by simpa using he)]
      exact ih hnd'

/-- A member's own date always looks up its value (dates unique). -/
theorem lookup_self (l : List DP) (hnd : NodupDates l) (p : DP) (hp : p ∈ l) :
    lookup l p.date = some p.value := by
  rw [lookup_eq_some_iff l hnd]
  obtain ⟨d, v⟩ := p
  exact hp

theorem specSum_eq_none_iff (l : List DP) (pb : DP → Bool) :
    specSum l pb = none ↔ ∀ q ∈ l, ¬ pb q = true := by
  unfold specSum
  split_ifs with h
  · simp only [true_iff]
    rw [List.isEmpty_iff, List.filter_eq_nil_iff] at h
    exact h
  · constructor
    · intro h'
      cases h'
    · intro hforall
      exfalso
      apply h
      rw [List.isEmpty_iff, List.filter_eq_nil_iff]
      exact hforall

theorem map_getD_sum (l : List DP) (hnd : NodupDates l) (ks : List YMD) (hk : ks.Nodup) :
    (ks.map (fun k => (lookup l k).getD 0)).sum
      = ((l.filter (fun p => decide (p.date ∈ ks))).map (fun p => p.value)).sum := by
  induction ks with
  | nil => simp
  | cons k ks ih =>
    have hk' : ks.Nodup := (List.nodup_cons.mp hk).2
    have hkn : k ∉ ks := (List.nodup_cons.mp hk).1
    have hfeq : l.filter (fun p => decide (p.date ∈ k :: ks))
        = l.filter (fun p => decide (p.date = k) || decide (p.date ∈ ks)) := by
      apply List.filter_congr
      intro p hp
      simp [List.mem_cons]
    rw [List.map_cons, List.sum_cons, hfeq]
    rw [sum_filter_or l _ _ (by
      intro x hx hcon
      obtain ⟨h1, h2⟩ := hcon
      simp only [decide_eq_true_eq] at h1 h2
      exact hkn (h1 ▸ h2))]
    rw [sum_filter_eq_lookup l hnd k, ih hk']

/-- The accumulation loop over a duplicate-free key list computes exactly the
specification sum over entries whose date is among the keys. -/
theorem sumKeysOpt_lookup_spec (l : List DP) (hnd : NodupDates l)
    (ks : List YMD) (hk : ks.Nodup) :
    sumKeysOpt (lookup l) ks = specSum l (fun p => decide (p.date ∈ ks)) := by
  by_cases hall : ∀ k ∈ ks, lookup l k = none
  · rw [(sumKeysOpt_eq_none_iff _ _).mpr hall]
    symm
    rw [specSum_eq_none_iff]
    intro q hq
    simp only [decide_eq_true_eq]
    intro hmem
    have hself := lookup_self l hnd q hq
    rw [hall q.date hmem] at hself
    cases hself
  · rw [sumKeysOpt_eq_some _ _ hall, map_getD_sum l hnd ks hk]
    unfold specSum
    rw [if_neg ?hne]
    case hne =>
      push_neg at hall
      obtain ⟨k, hkmem, hk0⟩ := hall
      intro hemp
      rw [List.isEmpty_iff, List.filter_eq_nil_iff] at hemp
      rcases hlk : lookup l k with - | v
      · exact hk0 hlk
      · have hin := (lookup_eq_some_iff l hnd k v).mp hlk
        exact hemp _ hin (by simpa using hkmem)

/-! ### Inclusive day ranges -/

def serialsFromTo (a b : Int) : List Int :=
  (List.range (b + 1 - a).toNat).map (fun i : Nat => a + (i : Int))

def datesFromTo (a b : Int) : List YMD := (serialsFromTo a b).map civilFromDays

theorem mem_serialsFromTo (a b s : Int) :
    s ∈ serialsFromTo a b ↔ a ≤ s ∧ s ≤ b := by
  unfold serialsFromTo
  rw [List.mem_map]
  constructor
  · rintro ⟨i, hi, hs⟩
    rw [List.mem_range] at hi
    omega
  · intro h
    refine ⟨(s - a).toNat, ?_, ?_⟩
    · rw [List.mem_range]
      omega
    · omega

theorem nodup_serialsFromTo (a b : Int) : (serialsFromTo a b).Nodup := by
  unfold serialsFromTo
  refine List.Nodup.map ?_ (List.nodup_range _)
  intro i j hij
  simp only at hij
  omega

theorem civilFromDays_injective (z1 z2 : Int) (h : civilFromDays z1 = civilFromDays z2) :
    z1 = z2 := by
  have := congrArg daysFromCivil h
  rwa [daysFromCivil_civilFromDays, daysFromCivil_civilFromDays] at this

theorem nodup_datesFromTo (a b : Int) : (datesFromTo a b).Nodup := by
  unfold datesFromTo
  apply List.Nodup.map
  · intro z1 z2 h
    exact civilFromDays_injective z1 z2 h
  · exact nodup_serialsFromTo a b

theorem mem_datesFromTo (x : YMD) (hx : x.Valid) (a b : Int) :
    x ∈ datesFromTo a b ↔ a ≤ daysFromCivil x ∧ daysFromCivil x ≤ b := by
  unfold datesFromTo
  simp only [List.mem_map]
  constructor
  · rintro ⟨s, hs, rfl⟩
    rw [daysFromCivil_civilFromDays]
    exact (mem_serialsFromTo a b s).mp hs
  · intro h
    exact ⟨daysFromCivil x, (mem_serialsFromTo a b _).mpr h, civilFromDays_daysFromCivil x hx⟩

theorem specSum_congr (l : List DP) (p q : DP → Bool) (h : ∀ x ∈ l, p x = q x) :
    specSum l p = specSum l q := by
  unfold specSum
  rw [List.filter_congr h]

/-- `sumRangeInclusive` (the rolling-sum helper of `dailyForChart`): `null` on
an inverted range, else walk the inclusive day range accumulating stored
values, `null` when no day in the window has data. -/
def sumRangeInclusive (l : List DP) (a b : Int) : Option ℚ :=
  if b < a then none else sumKeysOpt (lookup l) (datesFromTo a b)

theorem sumRangeInclusive_spec (l : List DP) (hnd : NodupDates l) (hval : ValidStore l)
    (a b : Int) :
    sumRangeInclusive l a b
      = specSum l (fun p => decide (a ≤ daysFromCivil p.date ∧ daysFromCivil p.date ≤ b)) := by
  unfold sumRangeInclusive
  split_ifs with h
  · symm
    rw [specSum_eq_none_iff]
    intro q hq
    simp only [decide_eq_true_eq]
    omega
  · rw [sumKeysOpt_lookup_spec l hnd _ (nodup_datesFromTo a b)]
    apply specSum_congr
    intro p hp
    have hpv := (hval p hp).1
    simp only [decide_eq_decide]
    exact mem_datesFromTo p.date hpv a b

/-- Count of days in a key list that have data. -/
def countKeys (l : List DP) (ks : List YMD) : Nat :=
  (ks.filter (fun k => (lookup l k).isSome)).length

/-- `sumAndCountInclusive` from `computeKPIs`: `(null, 0)` on an inverted
range, else the gap-tolerant sum and the number of days with data. -/
def sumAndCountInclusive (l : List DP) (s e : YMD) : Option ℚ × Nat :=
  if daysFromCivil e < daysFromCivil s then (none, 0)
  else (sumKeysOpt (lookup l) (datesFromTo (daysFromCivil s) (daysFromCivil e)),
        countKeys l (datesFromTo (daysFromCivil s) (daysFromCivil e)))

/-! ### GrowthCalculator -/

/-- `safeDiv`: division that yields `null` for a missing or zero denominator. -/
def safeDiv (n : ℚ) (d : Option ℚ) : Option ℚ :=
  match d with
  | none => none
  | some d => if d = 0 then none else some (n / d)

/-- `growthPct(curr, prev) = safeDiv(curr - prev, prev) * 100`. -/
def growthPct (curr prev : ℚ) : Option ℚ :=
  (safeDiv (curr - prev) (some prev)).map (fun r => r * 100)

/-- C7: `growthPct(curr, prev)` equals `(curr - prev) / prev * 100` whenever
the denominator is non-null and nonzero, and is null whenever the denominator
is null (via `safeDiv`) or exactly zero — never an error; consequently
`growthPct x x = 0` for nonzero `x`, `growthPct x 0 = null` for every `x`,
and `growthPct 0 p = -100` for nonzero `p`, with no clamping of extreme
percentages. -/
theorem safeDiv_some (n d : ℚ) : safeDiv n (some d) = if d = 0 then none else some (n / d) :=
  rfl

theorem growthPct_characterisation :
    (∀ curr prev : ℚ, prev ≠ 0 → growthPct curr prev = some ((curr - prev) / prev * 100)) ∧
    (∀ curr : ℚ, growthPct curr 0 = none) ∧
    (∀ n : ℚ, safeDiv n none = none) ∧
    (∀ x : ℚ, x ≠ 0 → growthPct x x = some 0) ∧
    (∀ p : ℚ, p ≠ 0 → growthPct 0 p = some (-100)) := by
  refine ⟨?_, ?_, ?_, ?_, ?_⟩
  · intro curr prev h
    unfold growthPct
    rw [safeDiv_some, if_neg h]
    rfl
  · intro curr
    unfold growthPct
    rw [safeDiv_some, if_pos rfl]
    rfl
  · intro n
    rfl
  · intro x h
    unfold growthPct
    rw [safeDiv_some, if_neg h]
    simp
  · intro p h
    unfold growthPct
    rw [safeDiv_some, if_neg h]
    simp only [Option.map_some', Option.some.injEq, zero_sub]
    field_simp

/-- Witness for C7 at concrete inputs. -/
theorem growthPct_characterisation_witness :
    growthPct 5 5 = some 0 ∧ growthPct 7 0 = none ∧
    growthPct 0 4 = some (-100) ∧ growthPct 150 100 = some 50 := by
  have h := growthPct_characterisation
  refine ⟨h.2.2.2.1 5 (by norm_num), h.2.1 7, h.2.2.2.2 4 (by norm_num), ?_⟩
  rw [h.1 150 100 (by norm_num)]
  norm_num

/-! ### KPIReporter (`computeKPIs`) -/

structure KPIs where
  latest : Option DP
  latestYoY : Option ℚ
  avg7 : Option ℚ
  avg7YoY : Option ℚ
  avg30 : Option ℚ
  avg30YoY : Option ℚ
  ytdTotal : Option ℚ
  ytdYoY : Option ℚ
  mtdAvg : Option ℚ
  mtdYoY : Option ℚ
deriving DecidableEq, Repr

/-- `sum != null && count ? sum / count : null`. -/
def avgOf (sc : Option ℚ × Nat) : Option ℚ :=
  match sc.1 with
  | none => none
  | some s => if sc.2 = 0 then none else some (s / (sc.2 : ℚ))

/-- Null-guarded growth: `a != null && b != null ? growthPct(a, b) : null`. -/
def growthOpt (a b : Option ℚ) : Option ℚ :=
  match a, b with
  | some a, some b => growthPct a b
  | _, _ => none

/-- `computeKPIs` (headline metrics with their YoY comparators). -/
def computeKPIs (sortedDaily : List DP) : KPIs :=
  match sortedDaily.getLast? with
  | none => ⟨none, none, none, none, none, none, none, none, none, none⟩
  | some latest =>
    let prevYearDate := isoAddYears latest.date (-1)
    let prevYearVal := lookup sortedDaily prevYearDate
    let latestYoY := match prevYearVal with
      | some pv => growthPct latest.value pv
      | none => none
    let s7 := isoMinusDays latest.date 6
    let avg7 := avgOf (sumAndCountInclusive sortedDaily s7 latest.date)
    let avg7PY := avgOf (sumAndCountInclusive sortedDaily
      (isoAddYears s7 (-1)) (isoAddYears latest.date (-1)))
    let s30 := isoMinusDays latest.date 29
    let avg30 := avgOf (sumAndCountInclusive sortedDaily s30 latest.date)
    let avg30PY := avgOf (sumAndCountInclusive sortedDaily
      (isoAddYears s30 (-1)) (isoAddYears latest.date (-1)))
    let fyStartYear := if 4 ≤ latest.date.m then latest.date.y else latest.date.y - 1
    let ytdTotal := (sumAndCountInclusive sortedDaily ⟨fyStartYear, 4, 1⟩ latest.date).1
    let ytdTotalPY := (sumAndCountInclusive sortedDaily ⟨fyStartYear - 1, 4, 1⟩
      (isoAddYears latest.date (-1))).1
    let thisMonthStart : YMD := ⟨latest.date.y, latest.date.m, 1⟩
    let mtdAvg := avgOf (sumAndCountInclusive sortedDaily thisMonthStart latest.date)
    let mtdAvgPY := avgOf (sumAndCountInclusive sortedDaily
      (isoAddYears thisMonthStart (-1)) (isoAddYears latest.date (-1)))
    { latest := some latest
      latestYoY := latestYoY
      avg7 := avg7
      avg7YoY := growthOpt avg7 avg7PY
      avg30 := avg30
      avg30YoY := growthOpt avg30 avg30PY
      ytdTotal := ytdTotal
      ytdYoY := growthOpt ytdTotal ytdTotalPY
      mtdAvg := mtdAvg
      mtdYoY := growthOpt mtdAvg mtdAvgPY }

theorem sumAndCountInclusive_fst (l : List DP) (s e : YMD) :
    (sumAndCountInclusive l s e).1 = sumRangeInclusive l (daysFromCivil s) (daysFromCivil e) := by
  unfold sumAndCountInclusive sumRangeInclusive
  split_ifs <;> rfl

theorem sorted_last_max (l : List DP) (hsort : SortedStore l) (latest : DP)
    (hlast : l.getLast? = some latest) :
    ∀ p ∈ l, daysFromCivil p.date ≤ daysFromCivil latest.date := by
  induction l with
  | nil => cases hlast
  | cons a l ih =>
    intro p hp
    rcases List.mem_cons.mp hp with rfl | hmem
    · rcases hl : l with - | ⟨b, l'⟩
      · rw [hl] at hlast
        simp only [List.getLast?_singleton, Option.some.injEq] at hlast
        rw [hlast]
      · have hlast' : l.getLast? = some latest := by
          rw [hl] at hlast ⊢
          rw [List.getLast?_cons_cons] at hlast
          exact hlast
        have hmem' : latest ∈ l := List.mem_of_getLast?_eq_some hlast'
        have hrel := (List.pairwise_cons.mp hsort).1 latest hmem'
        exact le_of_lt hrel
    · have hsort' : SortedStore l := (List.pairwise_cons.mp hsort).2
      have hlast' : l.getLast? = some latest := by
        rcases hl : l with - | ⟨b, l'⟩
        · rw [hl] at hmem
          cases hmem
        · rw [hl] at hlast
          rw [List.getLast?_cons_cons] at hlast
          exact hlast
      exact ih hsort' hlast' p hmem

theorem computeKPIs_fields (l : List DP) (latest : DP) (hlast : l.getLast? = some latest) :
    (computeKPIs l).ytdTotal = (sumAndCountInclusive l
        ⟨(if 4 ≤ latest.date.m then latest.date.y else latest.date.y - 1), 4, 1⟩ latest.date).1 ∧
    (computeKPIs l).ytdYoY = growthOpt
      (sumAndCountInclusive l
        ⟨(if 4 ≤ latest.date.m then latest.date.y else latest.date.y - 1), 4, 1⟩ latest.date).1
      (sumAndCountInclusive l
        ⟨(if 4 ≤ latest.date.m then latest.date.y else latest.date.y - 1) - 1, 4, 1⟩
        (isoAddYears latest.date (-1))).1 ∧
    (computeKPIs l).latestYoY = (match lookup l (isoAddYears latest.date (-1)) with
      | some pv => growthPct latest.value pv
      | none => none) := by
  unfold computeKPIs
  rw [hlast]
  exact ⟨rfl, rfl, rfl⟩

/-- C5: the fiscal-YTD total is the inclusive sum of stored values from
April 1 of the fiscal start year (the latest date's year when its month is
≥ 4, else the preceding year) through the latest stored date; its YoY
comparator is the sum from the prior fiscal April 1 through the date one year
before the latest date (clamped by `isoAddYears`); each side is null exactly
when its range holds no observation. -/
theorem fiscal_ytd_spec (l : List DP) (hval : ValidStore l) (hnd : NodupDates l)
    (hsort : SortedStore l) (latest : DP) (hlast : l.getLast? = some latest) :
    (∀ p ∈ l, daysFromCivil p.date ≤ daysFromCivil latest.date) ∧
    (computeKPIs l).ytdTotal = specSum l (fun p => decide
      (daysFromCivil ⟨(if 4 ≤ latest.date.m then latest.date.y else latest.date.y - 1), 4, 1⟩
          ≤ daysFromCivil p.date
        ∧ daysFromCivil p.date ≤ daysFromCivil latest.date)) ∧
    (computeKPIs l).ytdYoY = growthOpt
      (specSum l (fun p => decide
        (daysFromCivil ⟨(if 4 ≤ latest.date.m then latest.date.y else latest.date.y - 1), 4, 1⟩
            ≤ daysFromCivil p.date
          ∧ daysFromCivil p.date ≤ daysFromCivil latest.date)))
      (specSum l (fun p => decide
        (daysFromCivil ⟨(if 4 ≤ latest.date.m then latest.date.y else latest.date.y - 1) - 1, 4, 1⟩
            ≤ daysFromCivil p.date
          ∧ daysFromCivil p.date ≤ daysFromCivil (isoAddYears latest.date (-1))))) ∧
    ((computeKPIs l).ytdTotal = none ↔ ∀ p ∈ l,
      ¬(daysFromCivil ⟨(if 4 ≤ latest.date.m then latest.date.y else latest.date.y - 1), 4, 1⟩
          ≤ daysFromCivil p.date
        ∧ daysFromCivil p.date ≤ daysFromCivil latest.date)) := by
  obtain ⟨hk1, hk2, -⟩ := computeKPIs_fields l latest hlast
  have hcur : (sumAndCountInclusive l
      ⟨(if 4 ≤ latest.date.m then latest.date.y else latest.date.y - 1), 4, 1⟩ latest.date).1
      = specSum l (fun p => decide
        (daysFromCivil ⟨(if 4 ≤ latest.date.m then latest.date.y else latest.date.y - 1), 4, 1⟩
            ≤ daysFromCivil p.date
          ∧ daysFromCivil p.date ≤ daysFromCivil latest.date)) := by
    rw [sumAndCountInclusive_fst, sumRangeInclusive_spec l hnd hval]
  have hpy : (sumAndCountInclusive l
      ⟨(if 4 ≤ latest.date.m then latest.date.y else latest.date.y - 1) - 1, 4, 1⟩
      (isoAddYears latest.date (-1))).1
      = specSum l (fun p => decide
        (daysFromCivil ⟨(if 4 ≤ latest.date.m then latest.date.y else latest.date.y - 1) - 1, 4, 1⟩
            ≤ daysFromCivil p.date
          ∧ daysFromCivil p.date ≤ daysFromCivil (isoAddYears latest.date (-1)))) := by
    rw [sumAndCountInclusive_fst, sumRangeInclusive_spec l hnd hval]
  refine ⟨sorted_last_max l hsort latest hlast, ?_, ?_, ?_⟩
  · rw [hk1, hcur]
  · rw [hk2, hcur, hpy]
  · rw [hk1, hcur, specSum_eq_none_iff]
    constructor
    · intro h p hp
      have := h p hp
      simpa using this
    · intro h p hp
      simpa using h p hp

/-- Witness for C5: with data on 2024-03-31, 2024-04-01 and 2024-04-03 the
fiscal-YTD total sums only April (12), and the prior fiscal range holds no
data, so the YoY comparator is null. -/
theorem fiscal_ytd_spec_witness :
    (computeKPIs [⟨⟨2024, 3, 31⟩, 10⟩, ⟨⟨2024, 4, 1⟩, 5⟩, ⟨⟨2024, 4, 3⟩, 7⟩]).ytdTotal
      = some 12 ∧
    (computeKPIs [⟨⟨2024, 3, 31⟩, 10⟩, ⟨⟨2024, 4, 1⟩, 5⟩, ⟨⟨2024, 4, 3⟩, 7⟩]).ytdYoY = none := by
  have h := fiscal_ytd_spec [⟨⟨2024, 3, 31⟩, 10⟩, ⟨⟨2024, 4, 1⟩, 5⟩, ⟨⟨2024, 4, 3⟩, 7⟩]
    (by decide) (by decide) (by decide) ⟨⟨2024, 4, 3⟩, 7⟩ rfl
  refine ⟨?_, ?_⟩
  · rw [h.2.1]
    simp +decide [specSum, List.filter]
    norm_num
  · rw [h.2.2.1]
    simp +decide [specSum, List.filter, growthOpt]

theorem isoAddYears_eq (x : YMD) (delta : Int) :
    isoAddYears x delta =
      if jsDateUTC (x.y + delta) (x.m - 1) x.d = ⟨x.y + delta, x.m, x.d⟩
      then jsDateUTC (x.y + delta) (x.m - 1) x.d
      else jsDateUTC (x.y + delta) x.m 0 := rfl

theorem daysInMonth_pos (Y m : Int) (h1 : 1 ≤ m) (h2 : m ≤ 12) : 1 ≤ daysInMonth Y m := by
  unfold daysInMonth isLeap
  split_ifs <;> omega

/-- `isoAddYears` resolves non-existent target dates (such as Feb 29 shifted to
a non-leap year) to the last valid day of the target month, and is the
identity on the year field otherwise. -/
theorem isoAddYears_clamp (x : YMD) (delta : Int) (hx : x.Valid) (hy : 100 ≤ x.y + delta) :
    isoAddYears x delta =
      if x.d ≤ daysInMonth (x.y + delta) x.m
      then ⟨x.y + delta, x.m, x.d⟩
      else ⟨x.y + delta, x.m, daysInMonth (x.y + delta) x.m⟩ := by
  obtain ⟨h1, h2, h3, h4⟩ := hx
  rw [isoAddYears_eq]
  by_cases hd : x.d ≤ daysInMonth (x.y + delta) x.m
  · have hv : (YMD.mk (x.y + delta) x.m x.d).Valid := ⟨h1, h2, h3, hd⟩
    have hid := jsDateUTC_id ⟨x.y + delta, x.m, x.d⟩ hv hy
    dsimp only at hid
    rw [if_pos hid, if_pos hd]
    exact hid
  · have hne : jsDateUTC (x.y + delta) (x.m - 1) x.d ≠ ⟨x.y + delta, x.m, x.d⟩ := by
      intro heq
      have hv : (jsDateUTC (x.y + delta) (x.m - 1) x.d).Valid :=
        civilFromDays_valid (jsDateUTCserial (x.y + delta) (x.m - 1) x.d)
      rw [heq] at hv
      exact hd hv.2.2.2
    rw [if_neg hne, if_neg hd]
    exact jsDateUTC_day0 (x.y + delta) x.m h1 h2 hy

/-- C6: shifting a date back one year follows a single defined clamping rule
(same month/day when that day exists in the target year, else the last valid
day of the target month), always yielding a valid date; in particular
2024-02-29 shifted back one year resolves to 2023-02-28; and the KPI
latest-day YoY comparator is the growth of the latest value against the
stored value looked up at exactly that clamped fallback date. -/
theorem leap_day_clamp_spec (x : YMD) (hx : x.Valid) (hy : 101 ≤ x.y)
    (l : List DP) (latest : DP) (hlast : l.getLast? = some latest) :
    isoAddYears x (-1) =
      (if x.d ≤ daysInMonth (x.y + -1) x.m
       then ⟨x.y + -1, x.m, x.d⟩
       else ⟨x.y + -1, x.m, daysInMonth (x.y + -1) x.m⟩) ∧
    (isoAddYears x (-1)).Valid ∧
    isoAddYears ⟨2024, 2, 29⟩ (-1) = ⟨2023, 2, 28⟩ ∧
    (computeKPIs l).latestYoY =
      (match lookup l (isoAddYears latest.date (-1)) with
       | some pv => growthPct latest.value pv
       | none => none) := by
  have hc := isoAddYears_clamp x (-1) hx (by omega)
  refine ⟨hc, ?_, by decide, (computeKPIs_fields l latest hlast).2.2⟩
  rw [hc]
  obtain ⟨h1, h2, h3, h4⟩ := hx
  by_cases hd : x.d ≤ daysInMonth (x.y + -1) x.m
  · rw [if_pos hd]
    exact ⟨h1, h2, h3, hd⟩
  · rw [if_neg hd]
    exact ⟨h1, h2, daysInMonth_pos (x.y + -1) x.m h1 h2, le_refl _⟩

/-- Witness for C6: with values 50 on 2023-02-28 and 100 on 2024-02-29, the
latest-day YoY comparator resolves the leap day to 2023-02-28 and reports
+100 %. -/
theorem leap_day_clamp_spec_witness :
    isoAddYears ⟨2024, 2, 29⟩ (-1) = ⟨2023, 2, 28⟩ ∧
    (computeKPIs [⟨⟨2023, 2, 28⟩, 50⟩, ⟨⟨2024, 2, 29⟩, 100⟩]).latestYoY = some 100 := by
  have h := leap_day_clamp_spec ⟨2024, 5, 31⟩ (by decide) (by decide)
    [⟨⟨2023, 2, 28⟩, 50⟩, ⟨⟨2024, 2, 29⟩, 100⟩] ⟨⟨2024, 2, 29⟩, 100⟩ rfl
  refine ⟨h.2.2.1, ?_⟩
  rw [h.2.2.2]
  have hlk : lookup [⟨⟨2023, 2, 28⟩, 50⟩, ⟨⟨2024, 2, 29⟩, 100⟩]
      (isoAddYears (DP.mk ⟨2024, 2, 29⟩ 100).date (-1)) = some 50 := by decide
  rw [hlk]
  norm_num [growthPct, safeDiv]

/-! ### Daily chart mode (`dailyForChart`, `aggFreq = "daily"`)

One output point per stored record in the clamped `[f, t]` range.  The
`label` field of a point is `formatDDMMYYYY` of its date; we carry the date
itself.  `sameDayPrevYear` is string surgery on the key
(`(year - 1) ++ rest`), which for canonical keys with year ≥ 1001 is exactly
the key of the triple `⟨y - 1, m, d⟩`, whether or not that date exists.
`sameDayPrevMonth` goes through `Date.UTC(y, m - 2, d)` and keeps the result
only when its day-of-month equals `d`. -/

def sameDayPrevYear (x : YMD) : YMD := ⟨x.y - 1, x.m, x.d⟩

def sameDayPrevMonth (x : YMD) : Option YMD :=
  let dt := jsDateUTC x.y (x.m - 2) x.d
  if dt.d = x.d then some dt else none

/-- One row of the top chart (`DailyChartPoint`); `date` carries what
`label` formats. -/
structure ChartPoint where
  date : YMD
  units : ℚ
  prev_year_units : Option ℚ
  yoy_pct : Option ℚ
  mom_pct : Option ℚ
deriving DecidableEq, Repr

def dailyPoint (l : List DP) (p : DP) : ChartPoint :=
  { date := p.date
    units := p.value
    prev_year_units := lookup l (sameDayPrevYear p.date)
    yoy_pct := match lookup l (sameDayPrevYear p.date) with
      | some v => growthPct p.value v
      | none => none
    mom_pct := match (sameDayPrevMonth p.date).bind (fun dt => lookup l dt) with
      | some v => growthPct p.value v
      | none => none }

def dailyChart (l : List DP) (f t : Int) : List ChartPoint :=
  (l.filter (fun p => decide (f ≤ daysFromCivil p.date ∧ daysFromCivil p.date ≤ t))).map
    (dailyPoint l)

/-- Year/month of the calendar month immediately before `x`'s month. -/
def prevY (x : YMD) : Int := if x.m = 1 then x.y - 1 else x.y

def prevM (x : YMD) : Int := if x.m = 1 then 12 else x.m - 1

theorem daysInMonth_bounds (Y m : Int) (h1 : 1 ≤ m) (h2 : m ≤ 12) :
    28 ≤ daysInMonth Y m ∧ daysInMonth Y m ≤ 31 := by
  unfold daysInMonth isLeap
  split_ifs <;> omega

/-- `sameDayPrevMonth` succeeds exactly when the same day-of-month exists in
the previous calendar month, and then returns that date; otherwise `Date.UTC`
normalisation rolls the day into the current month, the day check fails, and
the result is `none`. -/
theorem sameDayPrevMonth_char (x : YMD) (hx : x.Valid) (hy : 101 ≤ x.y) :
    sameDayPrevMonth x =
      if x.d ≤ daysInMonth (prevY x) (prevM x)
      then some ⟨prevY x, prevM x, x.d⟩ else none := by
  obtain ⟨h1, h2, h3, h4⟩ := hx
  have hpm1 : 1 ≤ prevM x ∧ prevM x ≤ 12 := by unfold prevM; split_ifs <;> omega
  have hserial : jsDateUTCserial x.y (x.m - 2) x.d
      = daysFromCivil ⟨prevY x, prevM x, 1⟩ + x.d - 1 := by
    have he : jsDateUTCserial x.y (x.m - 2) x.d
        = daysFromCivil ⟨(12 * (if 0 ≤ x.y ∧ x.y ≤ 99 then 1900 + x.y else x.y) + (x.m - 2)) / 12,
            (12 * (if 0 ≤ x.y ∧ x.y ≤ 99 then 1900 + x.y else x.y) + (x.m - 2)) % 12 + 1, 1⟩
          + x.d - 1 := rfl
    rw [he, if_neg (by omega)]
    have ha : (12 * x.y + (x.m - 2)) / 12 = prevY x := by
      unfold prevY; split_ifs <;> omega
    have hb : (12 * x.y + (x.m - 2)) % 12 + 1 = prevM x := by
      unfold prevM; split_ifs <;> omega
    rw [ha, hb]
  have hdt : sameDayPrevMonth x
      = (if (jsDateUTC x.y (x.m - 2) x.d).d = x.d
         then some (jsDateUTC x.y (x.m - 2) x.d) else none) := rfl
  have hjs : jsDateUTC x.y (x.m - 2) x.d
      = civilFromDays (daysFromCivil ⟨prevY x, prevM x, 1⟩ + x.d - 1) := by
    show civilFromDays (jsDateUTCserial x.y (x.m - 2) x.d) = _
    rw [hserial]
  rw [hdt, hjs]
  by_cases hd : x.d ≤ daysInMonth (prevY x) (prevM x)
  · have hciv : civilFromDays (daysFromCivil ⟨prevY x, prevM x, 1⟩ + x.d - 1)
        = ⟨prevY x, prevM x, x.d⟩ := by
      rw [show daysFromCivil ⟨prevY x, prevM x, 1⟩ + x.d - 1
            = daysFromCivil ⟨prevY x, prevM x, x.d⟩ from by
          have := dfc_linear_d (prevY x) (prevM x) x.d
          omega]
      exact civilFromDays_daysFromCivil _ ⟨hpm1.1, hpm1.2, h3, hd⟩
    rw [hciv, if_pos (show (YMD.mk (prevY x) (prevM x) x.d).d = x.d from rfl), if_pos hd]
  · have hd31 : x.d ≤ 31 := le_trans h4 (daysInMonth_bounds x.y x.m h1 h2).2
    have hdimb := daysInMonth_bounds (prevY x) (prevM x) hpm1.1 hpm1.2
    rcases eq_or_lt_of_le h1 with hm1 | hm2
    · exfalso
      apply hd
      have hpmv : prevM x = 12 := by unfold prevM; rw [if_pos hm1.symm]
      have h12 : daysInMonth (prevY x) 12 = 31 := by
        unfold daysInMonth isLeap; split_ifs <;> omega
      rw [hpmv, h12]
      exact hd31
    · have hpv : prevY x = x.y := by unfold prevY; rw [if_neg (by omega)]
      have hpmv : prevM x = x.m - 1 := by unfold prevM; rw [if_neg (by omega)]
      rw [hpv, hpmv] at hd hdimb ⊢
      have hcur := daysInMonth_bounds x.y x.m h1 h2
      have hb := month_boundary x.y (x.m - 1) (by omega) (by omega)
      rw [show x.m - 1 + 1 = x.m from by ring] at hb
      have hkey : daysFromCivil ⟨x.y, x.m - 1, 1⟩ + x.d - 1
          = daysFromCivil ⟨x.y, x.m, x.d - daysInMonth x.y (x.m - 1)⟩ := by
        have l1 := dfc_linear_d x.y (x.m - 1) (daysInMonth x.y (x.m - 1))
        have l2 := dfc_linear_d x.y x.m (x.d - daysInMonth x.y (x.m - 1))
        omega
      have hvv : (YMD.mk x.y x.m (x.d - daysInMonth x.y (x.m - 1))).Valid := by
        unfold YMD.Valid
        dsimp only
        exact ⟨h1, h2, by omega, by omega⟩
      rw [hkey, civilFromDays_daysFromCivil ⟨x.y, x.m, x.d - daysInMonth x.y (x.m - 1)⟩ hvv]
      rw [if_neg (show ¬((YMD.mk x.y x.m (x.d - daysInMonth x.y (x.m - 1))).d = x.d) from by
        dsimp only; omega), if_neg hd]

/-- Counterexample for C3 as stated: with 50 stored on 2023-02-28 and 100 on
2024-02-29, the daily-mode point for 2024-02-29 carries a null prior-year
value even though the end-of-month fallback date 2023-02-28 holds 50 — the
prior-year comparator is a plain same-month/day lookup with no fallback. -/
theorem daily_prev_year_fallback_cex :
    dailyChart [⟨⟨2023, 2, 28⟩, 50⟩, ⟨⟨2024, 2, 29⟩, 100⟩]
        (daysFromCivil ⟨2024, 1, 1⟩) (daysFromCivil ⟨2024, 12, 31⟩)
      = [⟨⟨2024, 2, 29⟩, 100, none, none, none⟩] ∧
    lookup [⟨⟨2023, 2, 28⟩, 50⟩, ⟨⟨2024, 2, 29⟩, 100⟩] ⟨2023, 2, 28⟩ = some 50 := by
  constructor
  · decide
  · decide

/-- C3 (amended): in daily mode each output point's prior-year value is the
plain store lookup at the same month/day one year earlier — null whenever
that key is absent, including when the date does not exist in the prior year
(no end-of-month fallback) — while the month-over-month comparator uses the
value at the same day one calendar month earlier only when that calendar
date actually exists, and is null otherwise. -/
theorem daily_mode_comparators (l : List DP) (hval : ValidStore l) (f t : Int) :
    dailyChart l f t
      = (l.filter (fun p => decide (f ≤ daysFromCivil p.date ∧ daysFromCivil p.date ≤ t))).map
        (fun p =>
          { date := p.date
            units := p.value
            prev_year_units := lookup l ⟨p.date.y - 1, p.date.m, p.date.d⟩
            yoy_pct := match lookup l ⟨p.date.y - 1, p.date.m, p.date.d⟩ with
              | some v => growthPct p.value v
              | none => none
            mom_pct :=
              if p.date.d ≤ daysInMonth (prevY p.date) (prevM p.date)
              then match lookup l ⟨prevY p.date, prevM p.date, p.date.d⟩ with
                | some v => growthPct p.value v
                | none => none
              else none }) := by
  unfold dailyChart
  apply List.map_congr_left
  intro p hp
  obtain ⟨hpv, hy1, hy2⟩ := hval p (List.mem_filter.mp hp).1
  unfold dailyPoint
  rw [show sameDayPrevYear p.date = ⟨p.date.y - 1, p.date.m, p.date.d⟩ from rfl]
  rw [sameDayPrevMonth_char p.date hpv (by omega)]
  by_cases hd : p.date.d ≤ daysInMonth (prevY p.date) (prevM p.date)
  · rw [if_pos hd, if_pos hd, Option.some_bind]
  · rw [if_neg hd, if_neg hd, Option.none_bind]

/-- Witness for C3 (amended): a store holding 80 on 2024-01-29 and 100 on
2024-02-29 yields, for the February point, a null prior-year value and a
+25 % month-over-month figure against January 29. -/
theorem daily_mode_comparators_witness :
    dailyChart [⟨⟨2024, 1, 29⟩, 80⟩, ⟨⟨2024, 2, 29⟩, 100⟩]
        (daysFromCivil ⟨2024, 2, 1⟩) (daysFromCivil ⟨2024, 12, 31⟩)
      = [⟨⟨2024, 2, 29⟩, 100, none, none, some 25⟩] := by
  rw [daily_mode_comparators [⟨⟨2024, 1, 29⟩, 80⟩, ⟨⟨2024, 2, 29⟩, 100⟩] (by decide)
    (daysFromCivil ⟨2024, 2, 1⟩) (daysFromCivil ⟨2024, 12, 31⟩)]
  simp +decide [lookup, List.filter, prevY, prevM, daysInMonth, isLeap]
  norm_num [growthPct, safeDiv]

/-! ### Rolling-30 chart mode (`dailyForChart`, `aggFreq = "rolling30"`)

One output point per calendar day of the clamped `[f, t]` range, whether or
not that day has data.  `units` is `currSum ?? 0`; `mom_pct` is hard-coded
`null` in this mode. -/

def rolling30Point (l : List DP) (s : Int) : ChartPoint :=
  { date := civilFromDays s
    units := (sumRangeInclusive l (s - 29) s).getD 0
    prev_year_units := sumRangeInclusive l (s - 365 - 29) (s - 365)
    yoy_pct := match sumRangeInclusive l (s - 29) s,
        sumRangeInclusive l (s - 365 - 29) (s - 365) with
      | some c, some pv => growthPct c pv
      | _, _ => none
    mom_pct := none }

def rolling30Chart (l : List DP) (f t : Int) : List ChartPoint :=
  (serialsFromTo f t).map (rolling30Point l)

/-- C4: in rolling-30 mode there is exactly one output point per date of the
clamped range; its total is the trailing 30-calendar-day inclusive sum of the
stored values (days without data contribute nothing), with an all-missing
window reported as zero — the consistently chosen lacking-data policy; the
prior-year comparator is the 30-day window sum ending exactly 365 days
earlier, `yoy_pct` is null whenever either window holds no observation, and
no month-over-month value is produced. -/
theorem rolling30_spec (l : List DP) (hval : ValidStore l) (hnd : NodupDates l) (f t : Int) :
    rolling30Chart l f t = (serialsFromTo f t).map (fun s =>
      { date := civilFromDays s
        units := (specSum l (fun p => decide
            (s - 29 ≤ daysFromCivil p.date ∧ daysFromCivil p.date ≤ s))).getD 0
        prev_year_units := specSum l (fun p => decide
            (s - 365 - 29 ≤ daysFromCivil p.date ∧ daysFromCivil p.date ≤ s - 365))
        yoy_pct := match
            specSum l (fun p => decide
              (s - 29 ≤ daysFromCivil p.date ∧ daysFromCivil p.date ≤ s)),
            specSum l (fun p => decide
              (s - 365 - 29 ≤ daysFromCivil p.date ∧ daysFromCivil p.date ≤ s - 365)) with
          | some c, some pv => growthPct c pv
          | _, _ => none
        mom_pct := none }) ∧
    ∀ s : Int, (∀ p ∈ l, ¬(s - 29 ≤ daysFromCivil p.date ∧ daysFromCivil p.date ≤ s)) →
      (rolling30Point l s).units = 0 ∧ (rolling30Point l s).yoy_pct = none := by
  constructor
  · unfold rolling30Chart
    apply List.map_congr_left
    intro s _
    unfold rolling30Point
    rw [sumRangeInclusive_spec l hnd hval (s - 29) s,
        sumRangeInclusive_spec l hnd hval (s - 365 - 29) (s - 365)]
  · intro s hmiss
    have hnone : sumRangeInclusive l (s - 29) s = none := by
      rw [sumRangeInclusive_spec l hnd hval (s - 29) s, specSum_eq_none_iff]
      intro q hq
      simp only [decide_eq_true_eq]
      exact hmiss q hq
    unfold rolling30Point
    rw [hnone]
    exact ⟨rfl, rfl⟩

/-- Witness for C4: a single stored value 40 on 2024-03-01 charted over
2024-03-01..02 gives two points with trailing sum 40, null prior-year
windows, null YoY and null MoM; and the all-missing window of 2024-02-01
reports zero units. -/
theorem rolling30_spec_witness :
    rolling30Chart [⟨⟨2024, 3, 1⟩, 40⟩] (daysFromCivil ⟨2024, 3, 1⟩) (daysFromCivil ⟨2024, 3, 2⟩)
      = [⟨⟨2024, 3, 1⟩, 40, none, none, none⟩, ⟨⟨2024, 3, 2⟩, 40, none, none, none⟩] ∧
    (rolling30Point [⟨⟨2024, 3, 1⟩, 40⟩] (daysFromCivil ⟨2024, 2, 1⟩)).units = 0 ∧
    (rolling30Point [⟨⟨2024, 3, 1⟩, 40⟩] (daysFromCivil ⟨2024, 2, 1⟩)).yoy_pct = none := by
  have h := rolling30_spec [⟨⟨2024, 3, 1⟩, 40⟩] (by decide) (by decide)
    (daysFromCivil ⟨2024, 3, 1⟩) (daysFromCivil ⟨2024, 3, 2⟩)
  refine ⟨?_, h.2 (daysFromCivil ⟨2024, 2, 1⟩) (by decide)⟩
  rw [h.1]
  rw [show daysFromCivil ⟨2024, 3, 1⟩ = 19783 from by decide,
      show daysFromCivil ⟨2024, 3, 2⟩ = 19784 from by decide,
      show serialsFromTo 19783 19784 = [19783, 19784] from by decide,
      List.map_cons, List.map_cons, List.map_nil]
  simp +decide [specSum, List.filter]

/-! ### Monthly rollup (`buildMonthDayMap`, `sumMonthUpToDay`, `toMonthly`)

JS `Map`s keyed by month (`YYYY-MM`, modeled as a `(year, month)` pair) and
by day-of-month are modeled as association lists with JS `Map.set`
semantics: an existing key is updated in place, a new key is appended. -/

def alGet {α β : Type} [DecidableEq α] (m : List (α × β)) (k : α) : Option β :=
  (m.find? (fun e => decide (e.1 = k))).map (fun e => e.2)

def alSet {α β : Type} [DecidableEq α] (m : List (α × β)) (k : α) (v : β) : List (α × β) :=
  match m with
  | [] => [(k, v)]
  | (k', v') :: rest => if k' = k then (k, v) :: rest else (k', v') :: alSet rest k v

theorem alGet_alSet_self {α β : Type} [DecidableEq α] (m : List (α × β)) (k : α) (v : β) :
    alGet (alSet m k v) k = some v := by
  induction m with
  | nil => simp [alGet, alSet]
  | cons e rest ih =>
    obtain ⟨k', v'⟩ := e
    rw [alSet]
    by_cases he : k' = k
    · rw [if_pos he]
      simp [alGet]
    · rw [if_neg he]
      unfold alGet
      rw [List.find?_cons_of_neg _ (by simpa using he)]
      exact ih

theorem alGet_alSet_ne {α β : Type} [DecidableEq α] (m : List (α × β)) (k k' : α) (v : β)
    (h : k' ≠ k) : alGet (alSet m k v) k' = alGet m k' := by
  induction m with
  | nil =>
    unfold alSet alGet
    rw [List.find?_cons_of_neg _ (by simpa using fun he => h he.symm), List.find?_nil]
  | cons e rest ih =>
    obtain ⟨k0, v0⟩ := e
    rw [alSet]
    by_cases he : k0 = k
    · rw [if_pos he]
      unfold alGet
      rw [List.find?_cons_of_neg _ (by simpa using fun x => h x.symm),
        List.find?_cons_of_neg _ (by simp [he]; intro x; exact absurd x.symm h)]
    · rw [if_neg he]
      by_cases he' : k0 = k'
      · unfold alGet
        rw [List.find?_cons_of_pos _ (by simpa using he'),
          List.find?_cons_of_pos _ (by simpa using he')]
      · unfold alGet
        rw [List.find?_cons_of_neg _ (by simpa using he'),
          List.find?_cons_of_neg _ (by simpa using he')]
        exact ih

theorem alGet_eq_none_iff {α β : Type} [DecidableEq α] (m : List (α × β)) (k : α) :
    alGet m k = none ↔ k ∉ m.map Prod.fst := by
  unfold alGet
  rw [Option.map_eq_none', List.find?_eq_none]
  constructor
  · intro h hk
    obtain ⟨e, he, hfst⟩ := List.mem_map.mp hk
    exact absurd (by simpa using hfst) (by simpa using h e he)
  · intro h e he
    simp only [decide_eq_true_eq]
    intro hek
    exact h (List.mem_map.mpr ⟨e, he, hek⟩)

theorem keys_alSet_mem {α β : Type} [DecidableEq α] (m : List (α × β)) (k x : α) (v : β) :
    x ∈ (alSet m k v).map Prod.fst ↔ x ∈ m.map Prod.fst ∨ x = k := by
  induction m with
  | nil => simp [alSet]
  | cons e rest ih =>
    obtain ⟨k0, v0⟩ := e
    rw [alSet]
    by_cases he : k0 = k
    · subst he
      simp [List.mem_cons]
      tauto
    · rw [if_neg he]
      simp only [List.map_cons, List.mem_cons, ih]
      tauto

theorem keys_alSet_nodup {α β : Type} [DecidableEq α] (m : List (α × β)) (k : α) (v : β)
    (h : (m.map Prod.fst).Nodup) : ((alSet m k v).map Prod.fst).Nodup := by
  induction m with
  | nil => simp [alSet]
  | cons e rest ih =>
    obtain ⟨k0, v0⟩ := e
    rw [alSet]
    rw [List.map_cons, List.nodup_cons] at h
    by_cases he : k0 = k
    · subst he
      simpa using h
    · rw [if_neg he, List.map_cons, List.nodup_cons]
      refine ⟨?_, ih h.2⟩
      rw [keys_alSet_mem]
      rintro (hmem | rfl)
      · exact h.1 hmem
      · exact he rfl

theorem sumKeysOpt_congr {κ : Type} (f g : κ → Option ℚ) (ks : List κ)
    (h : ∀ k ∈ ks, f k = g k) : sumKeysOpt f ks = sumKeysOpt g ks := by
  induction ks with
  | nil => rfl
  | cons k ks ih =>
    unfold sumKeysOpt
    rw [h k (List.mem_cons_self k ks), ih (fun k' hk' => h k' (List.mem_cons_of_mem k hk'))]

theorem sumKeysOpt_map {κ κ' : Type} (f : κ' → Option ℚ) (g : κ → κ') (ks : List κ) :
    sumKeysOpt (fun k => f (g k)) ks = sumKeysOpt f (ks.map g) := by
  induction ks with
  | nil => rfl
  | cons k ks ih =>
    rw [List.map_cons]
    unfold sumKeysOpt
    rw [ih]

theorem lookup_append (l1 l2 : List DP) (d : YMD) :
    lookup (l1 ++ l2) d = (lookup l1 d).or (lookup l2 d) := by
  unfold lookup
  rw [List.find?_append]
  cases h1 : List.find? (fun p => decide (p.date = d)) l1 <;>
    cases h2 : List.find? (fun p => decide (p.date = d)) l2 <;> rfl

/-- Per-month accumulator record of `buildMonthDayMap`. -/
structure MonthRec where
  total : ℚ
  maxDay : Int
  byDay : List (Int × ℚ)
deriving DecidableEq, Repr

/-- `monthKey(d.date)`: the `YYYY-MM` prefix of a canonical key, as a pair. -/
def monthKey (x : YMD) : Int × Int := (x.y, x.m)

/-- In-place mutation of one month record for one daily point. -/
def updRec (r0 : MonthRec) (p : DP) : MonthRec :=
  { total := r0.total + p.value
    maxDay := max r0.maxDay p.date.d
    byDay := alSet r0.byDay p.date.d ((alGet r0.byDay p.date.d).getD 0 + p.value) }

def buildStep (acc : List ((Int × Int) × MonthRec)) (p : DP) : List ((Int × Int) × MonthRec) :=
  alSet acc (monthKey p.date) (updRec ((alGet acc (monthKey p.date)).getD ⟨0, 0, []⟩) p)

def buildMonthDayMap (l : List DP) : List ((Int × Int) × MonthRec) :=
  l.foldl buildStep []

/-- The store entries belonging to one calendar month. -/
def monthSub (l : List DP) (k : Int × Int) : List DP :=
  l.filter (fun p => decide (p.date.y = k.1 ∧ p.date.m = k.2))

theorem buildMonthDayMap_keys (l : List DP) (k : Int × Int) :
    k ∈ (buildMonthDayMap l).map Prod.fst ↔ ∃ p ∈ l, monthKey p.date = k := by
  induction l using List.reverseRecOn with
  | nil => simp [buildMonthDayMap]
  | append_singleton l p ih =>
    have hstep : buildMonthDayMap (l ++ [p]) = buildStep (buildMonthDayMap l) p := by
      rw [buildMonthDayMap, buildMonthDayMap, List.foldl_append, List.foldl_cons, List.foldl_nil]
    rw [hstep, buildStep, keys_alSet_mem, ih]
    constructor
    · rintro (⟨q, hq, hqk⟩ | rfl)
      · exact ⟨q, List.mem_append_left _ hq, hqk⟩
      · exact ⟨p, List.mem_append_right _ (List.mem_singleton_self p), rfl⟩
    · rintro ⟨q, hq, hqk⟩
      rcases List.mem_append.mp hq with hql | hqp
      · exact Or.inl ⟨q, hql, hqk⟩
      · rw [List.mem_singleton.mp hqp] at hqk
        exact Or.inr hqk.symm

theorem buildMonthDayMap_keys_nodup (l : List DP) :
    ((buildMonthDayMap l).map Prod.fst).Nodup := by
  induction l using List.reverseRecOn with
  | nil => simp [buildMonthDayMap]
  | append_singleton l p ih =>
    have hstep : buildMonthDayMap (l ++ [p]) = buildStep (buildMonthDayMap l) p := by
      rw [buildMonthDayMap, buildMonthDayMap, List.foldl_append, List.foldl_cons, List.foldl_nil]
    rw [hstep, buildStep]
    exact keys_alSet_nodup _ _ _ ih

/-- Full characterisation of `buildMonthDayMap`: a month key is present iff
the month has data; its record carries the month's value total, the largest
observed day-of-month, and, per day, exactly the store's value at that date. -/
theorem buildMonthDayMap_char (l : List DP) (k : Int × Int) :
    NodupDates l →
    ((alGet (buildMonthDayMap l) k = none ↔ monthSub l k = []) ∧
     ∀ r, alGet (buildMonthDayMap l) k = some r →
       r.total = ((monthSub l k).map (fun p => p.value)).sum ∧
       r.maxDay = ((monthSub l k).map (fun p => p.date.d)).foldl max 0 ∧
       ∀ d : Int, alGet r.byDay d = lookup l ⟨k.1, k.2, d⟩) := by
  induction l using List.reverseRecOn with
  | nil =>
    intro _h
    refine ⟨by simp [buildMonthDayMap, alGet, monthSub], ?_⟩
    intro r hr
    simp [buildMonthDayMap, alGet] at hr
  | append_singleton l p ih =>
    intro hnd
    have hnd' : NodupDates l := by
      unfold NodupDates at *
      rw [List.map_append] at hnd
      exact (List.nodup_append.mp hnd).1
    have hnotin : p.date ∉ List.map (fun q => q.date) l := by
      unfold NodupDates at hnd
      rw [List.map_append] at hnd
      intro hmem
      exact (List.nodup_append.mp hnd).2.2 hmem (by simp)
    have hlknone : lookup l p.date = none := by
      rw [lookup_eq_none_iff]
      intro q hq hqd
      exact hnotin (hqd ▸ List.mem_map.mpr ⟨q, hq, rfl⟩)
    obtain ⟨ihn, ihs⟩ := ih hnd'
    have hstep : buildMonthDayMap (l ++ [p]) = buildStep (buildMonthDayMap l) p := by
      rw [buildMonthDayMap, buildMonthDayMap, List.foldl_append, List.foldl_cons, List.foldl_nil]
    rw [hstep, buildStep]
    by_cases hkm : k = monthKey p.date
    · subst hkm
      have hdate : YMD.mk (monthKey p.date).1 (monthKey p.date).2 p.date.d = p.date := rfl
      have hpred : (fun q : DP => decide (q.date.y = (monthKey p.date).1
          ∧ q.date.m = (monthKey p.date).2)) p = true := by
        simp only [decide_eq_true_eq]
        exact ⟨rfl, rfl⟩
      have hsubapp : monthSub (l ++ [p]) (monthKey p.date)
          = monthSub l (monthKey p.date) ++ [p] := by
        rw [monthSub, monthSub, List.filter_append]
        congr 1
        rw [List.filter_cons, if_pos hpred]
        rfl
      have hlkapp : ∀ d : Int, lookup (l ++ [p]) ⟨(monthKey p.date).1, (monthKey p.date).2, d⟩
          = (lookup l ⟨(monthKey p.date).1, (monthKey p.date).2, d⟩).or
            (lookup [p] ⟨(monthKey p.date).1, (monthKey p.date).2, d⟩) :=
        fun d => lookup_append l [p] _
      have hlkp_ne : ∀ d : Int, d ≠ p.date.d →
          lookup [p] ⟨(monthKey p.date).1, (monthKey p.date).2, d⟩ = none := by
        intro d hd
        rw [lookup_eq_none_iff]
        intro q hq hqd
        rw [List.mem_singleton.mp hq] at hqd
        exact hd (by rw [hqd])
      have hlkp_self : lookup [p] p.date = some p.value := by
        rw [lookup, List.find?_cons_of_pos _ (by simp)]
        rfl
      rw [alGet_alSet_self, hsubapp]
      refine ⟨by simp, ?_⟩
      intro r hr
      rw [Option.some.injEq] at hr
      subst hr
      rcases h0 : alGet (buildMonthDayMap l) (monthKey p.date) with - | r0
      · have hsub0 := ihn.mp h0
        rw [hsub0]
        refine ⟨?_, ?_, ?_⟩
        · show (updRec ((none : Option MonthRec).getD ⟨0, 0, []⟩) p).total = _
          simp [updRec]
        · show (updRec ((none : Option MonthRec).getD ⟨0, 0, []⟩) p).maxDay = _
          simp [updRec]
        · intro d
          have hmiss : lookup l ⟨(monthKey p.date).1, (monthKey p.date).2, d⟩ = none := by
            rw [lookup_eq_none_iff]
            intro q hq hqd
            have hqmem : q ∈ monthSub l (monthKey p.date) := by
              rw [monthSub, List.mem_filter]
              exact ⟨hq, by rw [hqd]; simp⟩
            rw [hsub0] at hqmem
            cases hqmem
          rw [hlkapp d, hmiss, Option.none_or]
          by_cases hd : d = p.date.d
          · subst hd
            rw [hdate, hlkp_self]
            show alGet (alSet ([] : List (Int × ℚ)) p.date.d
              ((alGet ([] : List (Int × ℚ)) p.date.d).getD 0 + p.value)) p.date.d = _
            rw [alGet_alSet_self]
            simp [alGet]
          · rw [hlkp_ne d hd]
            show alGet (alSet ([] : List (Int × ℚ)) p.date.d
              ((alGet ([] : List (Int × ℚ)) p.date.d).getD 0 + p.value)) d = none
            rw [alGet_alSet_ne _ _ _ _ hd]
            rfl
      · obtain ⟨ht, hm, hb⟩ := ihs r0 h0
        refine ⟨?_, ?_, ?_⟩
        · show r0.total + p.value = _
          rw [ht]
          simp [List.sum_append]
        · show max r0.maxDay p.date.d = _
          rw [hm]
          simp [List.foldl_append]
        · intro d
          show alGet (alSet r0.byDay p.date.d
            ((alGet r0.byDay p.date.d).getD 0 + p.value)) d = _
          rw [hlkapp d]
          by_cases hd : d = p.date.d
          · subst hd
            have hb' : alGet r0.byDay p.date.d = none := by
              have hh := hb p.date.d
              rw [hdate, hlknone] at hh
              exact hh
            rw [alGet_alSet_self, hb', hdate, hlknone, Option.none_or, hlkp_self]
            simp
          · rw [alGet_alSet_ne _ _ _ _ hd, hb d, hlkp_ne d hd, Option.or_none]
    · have hpredf : (fun q : DP => decide (q.date.y = k.1 ∧ q.date.m = k.2)) p = false := by
        simp only [decide_eq_false_iff_not]
        intro hcon
        apply hkm
        obtain ⟨h1, h2⟩ := hcon
        rw [monthKey, h1, h2]
      have hsubapp : monthSub (l ++ [p]) k = monthSub l k := by
        rw [monthSub, monthSub, List.filter_append]
        rw [show List.filter (fun q : DP => decide (q.date.y = k.1 ∧ q.date.m = k.2)) [p]
            = [] from by rw [List.filter_cons, if_neg (by simp [hpredf])]; rfl]
        rw [List.append_nil]
      have hlkp : ∀ d : Int, lookup [p] ⟨k.1, k.2, d⟩ = none := by
        intro d
        rw [lookup_eq_none_iff]
        intro q hq hqd
        rw [List.mem_singleton.mp hq] at hqd
        apply hkm
        rw [monthKey, hqd]
      rw [alGet_alSet_ne _ _ _ _ hkm, hsubapp]
      refine ⟨ihn, ?_⟩
      intro r hr
      obtain ⟨ht, hm, hb⟩ := ihs r hr
      refine ⟨ht, hm, ?_⟩
      intro d
      rw [hb d, lookup_append, hlkp d, Option.or_none]

/-- `sumMonthUpToDay`: `null` for a missing month record, else the
gap-tolerant day loop `1..dayLimit` over the month's per-day values. -/
def sumMonthUpToDay (mr : Option MonthRec) (dayLimit : Int) : Option ℚ :=
  match mr with
  | none => none
  | some r => sumKeysOpt (fun day => alGet r.byDay day) (serialsFromTo 1 dayLimit)

/-- The truncated comparison-month loop computes the specification sum over
the store entries of that month with day-of-month in `1..lim`. -/
theorem sumMonthUpToDay_spec (l : List DP) (hnd : NodupDates l) (k : Int × Int) (lim : Int) :
    sumMonthUpToDay (alGet (buildMonthDayMap l) k) lim
      = specSum l (fun p => decide (p.date.y = k.1 ∧ p.date.m = k.2
          ∧ 1 ≤ p.date.d ∧ p.date.d ≤ lim)) := by
  rcases h0 : alGet (buildMonthDayMap l) k with - | r
  · obtain ⟨ihn, -⟩ := buildMonthDayMap_char l k hnd
    have hsub := ihn.mp h0
    rw [sumMonthUpToDay]
    symm
    rw [specSum_eq_none_iff]
    intro q hq
    simp only [decide_eq_true_eq]
    intro hcon
    have hqmem : q ∈ monthSub l k := by
      rw [monthSub, List.mem_filter]
      exact ⟨hq, by simp [hcon.1, hcon.2.1]⟩
    rw [hsub] at hqmem
    cases hqmem
  · obtain ⟨-, ihs⟩ := buildMonthDayMap_char l k hnd
    obtain ⟨-, -, hb⟩ := ihs r h0
    rw [sumMonthUpToDay]
    rw [sumKeysOpt_congr _ (fun day => lookup l ⟨k.1, k.2, day⟩) _ (fun d _ => hb d)]
    have hmap := sumKeysOpt_map (lookup l) (fun d => YMD.mk k.1 k.2 d) (serialsFromTo 1 lim)
    simp only at hmap
    rw [hmap]
    rw [sumKeysOpt_lookup_spec l hnd _ (List.Nodup.map
      (fun a b hab => by simpa using (YMD.mk.injEq _ _ _ _ _ _).mp hab)
      (nodup_serialsFromTo 1 lim))]
    apply specSum_congr
    intro p _
    apply decide_eq_decide.mpr
    rw [List.mem_map]
    constructor
    · rintro ⟨d, hd, hdd⟩
      rw [mem_serialsFromTo] at hd
      refine ⟨by rw [← hdd], by rw [← hdd], by rw [← hdd]; exact hd.1, by rw [← hdd]; exact hd.2⟩
    · rintro ⟨h1, h2, h3, h4⟩
      refine ⟨p.date.d, (mem_serialsFromTo 1 lim p.date.d).mpr ⟨h3, h4⟩, ?_⟩
      rw [← h1, ← h2]

/-- `Date.UTC(y, m - 2, 1)` is the first day of the previous calendar month. -/
theorem jsDateUTC_prev_month_first (y m : Int) (h1 : 1 ≤ m) (h2 : m ≤ 12) (hy : 101 ≤ y) :
    jsDateUTC y (m - 2) 1 = ⟨if m = 1 then y - 1 else y, if m = 1 then 12 else m - 1, 1⟩ := by
  have hx : (YMD.mk y m 1).Valid := ⟨h1, h2, le_refl 1, daysInMonth_pos y m h1 h2⟩
  have hc := sameDayPrevMonth_char ⟨y, m, 1⟩ hx hy
  have hpm1 : 1 ≤ prevM ⟨y, m, 1⟩ := by
    unfold prevM
    dsimp only
    split_ifs <;> omega
  have hpm2 : prevM ⟨y, m, 1⟩ ≤ 12 := by
    unfold prevM
    dsimp only
    split_ifs <;> omega
  rw [if_pos (daysInMonth_pos _ _ hpm1 hpm2)] at hc
  have hdt : sameDayPrevMonth ⟨y, m, 1⟩
      = (if (jsDateUTC y (m - 2) 1).d = 1 then some (jsDateUTC y (m - 2) 1) else none) := rfl
  rw [hdt] at hc
  by_cases hck : (jsDateUTC y (m - 2) 1).d = 1
  · rw [if_pos hck, Option.some.injEq] at hc
    rw [hc]
    unfold prevY prevM
    dsimp only
  · rw [if_neg hck] at hc
    cases hc

/-- `addMonths(ym, delta)` (via `Date.UTC(y, m - 1 + delta, 1)`). -/
def addMonthsKey (k : Int × Int) (delta : Int) : Int × Int :=
  let dt := jsDateUTC k.1 (k.2 - 1 + delta) 1
  (dt.y, dt.m)

theorem addMonthsKey_neg1 (k : Int × Int) (h1 : 1 ≤ k.2) (h2 : k.2 ≤ 12) (hy : 101 ≤ k.1) :
    addMonthsKey k (-1)
      = (if k.2 = 1 then k.1 - 1 else k.1, if k.2 = 1 then 12 else k.2 - 1) := by
  have he : addMonthsKey k (-1)
      = ((jsDateUTC k.1 (k.2 - 1 + -1) 1).y, (jsDateUTC k.1 (k.2 - 1 + -1) 1).m) := rfl
  rw [he, show k.2 - 1 + (-1) = k.2 - 2 from by ring,
    jsDateUTC_prev_month_first k.1 k.2 h1 h2 hy]

/-- String order on canonical `YYYY-MM` keys (`sortISO`). -/
def ymLe (a b : Int × Int) : Prop := a.1 < b.1 ∨ (a.1 = b.1 ∧ a.2 ≤ b.2)

instance (a b : Int × Int) : Decidable (ymLe a b) := by unfold ymLe; infer_instance

/-- One row of the monthly rollup table. -/
structure MonthRow where
  month : Int × Int
  total_gwh : ℚ
  max_day : Int
  yoy_pct : Option ℚ
  mom_pct : Option ℚ
deriving DecidableEq, Repr

def monthRow (monthMap : List ((Int × Int) × MonthRec)) (m : Int × Int) : MonthRow :=
  { month := m
    total_gwh := ((alGet monthMap m).getD ⟨0, 0, []⟩).total
    max_day := ((alGet monthMap m).getD ⟨0, 0, []⟩).maxDay
    yoy_pct := match sumMonthUpToDay (alGet monthMap (m.1 - 1, m.2))
        ((alGet monthMap m).getD ⟨0, 0, []⟩).maxDay with
      | some v => growthPct ((alGet monthMap m).getD ⟨0, 0, []⟩).total v
      | none => none
    mom_pct := match sumMonthUpToDay (alGet monthMap (addMonthsKey m (-1)))
        ((alGet monthMap m).getD ⟨0, 0, []⟩).maxDay with
      | some v => growthPct ((alGet monthMap m).getD ⟨0, 0, []⟩).total v
      | none => none }

def toMonthly (l : List DP) : List MonthRow :=
  (List.insertionSort ymLe ((buildMonthDayMap l).map Prod.fst)).map
    (monthRow (buildMonthDayMap l))

theorem foldl_max_spec (xs : List Int) (a : Int) :
    (xs.foldl max a = a ∨ xs.foldl max a ∈ xs) ∧ a ≤ xs.foldl max a
      ∧ ∀ x ∈ xs, x ≤ xs.foldl max a := by
  induction xs generalizing a with
  | nil => simp
  | cons x xs ih =>
    rw [List.foldl_cons]
    obtain ⟨hmem, hle, hall⟩ := ih (max a x)
    refine ⟨?_, le_trans (le_max_left a x) hle, ?_⟩
    · rcases hmem with h | h
      · rcases max_cases a x with ⟨he, -⟩ | ⟨he, -⟩
        · left
          rw [h, he]
        · right
          rw [h, he]
          exact List.mem_cons_self x xs
      · right
        exact List.mem_cons_of_mem _ h
    · intro z hz
      rcases List.mem_cons.mp hz with rfl | hz'
      · exact le_trans (le_max_right a z) hle
      · exact hall z hz'

/-- C1: every monthly-rollup row's total is the sum of that month's stored
daily values and its `max_day` is the greatest day-of-month with an
observation; the MoM comparator sums only days `1..max_day` of the previous
calendar month and the YoY comparator only days `1..max_day` of the same
month one year earlier, growth being null when the comparison month has no
data in that day range; and every month with data gets a row. -/
theorem monthly_rollup_spec (l : List DP) (hval : ValidStore l) (hnd : NodupDates l) :
    (∀ row ∈ toMonthly l,
      row.total_gwh = ((monthSub l row.month).map (fun p => p.value)).sum ∧
      (∃ p ∈ l, monthKey p.date = row.month ∧ p.date.d = row.max_day) ∧
      (∀ p ∈ l, monthKey p.date = row.month → p.date.d ≤ row.max_day) ∧
      row.mom_pct = (match specSum l (fun p => decide
          (p.date.y = (if row.month.2 = 1 then row.month.1 - 1 else row.month.1)
            ∧ p.date.m = (if row.month.2 = 1 then 12 else row.month.2 - 1)
            ∧ 1 ≤ p.date.d ∧ p.date.d ≤ row.max_day)) with
        | some v => growthPct row.total_gwh v
        | none => none) ∧
      row.yoy_pct = (match specSum l (fun p => decide
          (p.date.y = row.month.1 - 1 ∧ p.date.m = row.month.2
            ∧ 1 ≤ p.date.d ∧ p.date.d ≤ row.max_day)) with
        | some v => growthPct row.total_gwh v
        | none => none)) ∧
    (∀ k : Int × Int, (∃ p ∈ l, monthKey p.date = k) →
      ∃ row ∈ toMonthly l, row.month = k) := by
  constructor
  · intro row hrow
    rw [toMonthly] at hrow
    obtain ⟨m, hm, rfl⟩ := List.mem_map.mp hrow
    have hmk : m ∈ (buildMonthDayMap l).map Prod.fst :=
      (List.perm_insertionSort ymLe ((buildMonthDayMap l).map Prod.fst)).mem_iff.mp hm
    obtain ⟨p0, hp0, hp0k⟩ := (buildMonthDayMap_keys l m).mp hmk
    obtain ⟨hp0v, hp0y1, hp0y2⟩ := hval p0 hp0
    have hm2a : 1 ≤ m.2 := by rw [← hp0k]; exact hp0v.1
    have hm2b : m.2 ≤ 12 := by rw [← hp0k]; exact hp0v.2.1
    have hm1a : 1001 ≤ m.1 := by rw [← hp0k]; exact hp0y1
    rcases hr0 : alGet (buildMonthDayMap l) m with - | r
    · exact absurd hmk ((alGet_eq_none_iff _ _).mp hr0)
    obtain ⟨-, ihs⟩ := buildMonthDayMap_char l m hnd
    obtain ⟨ht, hmx, -⟩ := ihs r hr0
    unfold monthRow
    dsimp only
    rw [hr0]
    simp only [Option.getD_some]
    have hp0sub : p0 ∈ monthSub l m := by
      rw [monthSub, List.mem_filter]
      refine ⟨hp0, ?_⟩
      rw [← hp0k]
      simp [monthKey]
    have hdays := foldl_max_spec ((monthSub l m).map (fun p => p.date.d)) 0
    have hdaypos : ∀ x ∈ (monthSub l m).map (fun p => p.date.d), 1 ≤ x := by
      intro x hx
      obtain ⟨q, hq, rfl⟩ := List.mem_map.mp hx
      exact (hval q (List.mem_filter.mp hq).1).1.2.2.1
    refine ⟨by rw [ht], ?_, ?_, ?_, ?_⟩
    · rcases hdays.1 with hz | hmem
      · exfalso
        have h1x : (1 : Int) ≤ p0.date.d := hdaypos _ (List.mem_map.mpr ⟨p0, hp0sub, rfl⟩)
        have hle := hdays.2.2 _ (List.mem_map.mpr ⟨p0, hp0sub, rfl⟩)
        rw [hz] at hle
        omega
      · obtain ⟨q, hq, hqd⟩ := List.mem_map.mp hmem
        refine ⟨q, (List.mem_filter.mp hq).1, ?_, by rw [hmx]; exact hqd⟩
        have hqpred := (List.mem_filter.mp hq).2
        simp only [decide_eq_true_eq] at hqpred
        rw [monthKey, hqpred.1, hqpred.2]
    · intro p hp hpkm
      rw [hmx]
      apply hdays.2.2
      refine List.mem_map.mpr ⟨p, ?_, rfl⟩
      rw [monthSub, List.mem_filter]
      refine ⟨hp, ?_⟩
      rw [← hpkm]
      simp [monthKey]
    · rw [addMonthsKey_neg1 m hm2a hm2b (by omega),
        sumMonthUpToDay_spec l hnd
          (if m.2 = 1 then m.1 - 1 else m.1, if m.2 = 1 then 12 else m.2 - 1) r.maxDay,
        ht]
    · rw [sumMonthUpToDay_spec l hnd (m.1 - 1, m.2) r.maxDay, ht]
  · rintro k ⟨p, hp, hpk⟩
    refine ⟨monthRow (buildMonthDayMap l) k, ?_, rfl⟩
    rw [toMonthly]
    exact List.mem_map_of_mem _
      ((List.perm_insertionSort ymLe ((buildMonthDayMap l).map Prod.fst)).mem_iff.mpr
        ((buildMonthDayMap_keys l k).mpr ⟨p, hp, hpk⟩))

/-- Witness for C1: with value 2 on each of 2024-01-01..10 and value 3 on
each of 2024-02-01..05, the February row totals 15, its `max_day` is 5, and
its MoM comparator sums only January days 1..5 (10), giving +50 %. -/
theorem monthly_rollup_spec_witness :
    ∃ row ∈ toMonthly
        [⟨⟨2024, 1, 1⟩, 2⟩, ⟨⟨2024, 1, 2⟩, 2⟩, ⟨⟨2024, 1, 3⟩, 2⟩, ⟨⟨2024, 1, 4⟩, 2⟩,
         ⟨⟨2024, 1, 5⟩, 2⟩, ⟨⟨2024, 1, 6⟩, 2⟩, ⟨⟨2024, 1, 7⟩, 2⟩, ⟨⟨2024, 1, 8⟩, 2⟩,
         ⟨⟨2024, 1, 9⟩, 2⟩, ⟨⟨2024, 1, 10⟩, 2⟩, ⟨⟨2024, 2, 1⟩, 3⟩, ⟨⟨2024, 2, 2⟩, 3⟩,
         ⟨⟨2024, 2, 3⟩, 3⟩, ⟨⟨2024, 2, 4⟩, 3⟩, ⟨⟨2024, 2, 5⟩, 3⟩],
      row.month = (2024, 2) ∧ row.total_gwh = 15 ∧ row.max_day = 5 ∧ row.mom_pct = some 50 := by
  have h := monthly_rollup_spec
    [⟨⟨2024, 1, 1⟩, 2⟩, ⟨⟨2024, 1, 2⟩, 2⟩, ⟨⟨2024, 1, 3⟩, 2⟩, ⟨⟨2024, 1, 4⟩, 2⟩,
     ⟨⟨2024, 1, 5⟩, 2⟩, ⟨⟨2024, 1, 6⟩, 2⟩, ⟨⟨2024, 1, 7⟩, 2⟩, ⟨⟨2024, 1, 8⟩, 2⟩,
     ⟨⟨2024, 1, 9⟩, 2⟩, ⟨⟨2024, 1, 10⟩, 2⟩, ⟨⟨2024, 2, 1⟩, 3⟩, ⟨⟨2024, 2, 2⟩, 3⟩,
     ⟨⟨2024, 2, 3⟩, 3⟩, ⟨⟨2024, 2, 4⟩, 3⟩, ⟨⟨2024, 2, 5⟩, 3⟩] (by decide) (by decide)
  obtain ⟨row, hrow, hrm⟩ := h.2 (2024, 2) ⟨⟨⟨2024, 2, 1⟩, 3⟩, by decide, rfl⟩
  obtain ⟨htot, hex, hall, hmom, -⟩ := h.1 row hrow
  rw [hrm] at htot hex hall hmom
  have htot15 : row.total_gwh = 15 := by
    rw [htot]
    simp +decide [monthSub, List.filter]
    norm_num
  have hmax5 : row.max_day = 5 := by
    obtain ⟨q, hq, hqk, hqd⟩ := hex
    have hb : ∀ q' ∈ [(⟨⟨2024, 1, 1⟩, 2⟩ : DP), ⟨⟨2024, 1, 2⟩, 2⟩, ⟨⟨2024, 1, 3⟩, 2⟩,
        ⟨⟨2024, 1, 4⟩, 2⟩, ⟨⟨2024, 1, 5⟩, 2⟩, ⟨⟨2024, 1, 6⟩, 2⟩, ⟨⟨2024, 1, 7⟩, 2⟩,
        ⟨⟨2024, 1, 8⟩, 2⟩, ⟨⟨2024, 1, 9⟩, 2⟩, ⟨⟨2024, 1, 10⟩, 2⟩, ⟨⟨2024, 2, 1⟩, 3⟩,
        ⟨⟨2024, 2, 2⟩, 3⟩, ⟨⟨2024, 2, 3⟩, 3⟩, ⟨⟨2024, 2, 4⟩, 3⟩, ⟨⟨2024, 2, 5⟩, 3⟩],
        monthKey q'.date = (2024, 2) → q'.date.d ≤ 5 := by decide
    have h5 : (5 : Int) ≤ row.max_day := hall ⟨⟨2024, 2, 5⟩, 3⟩ (by decide) rfl
    have hq5 := hb q hq hqk
    omega
  refine ⟨row, hrow, hrm, htot15, hmax5, ?_⟩
  rw [hmom, hmax5, htot15]
  norm_num
  simp +decide [specSum, List.filter]
  norm_num [growthPct, safeDiv]

/-! ### Weekly chart mode (`dailyForChart`, `aggFreq = "weekly"`)

Buckets are keyed by the Monday week start (as a serial day).  `weekMap`
accumulates the bucket total; `weekOffsets` records, as a JS `Set`, the
weekday offsets (0..6) actually observed in the bucket. -/

/-- JS `Set.add`: append if absent. -/
def setAdd (s : List Int) (x : Int) : List Int := if x ∈ s then s else s ++ [x]

theorem mem_setAdd (s : List Int) (x y : Int) : y ∈ setAdd s x ↔ y ∈ s ∨ y = x := by
  unfold setAdd
  split_ifs with h
  · exact ⟨Or.inl, fun hy => hy.elim id (fun he => he ▸ h)⟩
  · simp [List.mem_append]

theorem nodup_setAdd (s : List Int) (x : Int) (h : s.Nodup) : (setAdd s x).Nodup := by
  unfold setAdd
  split_ifs with hx
  · exact h
  · rw [List.nodup_append]
    refine ⟨h, List.nodup_singleton x, ?_⟩
    intro a ha hax
    rw [List.mem_singleton] at hax
    exact hx (hax ▸ ha)

def weeklyStep (acc : List (Int × ℚ) × List (Int × List Int)) (p : DP) :
    List (Int × ℚ) × List (Int × List Int) :=
  let wk := startOfWeekSerial (daysFromCivil p.date)
  (alSet acc.1 wk ((alGet acc.1 wk).getD 0 + p.value),
   alSet acc.2 wk (setAdd ((alGet acc.2 wk).getD []) (daysFromCivil p.date - wk)))

def weeklyMaps (fl : List DP) : List (Int × ℚ) × List (Int × List Int) :=
  fl.foldl weeklyStep ([], [])

/-- The chart entries landing in one week bucket. -/
def weekSub (fl : List DP) (wk : Int) : List DP :=
  fl.filter (fun p => decide (startOfWeekSerial (daysFromCivil p.date) = wk))

theorem startOfWeek_facts (z : Int) :
    dowOfSerial (startOfWeekSerial z) = 1 ∧ startOfWeekSerial z ≤ z
      ∧ z ≤ startOfWeekSerial z + 6 := by
  have h1 : dowOfSerial z = (z + 4) % 7 := rfl
  have h2 : startOfWeekSerial z = z + (if dowOfSerial z = 0 then -6 else 1 - dowOfSerial z) := rfl
  have h3 : dowOfSerial (startOfWeekSerial z) = (startOfWeekSerial z + 4) % 7 := rfl
  split_ifs at h2 <;> omega

/-- Full characterisation of the weekly accumulation pass. -/
theorem weeklyMaps_char (fl : List DP) (wk : Int) :
    (alGet (weeklyMaps fl).1 wk = none ↔ weekSub fl wk = []) ∧
    (alGet (weeklyMaps fl).2 wk = none ↔ weekSub fl wk = []) ∧
    (∀ c, alGet (weeklyMaps fl).1 wk = some c →
        c = ((weekSub fl wk).map (fun p => p.value)).sum) ∧
    (∀ offs, alGet (weeklyMaps fl).2 wk = some offs →
        offs.Nodup ∧ ∀ off : Int, (off ∈ offs ↔ ∃ p ∈ fl,
          startOfWeekSerial (daysFromCivil p.date) = wk
            ∧ daysFromCivil p.date - wk = off)) := by
  induction fl using List.reverseRecOn with
  | nil =>
    refine ⟨by simp [weeklyMaps, alGet, weekSub], by simp [weeklyMaps, alGet, weekSub], ?_, ?_⟩
    · intro c hc
      simp [weeklyMaps, alGet] at hc
    · intro offs hoffs
      simp [weeklyMaps, alGet] at hoffs
  | append_singleton fl p ih =>
    obtain ⟨ih1, ih2, ihc, iho⟩ := ih
    have hstep : weeklyMaps (fl ++ [p]) = weeklyStep (weeklyMaps fl) p := by
      rw [weeklyMaps, weeklyMaps, List.foldl_append, List.foldl_cons, List.foldl_nil]
    rw [hstep, weeklyStep]
    by_cases hw : wk = startOfWeekSerial (daysFromCivil p.date)
    · subst hw
      have hpred : (fun q : DP => decide (startOfWeekSerial (daysFromCivil q.date)
          = startOfWeekSerial (daysFromCivil p.date))) p = true := by simp
      have hsubapp : weekSub (fl ++ [p]) (startOfWeekSerial (daysFromCivil p.date))
          = weekSub fl (startOfWeekSerial (daysFromCivil p.date)) ++ [p] := by
        rw [weekSub, weekSub, List.filter_append]
        congr 1
        rw [List.filter_cons, if_pos hpred]
        rfl
      rw [hsubapp]
      dsimp only
      rw [alGet_alSet_self, alGet_alSet_self]
      refine ⟨by simp, by simp, ?_, ?_⟩
      · intro c hc
        rw [Option.some.injEq] at hc
        subst hc
        rcases h0 : alGet (weeklyMaps fl).1 (startOfWeekSerial (daysFromCivil p.date)) with - | c0
        · have hsub0 := ih1.mp h0
          rw [hsub0]
          simp
        · have hc0 := ihc c0 h0
          rw [hc0]
          simp [List.sum_append]
      · intro offs hoffs
        rw [Option.some.injEq] at hoffs
        subst hoffs
        rcases h0 : alGet (weeklyMaps fl).2 (startOfWeekSerial (daysFromCivil p.date)) with - | o0
        · have hsub0 := ih2.mp h0
          refine ⟨nodup_setAdd _ _ (List.nodup_nil), ?_⟩
          intro off
          rw [show ((none : Option (List Int)).getD []) = ([] : List Int) from rfl,
            mem_setAdd]
          constructor
          · rintro (hmem | rfl)
            · cases hmem
            · exact ⟨p, List.mem_append_right _ (List.mem_singleton_self p), rfl, rfl⟩
          · rintro ⟨q, hq, hqw, hqo⟩
            rcases List.mem_append.mp hq with hql | hqp
            · exfalso
              have : q ∈ weekSub fl (startOfWeekSerial (daysFromCivil p.date)) := by
                rw [weekSub, List.mem_filter]
                exact ⟨hql, by simp [hqw]⟩
              rw [hsub0] at this
              cases this
            · rw [List.mem_singleton.mp hqp] at hqo
              exact Or.inr hqo.symm
        · obtain ⟨ho0nd, ho0⟩ := iho o0 h0
          refine ⟨nodup_setAdd _ _ ho0nd, ?_⟩
          intro off
          rw [show ((some o0).getD []) = o0 from rfl, mem_setAdd, ho0 off]
          constructor
          · rintro (⟨q, hq, hqw, hqo⟩ | rfl)
            · exact ⟨q, List.mem_append_left _ hq, hqw, hqo⟩
            · exact ⟨p, List.mem_append_right _ (List.mem_singleton_self p), rfl, rfl⟩
          · rintro ⟨q, hq, hqw, hqo⟩
            rcases List.mem_append.mp hq with hql | hqp
            · exact Or.inl ⟨q, hql, hqw, hqo⟩
            · rw [List.mem_singleton.mp hqp] at hqo
              exact Or.inr hqo.symm
    · have hpredf : (fun q : DP => decide (startOfWeekSerial (daysFromCivil q.date) = wk)) p
          = false := by
        simp only [decide_eq_false_iff_not]
        exact fun hcon => hw hcon.symm
      have hsubapp : weekSub (fl ++ [p]) wk = weekSub fl wk := by
        rw [weekSub, weekSub, List.filter_append]
        rw [show List.filter (fun q : DP =>
            decide (startOfWeekSerial (daysFromCivil q.date) = wk)) [p]
            = [] from by rw [List.filter_cons, if_neg (by simp [hpredf])]; rfl]
        rw [List.append_nil]
      have hne : wk ≠ startOfWeekSerial (daysFromCivil p.date) := hw
      dsimp only
      rw [alGet_alSet_ne _ _ _ _ hne, alGet_alSet_ne _ _ _ _ hne, hsubapp]
      refine ⟨ih1, ih2, ihc, ?_⟩
      intro offs hoffs
      obtain ⟨hnd0, hmem0⟩ := iho offs hoffs
      refine ⟨hnd0, ?_⟩
      intro off
      rw [hmem0 off]
      constructor
      · rintro ⟨q, hq, hqw, hqo⟩
        exact ⟨q, List.mem_append_left _ hq, hqw, hqo⟩
      · rintro ⟨q, hq, hqw, hqo⟩
        rcases List.mem_append.mp hq with hql | hqp
        · exact ⟨q, hql, hqw, hqo⟩
        · exfalso
          rw [List.mem_singleton.mp hqp] at hqw
          exact hw hqw.symm

theorem weeklyMaps_keys (fl : List DP) (wk : Int) :
    wk ∈ (weeklyMaps fl).1.map Prod.fst
      ↔ ∃ p ∈ fl, startOfWeekSerial (daysFromCivil p.date) = wk := by
  obtain ⟨ih1, -, -, -⟩ := weeklyMaps_char fl wk
  constructor
  · intro hmem
    rcases hsub : weekSub fl wk with - | ⟨q, rest⟩
    · exact absurd hmem ((alGet_eq_none_iff _ _).mp (ih1.mpr hsub))
    · have hq : q ∈ weekSub fl wk := by rw [hsub]; exact List.mem_cons_self q rest
      rw [weekSub, List.mem_filter] at hq
      exact ⟨q, hq.1, by simpa using hq.2⟩
  · rintro ⟨p, hp, hpw⟩
    by_contra hmem
    have := ih1.mp ((alGet_eq_none_iff _ _).mpr hmem)
    have hpmem : p ∈ weekSub fl wk := by
      rw [weekSub, List.mem_filter]
      exact ⟨hp, by simp [hpw]⟩
    rw [this] at hpmem
    cases hpmem

/-- `sumWeekByOffsets`: the gap-tolerant loop over the observed offsets,
looking up `isoPlusDays(weekStartIso, off)` in the full store. -/
def sumWeekByOffsets (l : List DP) (weekStart : Int) (offs : List Int) : Option ℚ :=
  sumKeysOpt (fun off => lookup l (civilFromDays (weekStart + off))) offs

theorem sumWeekByOffsets_spec (l : List DP) (hnd : NodupDates l) (hval : ValidStore l)
    (ws : Int) (offs : List Int) (hoffs : offs.Nodup) :
    sumWeekByOffsets l ws offs
      = specSum l (fun q => decide (daysFromCivil q.date - ws ∈ offs)) := by
  rw [sumWeekByOffsets]
  have hmap := sumKeysOpt_map (lookup l) (fun off => civilFromDays (ws + off)) offs
  simp only at hmap
  rw [hmap]
  rw [sumKeysOpt_lookup_spec l hnd _ (List.Nodup.map
    (fun a b hab => by
      have := civilFromDays_injective _ _ hab
      omega) hoffs)]
  apply specSum_congr
  intro q hq
  apply decide_eq_decide.mpr
  rw [List.mem_map]
  constructor
  · rintro ⟨off, hoff, hoffd⟩
    have hser : daysFromCivil q.date = ws + off := by
      rw [← hoffd, daysFromCivil_civilFromDays]
    rw [show daysFromCivil q.date - ws = off from by omega]
    exact hoff
  · intro hmem
    refine ⟨daysFromCivil q.date - ws, hmem, ?_⟩
    rw [show ws + (daysFromCivil q.date - ws) = daysFromCivil q.date from by ring]
    exact civilFromDays_daysFromCivil q.date (hval q hq).1

/-- One output point per observed week, weeks in ascending key order. -/
def weeklyChart (l : List DP) (f t : Int) : List ChartPoint :=
  (List.insertionSort (fun a b : Int => a ≤ b)
      ((weeklyMaps (l.filter (fun p =>
        decide (f ≤ daysFromCivil p.date ∧ daysFromCivil p.date ≤ t)))).1.map Prod.fst)).map
    (fun wk =>
      { date := civilFromDays wk
        units := (alGet (weeklyMaps (l.filter (fun p =>
            decide (f ≤ daysFromCivil p.date ∧ daysFromCivil p.date ≤ t)))).1 wk).getD 0
        prev_year_units := sumWeekByOffsets l (wk - 364)
          ((alGet (weeklyMaps (l.filter (fun p =>
            decide (f ≤ daysFromCivil p.date ∧ daysFromCivil p.date ≤ t)))).2 wk).getD [])
        yoy_pct := match sumWeekByOffsets l (wk - 364)
            ((alGet (weeklyMaps (l.filter (fun p =>
              decide (f ≤ daysFromCivil p.date ∧ daysFromCivil p.date ≤ t)))).2 wk).getD []) with
          | some v => growthPct ((alGet (weeklyMaps (l.filter (fun p =>
              decide (f ≤ daysFromCivil p.date ∧ daysFromCivil p.date ≤ t)))).1 wk).getD 0) v
          | none => none
        mom_pct := match sumWeekByOffsets l (wk - 7)
            ((alGet (weeklyMaps (l.filter (fun p =>
              decide (f ≤ daysFromCivil p.date ∧ daysFromCivil p.date ≤ t)))).2 wk).getD []) with
          | some v => growthPct ((alGet (weeklyMaps (l.filter (fun p =>
              decide (f ≤ daysFromCivil p.date ∧ daysFromCivil p.date ≤ t)))).1 wk).getD 0) v
          | none => none })

/-- C2: every weekly bucket is keyed by the Monday week start; its YoY
comparator sums the store values at exactly the weekday offsets observed in
the current week, taken from the week starting 364 days earlier, the WoW
comparator does the same 7 days earlier, and a comparator is null exactly
when no matching offset in its comparison week has data (never a synthetic
zero); every observed week produces a bucket. -/
theorem weekly_offsets_spec (l : List DP) (hval : ValidStore l) (hnd : NodupDates l) (f t : Int) :
    (∀ pt ∈ weeklyChart l f t, ∃ wk : Int, ∃ offs : List Int,
      pt.date = civilFromDays wk ∧
      dowOfSerial wk = 1 ∧
      (∀ off : Int, off ∈ offs ↔ ∃ p ∈ l,
          (f ≤ daysFromCivil p.date ∧ daysFromCivil p.date ≤ t)
          ∧ startOfWeekSerial (daysFromCivil p.date) = wk
          ∧ daysFromCivil p.date - wk = off) ∧
      offs ≠ [] ∧
      pt.units = ((l.filter (fun p => decide ((f ≤ daysFromCivil p.date
          ∧ daysFromCivil p.date ≤ t)
          ∧ startOfWeekSerial (daysFromCivil p.date) = wk))).map (fun p => p.value)).sum ∧
      pt.prev_year_units
        = specSum l (fun q => decide (daysFromCivil q.date - (wk - 364) ∈ offs)) ∧
      pt.yoy_pct = (match specSum l (fun q =>
          decide (daysFromCivil q.date - (wk - 364) ∈ offs)) with
        | some v => growthPct pt.units v
        | none => none) ∧
      pt.mom_pct = (match specSum l (fun q =>
          decide (daysFromCivil q.date - (wk - 7) ∈ offs)) with
        | some v => growthPct pt.units v
        | none => none) ∧
      (pt.prev_year_units = none ↔ ∀ q ∈ l, daysFromCivil q.date - (wk - 364) ∉ offs)) ∧
    (∀ wk0 : Int, (∃ p ∈ l, (f ≤ daysFromCivil p.date ∧ daysFromCivil p.date ≤ t)
        ∧ startOfWeekSerial (daysFromCivil p.date) = wk0) →
      ∃ pt ∈ weeklyChart l f t, pt.date = civilFromDays wk0) := by
  constructor
  · intro pt hpt
    rw [weeklyChart] at hpt
    obtain ⟨wk, hwkmem, rfl⟩ := List.mem_map.mp hpt
    have hkeys : wk ∈ (weeklyMaps (l.filter (fun p =>
        decide (f ≤ daysFromCivil p.date ∧ daysFromCivil p.date ≤ t)))).1.map Prod.fst :=
      (List.perm_insertionSort _ _).mem_iff.mp hwkmem
    obtain ⟨p1, hp1, hp1w⟩ := (weeklyMaps_keys _ wk).mp hkeys
    obtain ⟨w1, w2, wc, wo⟩ := weeklyMaps_char (l.filter (fun p =>
      decide (f ≤ daysFromCivil p.date ∧ daysFromCivil p.date ≤ t))) wk
    dsimp only
    rcases hc : alGet (weeklyMaps (l.filter (fun p =>
        decide (f ≤ daysFromCivil p.date ∧ daysFromCivil p.date ≤ t)))).1 wk with - | c
    · exact absurd hkeys ((alGet_eq_none_iff _ _).mp hc)
    rcases ho : alGet (weeklyMaps (l.filter (fun p =>
        decide (f ≤ daysFromCivil p.date ∧ daysFromCivil p.date ≤ t)))).2 wk with - | offs
    · rw [w1.mpr (w2.mp ho)] at hc
      cases hc
    obtain ⟨hoffnd, hoffmem⟩ := wo offs ho
    have hff : weekSub (l.filter (fun p =>
        decide (f ≤ daysFromCivil p.date ∧ daysFromCivil p.date ≤ t))) wk
        = l.filter (fun p => decide ((f ≤ daysFromCivil p.date ∧ daysFromCivil p.date ≤ t)
            ∧ startOfWeekSerial (daysFromCivil p.date) = wk)) := by
      rw [weekSub, List.filter_filter]
      apply List.filter_congr
      intro q _
      by_cases h1 : (f ≤ daysFromCivil q.date ∧ daysFromCivil q.date ≤ t) <;>
        by_cases h2 : startOfWeekSerial (daysFromCivil q.date) = wk <;>
          simp [h1, h2]
    refine ⟨wk, offs, rfl, ?_, ?_, ?_, ?_, ?_, ?_, ?_, ?_⟩
    · rw [← hp1w]
      exact (startOfWeek_facts _).1
    · intro off
      rw [hoffmem off]
      constructor
      · rintro ⟨q, hq, hqw, hqo⟩
        have hmf := List.mem_filter.mp hq
        exact ⟨q, hmf.1, by simpa using hmf.2, hqw, hqo⟩
      · rintro ⟨q, hq, hqr, hqw, hqo⟩
        exact ⟨q, List.mem_filter.mpr ⟨hq, by simpa using hqr⟩, hqw, hqo⟩
    · exact List.ne_nil_of_mem ((hoffmem _).mpr ⟨p1, hp1, hp1w, rfl⟩)
    · simp only [Option.getD_some]
      rw [wc c hc, hff]
    · simp only [Option.getD_some]
      exact sumWeekByOffsets_spec l hnd hval (wk - 364) offs hoffnd
    · simp only [Option.getD_some]
      rw [sumWeekByOffsets_spec l hnd hval (wk - 364) offs hoffnd]
    · simp only [Option.getD_some]
      rw [sumWeekByOffsets_spec l hnd hval (wk - 7) offs hoffnd]
    · simp only [Option.getD_some]
      rw [sumWeekByOffsets_spec l hnd hval (wk - 364) offs hoffnd, specSum_eq_none_iff]
      constructor
      · intro h q hq
        simpa using h q hq
      · intro h q hq
        simpa using h q hq
  · intro wk0 hex
    refine ⟨_, List.mem_map_of_mem _ ((List.perm_insertionSort _ _).mem_iff.mpr
      ((weeklyMaps_keys _ wk0).mpr ?_)), rfl⟩
    obtain ⟨p, hp, hpr, hpw⟩ := hex
    exact ⟨p, List.mem_filter.mpr ⟨hp, by simpa using hpr⟩, hpw⟩

/-- Witness for C2: a week with data only on Monday 2024-03-04 (5) and
Tuesday 2024-03-05 (7) compares against offsets 0 and 1 of the week starting
364 days earlier; only its Tuesday (2023-03-07, value 4) exists, so YoY uses
just that matching offset (+200 %), and WoW is null. -/
theorem weekly_offsets_spec_witness :
    ∃ pt ∈ weeklyChart [⟨⟨2023, 3, 7⟩, 4⟩, ⟨⟨2024, 3, 4⟩, 5⟩, ⟨⟨2024, 3, 5⟩, 7⟩] 19786 19787,
      pt.units = 12 ∧ pt.prev_year_units = some 4 ∧ pt.yoy_pct = some 200
        ∧ pt.mom_pct = none := by
  have h := weekly_offsets_spec [⟨⟨2023, 3, 7⟩, 4⟩, ⟨⟨2024, 3, 4⟩, 5⟩, ⟨⟨2024, 3, 5⟩, 7⟩]
    (by decide) (by decide) 19786 19787
  obtain ⟨pt, hpt, hdate0⟩ := h.2 19786 ⟨⟨⟨2024, 3, 4⟩, 5⟩, by decide, by decide, by decide⟩
  obtain ⟨wk, offs, hdate, hmon, hoffmem, hone, hunits, hprev, hyoy, hmom, hnull⟩ := h.1 pt hpt
  have hwk : wk = 19786 := civilFromDays_injective _ _ (hdate.symm.trans hdate0)
  subst hwk
  have h0 : (0 : Int) ∈ offs :=
    (hoffmem 0).mpr ⟨⟨⟨2024, 3, 4⟩, 5⟩, by decide, by decide, by decide, by decide⟩
  have h1 : (1 : Int) ∈ offs :=
    (hoffmem 1).mpr ⟨⟨⟨2024, 3, 5⟩, 7⟩, by decide, by decide, by decide, by decide⟩
  have honly : ∀ off : Int, off ∈ offs → off = 0 ∨ off = 1 := by
    intro off hoff
    obtain ⟨q, hq, hr, hw, hoffeq⟩ := (hoffmem off).mp hoff
    have hqc : ∀ q' ∈ [(⟨⟨2023, 3, 7⟩, 4⟩ : DP), ⟨⟨2024, 3, 4⟩, 5⟩, ⟨⟨2024, 3, 5⟩, 7⟩],
        (19786 ≤ daysFromCivil q'.date ∧ daysFromCivil q'.date ≤ 19787) →
          daysFromCivil q'.date = 19786 ∨ daysFromCivil q'.date = 19787 := by decide
    have hqr := hqc q hq hr
    omega
  have hu : pt.units = 12 := by
    rw [hunits]
    simp +decide [List.filter]
    norm_num
  have hcong364 : specSum [⟨⟨2023, 3, 7⟩, 4⟩, ⟨⟨2024, 3, 4⟩, 5⟩, ⟨⟨2024, 3, 5⟩, 7⟩]
      (fun q => decide (daysFromCivil q.date - (19786 - 364) ∈ offs))
      = specSum [⟨⟨2023, 3, 7⟩, 4⟩, ⟨⟨2024, 3, 4⟩, 5⟩, ⟨⟨2024, 3, 5⟩, 7⟩]
        (fun q => decide (daysFromCivil q.date - (19786 - 364) = 0
          ∨ daysFromCivil q.date - (19786 - 364) = 1)) := by
    apply specSum_congr
    intro q _
    apply decide_eq_decide.mpr
    constructor
    · exact fun hin => honly _ hin
    · rintro (he | he)
      · rw [he]
        exact h0
      · rw [he]
        exact h1
  have hcong7 : specSum [⟨⟨2023, 3, 7⟩, 4⟩, ⟨⟨2024, 3, 4⟩, 5⟩, ⟨⟨2024, 3, 5⟩, 7⟩]
      (fun q => decide (daysFromCivil q.date - (19786 - 7) ∈ offs))
      = specSum [⟨⟨2023, 3, 7⟩, 4⟩, ⟨⟨2024, 3, 4⟩, 5⟩, ⟨⟨2024, 3, 5⟩, 7⟩]
        (fun q => decide (daysFromCivil q.date - (19786 - 7) = 0
          ∨ daysFromCivil q.date - (19786 - 7) = 1)) := by
    apply specSum_congr
    intro q _
    apply decide_eq_decide.mpr
    constructor
    · exact fun hin => honly _ hin
    · rintro (he | he)
      · rw [he]
        exact h0
      · rw [he]
        exact h1
  have hp4 : pt.prev_year_units = some 4 := by
    rw [hprev, hcong364]
    simp +decide [specSum, List.filter]
  have hy : pt.yoy_pct = some 200 := by
    rw [hyoy, hcong364, hu]
    simp +decide [specSum, List.filter]
    norm_num [growthPct, safeDiv]
  have hm : pt.mom_pct = none := by
    rw [hmom, hcong7]
    simp +decide [specSum, List.filter]
  exact ⟨pt, hpt, hu, hp4, hy, hm⟩

/-! ### CSV layer (`csvParse`, `parseInputDate`, `exportCSV`)

Text is modeled as `List Char`.  `String.trim` is modeled over the ASCII
whitespace actually reachable here (space, tab, CR, LF).  Splitting the text
on `/\r?\n/` followed by `trim` is observationally the split on `'\n'`
followed by `trim` (a trailing `'\r'` is whitespace), which is how lines are
produced below.  `Number(...)` is modeled on the plain-decimal fragment
(optional sign, digits, optional fraction) that the dashboard's own export
format produces, with `none` standing for the non-finite results that fail
the parser's `Number.isFinite` check.  Error strings
`Row N: invalid ... '<raw>'` are modeled as a constructor carrying the same
row number and raw cell. -/

def isWs (c : Char) : Prop := c = ' ' ∨ c = '\t' ∨ c = '\r' ∨ c = '\n'

instance (c : Char) : Decidable (isWs c) := by unfold isWs; infer_instance

def trimChars (s : List Char) : List Char :=
  ((s.dropWhile (fun c => decide (isWs c))).reverse.dropWhile (fun c => decide (isWs c))).reverse

def splitOnChar (c : Char) : List Char → List (List Char)
  | [] => [[]]
  | x :: xs =>
    match splitOnChar c xs with
    | [] => if x = c then [[], []] else [[x]]
    | h :: t => if x = c then [] :: h :: t else (x :: h) :: t

def charsToNat (s : List Char) : Nat :=
  s.foldl (fun acc c => 10 * acc + (c.toNat - 48)) 0

def toDigsAux : Nat → Nat → List Char
  | 0, _ => []
  | fuel + 1, n => if n = 0 then [] else Nat.digitChar (n % 10) :: toDigsAux fuel (n / 10)

/-- Decimal digits of a natural number (JS number-to-string on naturals). -/
def natToChars (n : Nat) : List Char := if n = 0 then ['0'] else (toDigsAux n n).reverse

def toLowerChar (c : Char) : Char :=
  if 'A' ≤ c ∧ c ≤ 'Z' then Char.ofNat (c.toNat + 32) else c

def lowerStr (s : List Char) : List Char := s.map toLowerChar

/-- Left-pad with zeros to the requested width (`String.padStart(w, "0")`). -/
def padZeros (w : Nat) (s : List Char) : List Char :=
  List.replicate (w - s.length) '0' ++ s

/-- The `\d` character class. -/
def isDigitCh (c : Char) : Prop := 48 ≤ c.toNat ∧ c.toNat ≤ 57

instance (c : Char) : Decidable (isDigitCh c) := by unfold isDigitCh; infer_instance

/-- `parseInputDate`: DD-MM-YYYY (checked through a `Date.UTC` round trip),
else a syntactically and calendar-valid ISO key, else null.  The returned
key string is represented by the date triple it denotes. -/
def parseInputDate (s : List Char) : Option YMD :=
  match trimChars s with
  | [p0, p1, p2, p3, p4, p5, p6, p7, p8, p9] =>
    if p2 = '-' ∧ p5 = '-' ∧ isDigitCh p0 ∧ isDigitCh p1 ∧ isDigitCh p3 ∧ isDigitCh p4
        ∧ isDigitCh p6 ∧ isDigitCh p7 ∧ isDigitCh p8 ∧ isDigitCh p9 then
      let dd : Int := (charsToNat [p0, p1] : Nat)
      let mm : Int := (charsToNat [p3, p4] : Nat)
      let yyyy : Int := (charsToNat [p6, p7, p8, p9] : Nat)
      if jsDateUTC yyyy (mm - 1) dd = ⟨yyyy, mm, dd⟩ then some ⟨yyyy, mm, dd⟩ else none
    else if p4 = '-' ∧ p7 = '-' ∧ isDigitCh p0 ∧ isDigitCh p1 ∧ isDigitCh p2 ∧ isDigitCh p3
        ∧ isDigitCh p5 ∧ isDigitCh p6 ∧ isDigitCh p8 ∧ isDigitCh p9 then
      let yyyy : Int := (charsToNat [p0, p1, p2, p3] : Nat)
      let mm : Int := (charsToNat [p5, p6] : Nat)
      let dd : Int := (charsToNat [p8, p9] : Nat)
      if (YMD.mk yyyy mm dd).Valid then some ⟨yyyy, mm, dd⟩ else none
    else none
  | _ => none

/-- `Number(s)` on the plain-decimal fragment: empty string is 0; otherwise
an optional sign, then digits with at most one decimal point and at least
one digit; anything else (NaN or non-finite) is `none`. -/
def jsNumber (s : List Char) : Option ℚ :=
  if s = [] then some 0
  else
    let core := if s.headD ' ' = '-' ∨ s.headD ' ' = '+' then s.drop 1 else s
    let sgn : ℚ := if s.headD ' ' = '-' then -1 else 1
    let ip := core.takeWhile (fun c => decide (isDigitCh c))
    let rest := core.dropWhile (fun c => decide (isDigitCh c))
    if rest = [] then
      (if core = [] then none else some (sgn * (charsToNat ip : ℚ)))
    else if rest.headD ' ' = '.' ∧ ((rest.drop 1).all (fun c => decide (isDigitCh c)))
        ∧ (ip ≠ [] ∨ rest.drop 1 ≠ []) then
      some (sgn * ((charsToNat ip : ℚ)
        + (charsToNat (rest.drop 1) : ℚ) / (10 : ℚ) ^ (rest.drop 1).length))
    else none

/-- `formatDDMMYYYY` on a canonical (zero-padded) store key. -/
def formatDDMMYYYY (x : YMD) : List Char :=
  padZeros 2 (natToChars x.d.toNat) ++ '-' :: padZeros 2 (natToChars x.m.toNat)
    ++ '-' :: padZeros 4 (natToChars x.y.toNat)

/-- Least exponent `e` with `den ∣ 10 ^ e` (searched up to `den`). -/
def scaleOf (den : Nat) : Nat :=
  (((List.range (den + 1)).find? (fun e => decide (10 ^ e % den = 0))).getD 0)

/-- JS number-to-string for a non-negative decimal rational: the scaled
integer digits with the decimal point reinserted (no padding artifacts: the
reduced denominator makes the last fraction digit significant). -/
def jsNumToChars (v : ℚ) : List Char :=
  let k := scaleOf v.den
  let scaled := v.num.toNat * (10 ^ k / v.den)
  if k = 0 then natToChars scaled
  else natToChars (scaled / 10 ^ k) ++ '.' :: padZeros k (natToChars (scaled % 10 ^ k))

/-- `[header, ...lines].join("\n")`. -/
def joinWith (c : Char) : List (List Char) → List Char
  | [] => []
  | l :: ls => match ls with
    | [] => l
    | _ :: _ => l ++ c :: joinWith c ls

/-- `exportCSV`'s text: header `date,<key>` then one `DD-MM-YYYY,value` line
per record, joined with `'\n'`. -/
def exportText (l : List DP) (key : List Char) : List Char :=
  joinWith '\n'
    (('d' :: 'a' :: 't' :: 'e' :: ',' :: key)
      :: l.map (fun p => formatDDMMYYYY p.date ++ ',' :: jsNumToChars p.value))

def linesOf (text : List Char) : List (List Char) :=
  ((splitOnChar '\n' text).map trimChars).filter (fun l => decide (l ≠ []))

def cellsOf (line : List Char) : List (List Char) :=
  (splitOnChar ',' line).map trimChars

def rowsOf (text : List Char) : List (List (List Char)) :=
  ((linesOf text).map cellsOf).filter (fun r => decide (2 ≤ r.length))

/-- Optional header detection: drop row 0 when its first cell mentions
`date` and its second mentions the value column key or `gwh`. -/
def dropHeader (key : List Char) (rows : List (List (List Char))) : List (List (List Char)) :=
  match rows with
  | [] => []
  | r :: rest =>
    if List.IsInfix ['d', 'a', 't', 'e'] (lowerStr (r.headD []))
        ∧ (List.IsInfix (lowerStr key) (lowerStr ((r.drop 1).headD []))
          ∨ List.IsInfix ['g', 'w', 'h'] (lowerStr ((r.drop 1).headD [])))
    then rest else r :: rest

/-- One parse error, carrying the 1-based row number and the raw cell. -/
inductive CsvErr where
  | badDate (row : Nat) (raw : List Char)
  | badValue (row : Nat) (raw : List Char)
deriving DecidableEq, Repr

def errRow : CsvErr → Nat
  | CsvErr.badDate r _ => r
  | CsvErr.badValue r _ => r

/-- The per-row loop of `csvParse`: records in row order, errors in row
order, one outcome per retained row. -/
def csvLoop (rows : List (List (List Char))) (i : Nat) : List (YMD × ℚ) × List CsvErr :=
  match rows with
  | [] => ([], [])
  | r :: rest =>
    let rec0 := csvLoop rest (i + 1)
    match parseInputDate (r.headD []) with
    | none => (rec0.1, CsvErr.badDate (i + 1) (r.headD []) :: rec0.2)
    | some dt =>
      match jsNumber (((r.drop 1).headD []).filter (fun c => decide (c ≠ ','))) with
      | none => (rec0.1, CsvErr.badValue (i + 1) ((r.drop 1).headD []) :: rec0.2)
      | some v =>
        if v < 0 then (rec0.1, CsvErr.badValue (i + 1) ((r.drop 1).headD []) :: rec0.2)
        else ((dt, v) :: rec0.1, rec0.2)

def csvParse (text key : List Char) : List (YMD × ℚ) × List CsvErr :=
  csvLoop (dropHeader key (rowsOf text)) 0

theorem csvLoop_shape (rows : List (List (List Char))) (i : Nat) :
    ((csvLoop rows i).1.length + (csvLoop rows i).2.length = rows.length) ∧
    (∀ e ∈ (csvLoop rows i).2, i + 1 ≤ errRow e ∧ errRow e ≤ i + rows.length) ∧
    List.Pairwise (fun a b => errRow a < errRow b) (csvLoop rows i).2 := by
  induction rows generalizing i with
  | nil => simp [csvLoop]
  | cons r rest ih =>
    obtain ⟨ih1, ih2, ih3⟩ := ih (i + 1)
    have herr : ∀ err : CsvErr, errRow err = i + 1 →
        ((csvLoop rest (i + 1)).1.length + (err :: (csvLoop rest (i + 1)).2).length
          = rest.length + 1) ∧
        (∀ e ∈ err :: (csvLoop rest (i + 1)).2,
          i + 1 ≤ errRow e ∧ errRow e ≤ i + (rest.length + 1)) ∧
        List.Pairwise (fun a b => errRow a < errRow b) (err :: (csvLoop rest (i + 1)).2) := by
      intro err herr1
      refine ⟨by simp only [List.length_cons]; omega, ?_, ?_⟩
      · intro e he
        rcases List.mem_cons.mp he with rfl | he'
        · omega
        · have := ih2 e he'
          omega
      · rw [List.pairwise_cons]
        refine ⟨?_, ih3⟩
        intro e he
        have := ih2 e he
        omega
    rw [csvLoop]
    rcases hd : parseInputDate (r.headD []) with - | dt
    · exact herr _ rfl
    · rcases hv : jsNumber (((r.drop 1).headD []).filter (fun c => decide (c ≠ ','))) with - | v
      · exact herr _ rfl
      · dsimp only
        by_cases hneg : v < 0
        · rw [if_pos hneg]
          exact herr _ rfl
        · rw [if_neg hneg]
          refine ⟨by simp only [List.length_cons]; omega, ?_, ih3⟩
          intro e he
          have := ih2 e he
          simp only [List.length_cons]
          omega

/-- C9: the CSV row loop is total and per-row: record and error counts add
up to the retained row count, every error carries a row number inside the
input's range, and the error list is strictly increasing in row number
(original row order); the concrete 3-valid/2-malformed input (bad date,
negative value) yields exactly 3 records and those 2 errors in order. -/
theorem csv_error_handling :
    (∀ rows : List (List (List Char)), ∀ i : Nat,
      ((csvLoop rows i).1.length + (csvLoop rows i).2.length = rows.length) ∧
      (∀ e ∈ (csvLoop rows i).2, i + 1 ≤ errRow e ∧ errRow e ≤ i + rows.length) ∧
      List.Pairwise (fun a b => errRow a < errRow b) (csvLoop rows i).2) ∧
    csvParse ("date,gen\n04-03-2024,5\n05-03-2024,7\n06-03-2024,9\nbanana,4\n07-03-2024,-2".toList)
        ("gen".toList)
      = ([(⟨2024, 3, 4⟩, 5), (⟨2024, 3, 5⟩, 7), (⟨2024, 3, 6⟩, 9)],
         [CsvErr.badDate 4 ("banana".toList), CsvErr.badValue 5 ("-2".toList)]) := by
  refine ⟨csvLoop_shape, ?_⟩
  have hrows : dropHeader ("gen".toList)
      (rowsOf ("date,gen\n04-03-2024,5\n05-03-2024,7\n06-03-2024,9\nbanana,4\n07-03-2024,-2".toList))
      = [["04-03-2024".toList, "5".toList], ["05-03-2024".toList, "7".toList],
         ["06-03-2024".toList, "9".toList], ["banana".toList, "4".toList],
         ["07-03-2024".toList, "-2".toList]] := by decide
  rw [csvParse, hrows]
  have hd1 : parseInputDate ("04-03-2024".toList) = some ⟨2024, 3, 4⟩ := by decide
  have hd2 : parseInputDate ("05-03-2024".toList) = some ⟨2024, 3, 5⟩ := by decide
  have hd3 : parseInputDate ("06-03-2024".toList) = some ⟨2024, 3, 6⟩ := by decide
  have hd4 : parseInputDate ("banana".toList) = none := by decide
  have hd5 : parseInputDate ("07-03-2024".toList) = some ⟨2024, 3, 7⟩ := by decide
  have hf1 : ("5".toList).filter (fun c => decide (c ≠ ',')) = "5".toList := by decide
  have hf2 : ("7".toList).filter (fun c => decide (c ≠ ',')) = "7".toList := by decide
  have hf3 : ("9".toList).filter (fun c => decide (c ≠ ',')) = "9".toList := by decide
  have hf5 : ("-2".toList).filter (fun c => decide (c ≠ ',')) = "-2".toList := by decide
  have hv1 : jsNumber ("5".toList) = some 5 := by
    simp +decide [jsNumber, charsToNat]
  have hv2 : jsNumber ("7".toList) = some 7 := by
    simp +decide [jsNumber, charsToNat]
  have hv3 : jsNumber ("9".toList) = some 9 := by
    simp +decide [jsNumber, charsToNat]
  have hv5 : jsNumber ("-2".toList) = some (-2) := by
    simp +decide [jsNumber, charsToNat]
  simp only [csvLoop, List.headD, List.drop, hd1, hd2, hd3, hd4, hd5,
    hf1, hf2, hf3, hf5, hv1, hv2, hv3, hv5]
  norm_num

theorem splitOnChar_ne_nil (c : Char) (s : List Char) : splitOnChar c s ≠ [] := by
  induction s with
  | nil => simp [splitOnChar]
  | cons x xs ih =>
    rw [splitOnChar]
    rcases h : splitOnChar c xs with - | ⟨h0, t⟩
    · exact absurd h ih
    · split_ifs <;> simp

theorem splitOnChar_no_sep (c : Char) (x : List Char) (h : c ∉ x) :
    splitOnChar c x = [x] := by
  induction x with
  | nil => rfl
  | cons y ys ih =>
    rw [splitOnChar]
    have hy : y ≠ c := fun he => h (he ▸ List.mem_cons_self y ys)
    have hys : c ∉ ys := fun hm => h (List.mem_cons_of_mem y hm)
    rw [ih hys]
    dsimp only
    rw [if_neg hy]

theorem splitOnChar_append_sep (c : Char) (x s : List Char) (h : c ∉ x) :
    splitOnChar c (x ++ c :: s) = x :: splitOnChar c s := by
  induction x with
  | nil =>
    rw [List.nil_append, splitOnChar]
    rcases hs : splitOnChar c s with - | ⟨h0, t⟩
    · exact absurd hs (splitOnChar_ne_nil c s)
    · dsimp only
      rw [if_pos rfl]
  | cons y ys ih =>
    have hy : y ≠ c := fun he => h (he ▸ List.mem_cons_self y ys)
    have hys : c ∉ ys := fun hm => h (List.mem_cons_of_mem y hm)
    rw [List.cons_append, splitOnChar, ih hys]
    dsimp only
    rw [if_neg hy]

theorem splitOnChar_joinWith (c : Char) (ls : List (List Char)) (hne : ls ≠ [])
    (hall : ∀ l ∈ ls, c ∉ l) : splitOnChar c (joinWith c ls) = ls := by
  induction ls with
  | nil => exact absurd rfl hne
  | cons l ls ih =>
    rcases ls with - | ⟨l2, ls'⟩
    · rw [joinWith]
      exact splitOnChar_no_sep c l (hall l (List.mem_cons_self l []))
    · rw [joinWith]
      rw [splitOnChar_append_sep c l _ (hall l (List.mem_cons_self _ _))]
      rw [ih (by simp) (fun q hq => hall q (List.mem_cons_of_mem l hq))]

def rowsOfLines (lines : List (List Char)) : List (List (List Char)) :=
  (((lines.map trimChars).filter (fun l => decide (l ≠ []))).map cellsOf).filter
    (fun r => decide (2 ≤ r.length))

theorem rowsOf_eq (text : List Char) : rowsOf text = rowsOfLines (splitOnChar '\n' text) := by
  rw [rowsOf, linesOf, rowsOfLines]

theorem rowsOfLines_append (xs ys : List (List Char)) :
    rowsOfLines (xs ++ ys) = rowsOfLines xs ++ rowsOfLines ys := by
  rw [rowsOfLines, rowsOfLines, rowsOfLines, List.map_append, List.filter_append,
    List.map_append, List.filter_append]

theorem rowsOfLines_sub2 (bad : List Char) (h : (cellsOf (trimChars bad)).length < 2) :
    rowsOfLines [bad] = [] := by
  rw [rowsOfLines]
  rcases htr : trimChars bad with - | ⟨c0, cs⟩
  · simp [htr]
  · have h' : ¬ (2 ≤ (cellsOf (c0 :: cs)).length) := by
      rw [htr] at h
      omega
    simp [htr, h']

theorem rowsOfLines_blank : rowsOfLines [[]] = [] := by decide

theorem headD_take2 (r : List (List Char)) :
    ((r.take 2).headD [] = r.headD []) ∧ (((r.take 2).drop 1).headD [] = (r.drop 1).headD []) := by
  rcases r with - | ⟨a, - | ⟨b, rest⟩⟩ <;> exact ⟨rfl, rfl⟩

/-- C10: the row loop reads only the first two cells of each retained row
(truncating every row to two cells changes nothing), and a non-blank line
with fewer than two comma-separated cells is silently discarded: inserting
one anywhere leaves the whole parse — records and errors — unchanged. -/
theorem csv_cell_handling :
    (∀ rows : List (List (List Char)), ∀ i : Nat,
      csvLoop (rows.map (fun r => r.take 2)) i = csvLoop rows i) ∧
    (∀ (key : List Char) (ls1 ls2 : List (List Char)) (bad : List Char),
      (∀ l ∈ ls1 ++ ls2, '\n' ∉ l) → '\n' ∉ bad →
      (cellsOf (trimChars bad)).length < 2 →
      csvParse (joinWith '\n' (ls1 ++ bad :: ls2)) key
        = csvParse (joinWith '\n' (ls1 ++ ls2)) key) := by
  constructor
  · intro rows
    induction rows with
    | nil => intro i; rfl
    | cons r rest ih =>
      intro i
      simp only [List.map_cons, csvLoop]
      rw [ih (i + 1)]
      obtain ⟨h1, h2⟩ := headD_take2 r
      rw [h1, h2]
  · intro key ls1 ls2 bad hall hbad hcells
    suffices h : rowsOf (joinWith '\n' (ls1 ++ bad :: ls2))
        = rowsOf (joinWith '\n' (ls1 ++ ls2)) by
      rw [csvParse, csvParse, h]
    rw [rowsOf_eq, rowsOf_eq]
    have hallbad : ∀ l ∈ ls1 ++ bad :: ls2, '\n' ∉ l := by
      intro l hl
      rcases List.mem_append.mp hl with h1 | h2
      · exact hall l (List.mem_append_left _ h1)
      · rcases List.mem_cons.mp h2 with rfl | h3
        · exact hbad
        · exact hall l (List.mem_append_right _ h3)
    rw [splitOnChar_joinWith '\n' (ls1 ++ bad :: ls2) (by simp) hallbad]
    rcases hemp : ls1 ++ ls2 with - | ⟨l0, lrest⟩
    · obtain ⟨h1, h2⟩ := List.append_eq_nil.mp hemp
      subst h1
      subst h2
      rw [List.nil_append]
      show rowsOfLines [bad] = rowsOfLines [[]]
      rw [rowsOfLines_sub2 bad hcells, rowsOfLines_blank]
    · rw [splitOnChar_joinWith '\n' (l0 :: lrest) (by simp) (by rw [← hemp]; exact hall)]
      rw [← hemp]
      rw [show ls1 ++ bad :: ls2 = (ls1 ++ [bad]) ++ ls2 from by simp]
      rw [rowsOfLines_append, rowsOfLines_append, rowsOfLines_append,
        rowsOfLines_sub2 bad hcells, List.append_nil]

/-- Witness for C10: adding the comma-free line `xx` changes nothing, and the
remaining input parses both data rows — including the four-cell row, read
from its first two cells only — with no errors. -/
theorem csv_cell_handling_witness :
    csvParse (joinWith '\n' (["date,gen".toList, "04-03-2024,5,extra,cells".toList]
        ++ "xx".toList :: ["05-03-2024,7".toList])) ("gen".toList)
      = csvParse (joinWith '\n' (["date,gen".toList, "04-03-2024,5,extra,cells".toList]
        ++ ["05-03-2024,7".toList])) ("gen".toList) ∧
    csvParse (joinWith '\n' (["date,gen".toList, "04-03-2024,5,extra,cells".toList]
        ++ ["05-03-2024,7".toList])) ("gen".toList)
      = ([(⟨2024, 3, 4⟩, 5), (⟨2024, 3, 5⟩, 7)], []) := by
  refine ⟨csv_cell_handling.2 ("gen".toList)
    ["date,gen".toList, "04-03-2024,5,extra,cells".toList] ["05-03-2024,7".toList]
    ("xx".toList) (by decide) (by decide) (by decide), ?_⟩
  have hrows : dropHeader ("gen".toList)
      (rowsOf (joinWith '\n' (["date,gen".toList, "04-03-2024,5,extra,cells".toList]
        ++ ["05-03-2024,7".toList])))
      = [["04-03-2024".toList, "5".toList, "extra".toList, "cells".toList],
         ["05-03-2024".toList, "7".toList]] := by decide
  rw [csvParse, hrows]
  have hd1 : parseInputDate ("04-03-2024".toList) = some ⟨2024, 3, 4⟩ := by decide
  have hd2 : parseInputDate ("05-03-2024".toList) = some ⟨2024, 3, 5⟩ := by decide
  have hf1 : ("5".toList).filter (fun c => decide (c ≠ ',')) = "5".toList := by decide
  have hf2 : ("7".toList).filter (fun c => decide (c ≠ ',')) = "7".toList := by decide
  have hv1 : jsNumber ("5".toList) = some 5 := by
    simp +decide [jsNumber, charsToNat]
  have hv2 : jsNumber ("7".toList) = some 7 := by
    simp +decide [jsNumber, charsToNat]
  simp only [csvLoop, List.headD, List.drop, hd1, hd2, hf1, hf2, hv1, hv2]
  norm_num

/-- Counterexample for C8 as stated: the store holding value 5 on the real
calendar date 0050-01-01 exports to `01-01-0050,5`, but re-ingesting that
text yields no records and one bad-date error — `Date.UTC` remaps years
0..99 to 1900..1999, so the parser's round-trip check rejects the date and
the export/import round trip loses the record. -/
theorem export_roundtrip_cex :
    (YMD.mk 50 1 1).Valid ∧ (0 : ℚ) ≤ 5 ∧
    csvParse (exportText [⟨⟨50, 1, 1⟩, 5⟩] ("gen".toList)) ("gen".toList)
      = ([], [CsvErr.badDate 1 ("01-01-0050".toList)]) := by
  refine ⟨by decide, by decide, ?_⟩
  decide

theorem digitChar_toNat (d : Nat) (h : d < 10) : (Nat.digitChar d).toNat = 48 + d := by
  interval_cases d <;> decide

theorem digitChar_digit (d : Nat) (h : d < 10) : isDigitCh (Nat.digitChar d) := by
  interval_cases d <;> decide

theorem toDigsAux_digits (fuel n : Nat) : ∀ c ∈ toDigsAux fuel n, isDigitCh c := by
  induction fuel generalizing n with
  | zero => intro c hc; cases hc
  | succ f ih =>
    intro c hc
    rw [toDigsAux] at hc
    split_ifs at hc with h
    · cases hc
    · rcases List.mem_cons.mp hc with rfl | hc'
      · exact digitChar_digit _ (Nat.mod_lt n (by omega))
      · exact ih (n / 10) c hc'

theorem natToChars_digits (n : Nat) : ∀ c ∈ natToChars n, isDigitCh c := by
  intro c hc
  rw [natToChars] at hc
  split_ifs at hc with h
  · rw [List.mem_singleton.mp hc]
    decide
  · exact toDigsAux_digits n n c (List.mem_reverse.mp hc)

theorem natToChars_ne_nil (n : Nat) : natToChars n ≠ [] := by
  rw [natToChars]
  split_ifs with h
  · simp
  · rcases hn : n with - | m
    · exact absurd hn h
    · intro hres
      rw [List.reverse_eq_nil_iff, toDigsAux] at hres
      rw [if_neg (by omega)] at hres
      cases hres

theorem charsToNat_append_one (s : List Char) (c : Char) :
    charsToNat (s ++ [c]) = 10 * charsToNat s + (c.toNat - 48) := by
  rw [charsToNat, charsToNat, List.foldl_append, List.foldl_cons, List.foldl_nil]

theorem charsToNat_padZeros (w : Nat) (s : List Char) :
    charsToNat (padZeros w s) = charsToNat s := by
  rw [padZeros, charsToNat, charsToNat, List.foldl_append]
  congr 1
  have : ∀ k : Nat, List.foldl (fun acc c => 10 * acc + (c.toNat - 48)) 0
      (List.replicate k '0') = 0 := by
    intro k
    induction k with
    | zero => rfl
    | succ j ih => rw [List.replicate_succ, List.foldl_cons]; simpa using ih
  exact this _

theorem toDigsAux_spec (fuel n : Nat) (h : n ≤ fuel) :
    charsToNat ((toDigsAux fuel n).reverse) = n := by
  induction fuel generalizing n with
  | zero =>
    have : n = 0 := by omega
    subst this
    rfl
  | succ f ih =>
    rw [toDigsAux]
    split_ifs with h0
    · subst h0
      rfl
    · rw [List.reverse_cons, charsToNat_append_one, ih (n / 10) (by omega),
        digitChar_toNat _ (Nat.mod_lt n (by omega))]
      omega

theorem charsToNat_natToChars (n : Nat) : charsToNat (natToChars n) = n := by
  rw [natToChars]
  split_ifs with h
  · subst h
    decide
  · exact toDigsAux_spec n n (le_refl n)

theorem toDigsAux_length (fuel : Nat) : ∀ n w : Nat, n < 10 ^ w →
    (toDigsAux fuel n).length ≤ w := by
  induction fuel with
  | zero => intro n w _; simp [toDigsAux]
  | succ f ih =>
    intro n w hn
    rw [toDigsAux]
    split_ifs with h0
    · simp
    · have hw : 1 ≤ w := by
        by_contra hw0
        have : w = 0 := by omega
        rw [this, pow_zero] at hn
        omega
      have hdiv : n / 10 < 10 ^ (w - 1) := by
        have hsplit : 10 ^ w = 10 * 10 ^ (w - 1) := by
          calc 10 ^ w = 10 ^ ((w - 1) + 1) := by
                rw [show (w - 1) + 1 = w from by omega]
            _ = 10 * 10 ^ (w - 1) := by rw [pow_succ]; ring
        omega
      have := ih (n / 10) (w - 1) hdiv
      rw [List.length_cons]
      omega

theorem natToChars_length_le (n w : Nat) (hw : 1 ≤ w) (hn : n < 10 ^ w) :
    (natToChars n).length ≤ w := by
  rw [natToChars]
  split_ifs with h
  · simpa using hw
  · rw [List.length_reverse]
    exact toDigsAux_length n n w hn

theorem padZeros_length (w : Nat) (s : List Char) (h : s.length ≤ w) :
    (padZeros w s).length = w := by
  rw [padZeros, List.length_append, List.length_replicate]
  omega

theorem padZeros_digits (w : Nat) (s : List Char) (h : ∀ c ∈ s, isDigitCh c) :
    ∀ c ∈ padZeros w s, isDigitCh c := by
  intro c hc
  rcases List.mem_append.mp hc with h1 | h2
  · rw [List.eq_of_mem_replicate h1]
    decide
  · exact h c h2

theorem takeWhile_digits_all (xs : List Char) (h : ∀ c ∈ xs, isDigitCh c) :
    xs.takeWhile (fun c => decide (isDigitCh c)) = xs
      ∧ xs.dropWhile (fun c => decide (isDigitCh c)) = [] := by
  induction xs with
  | nil => exact ⟨rfl, rfl⟩
  | cons x xs ih =>
    obtain ⟨ih1, ih2⟩ := ih (fun c hc => h c (List.mem_cons_of_mem x hc))
    have hx : isDigitCh x := h x (List.mem_cons_self x xs)
    rw [List.takeWhile_cons, List.dropWhile_cons]
    rw [if_pos (by simpa using hx), if_pos (by simpa using hx), ih1, ih2]
    exact ⟨rfl, rfl⟩

theorem takeWhile_digits_append (xs : List Char) (y : Char) (ys : List Char)
    (h : ∀ c ∈ xs, isDigitCh c) (hy : ¬ isDigitCh y) :
    (xs ++ y :: ys).takeWhile (fun c => decide (isDigitCh c)) = xs
      ∧ (xs ++ y :: ys).dropWhile (fun c => decide (isDigitCh c)) = y :: ys := by
  induction xs with
  | nil =>
    rw [List.nil_append, List.takeWhile_cons, List.dropWhile_cons]
    rw [if_neg (by simpa using hy), if_neg (by simpa using hy)]
    exact ⟨rfl, rfl⟩
  | cons x xs ih =>
    obtain ⟨ih1, ih2⟩ := ih (fun c hc => h c (List.mem_cons_of_mem x hc))
    have hx : isDigitCh x := h x (List.mem_cons_self x xs)
    rw [List.cons_append, List.takeWhile_cons, List.dropWhile_cons]
    rw [if_pos (by simpa using hx), if_pos (by simpa using hx), ih1, ih2]
    exact ⟨rfl, rfl⟩

theorem trimChars_eq_self (s : List Char) (h : ∀ c ∈ s, ¬ isWs c) : trimChars s = s := by
  have hd : ∀ (t : List Char), (∀ c ∈ t, ¬ isWs c) →
      t.dropWhile (fun c => decide (isWs c)) = t := by
    intro t ht
    cases t with
    | nil => rfl
    | cons x xs =>
      rw [List.dropWhile_cons, if_neg (by simpa using ht x (List.mem_cons_self x xs))]
  rw [trimChars, hd s h, hd _ (by
    intro c hc
    exact h c (List.mem_reverse.mp hc)), List.reverse_reverse]

theorem scaleOf_dvd (den : Nat) (hden : 0 < den) (h : den ∣ 10 ^ den) :
    den ∣ 10 ^ scaleOf den := by
  rw [scaleOf]
  rcases hf : (List.range (den + 1)).find? (fun e => decide (10 ^ e % den = 0)) with - | e
  · exfalso
    have hmem : den ∈ List.range (den + 1) := by
      rw [List.mem_range]
      omega
    have hnone := List.find?_eq_none.mp hf den hmem
    simp only [decide_eq_true_eq] at hnone
    obtain ⟨c, hc⟩ := h
    rw [hc] at hnone
    exact hnone (Nat.mul_mod_right den c)
  · have hp := List.find?_some hf
    simp only [decide_eq_true_eq] at hp
    rw [Option.getD_some]
    exact Nat.dvd_of_mod_eq_zero hp

theorem jsNumber_digits (s : List Char) (hne : s ≠ []) (hd : ∀ c ∈ s, isDigitCh c) :
    jsNumber s = some ((charsToNat s : ℚ)) := by
  obtain ⟨t1, t2⟩ := takeWhile_digits_all s hd
  rcases s with - | ⟨c, cs⟩
  · exact absurd rfl hne
  have hc := hd c (List.mem_cons_self c cs)
  have hcm : ¬((c :: cs).headD ' ' = '-' ∨ (c :: cs).headD ' ' = '+') := by
    rw [List.headD_cons]
    rintro (rfl | rfl) <;> revert hc <;> decide
  have hcm2 : ¬((c :: cs).headD ' ' = '-') := fun h => hcm (Or.inl h)
  rw [jsNumber, if_neg hne]
  simp only [if_neg hcm, if_neg hcm2, t1, t2]
  rw [if_pos trivial, if_neg hne, one_mul]

/-- Re-parsing the printed form of a non-negative decimal rational recovers
it exactly. -/
theorem jsNumber_jsNumToChars (v : ℚ) (h0 : 0 ≤ v) (hdec : v.den ∣ 10 ^ v.den) :
    jsNumber (jsNumToChars v) = some v := by
  have hden0 : 0 < v.den := v.den_pos
  have hk : v.den ∣ 10 ^ scaleOf v.den := scaleOf_dvd v.den hden0 hdec
  have hnum0 : 0 ≤ v.num := Rat.num_nonneg.mpr h0
  have hden_ne : ((v.den : ℚ)) ≠ 0 := Nat.cast_ne_zero.mpr (by omega)
  have hv : (v.num : ℚ) = v * v.den := by
    have hnd := Rat.num_div_den v
    rw [div_eq_iff hden_ne] at hnd
    exact hnd
  have htn : ((v.num.toNat : ℕ) : ℚ) = (v.num : ℚ) := by
    exact_mod_cast congrArg (fun z : ℤ => (z : ℚ)) (Int.toNat_of_nonneg hnum0)
  have hcast : ((v.num.toNat * (10 ^ scaleOf v.den / v.den) : Nat) : ℚ)
      = v * 10 ^ scaleOf v.den := by
    rw [Nat.cast_mul, Nat.cast_div hk hden_ne, htn]
    push_cast
    field_simp
    rw [hv]
    ring
  rcases Nat.eq_zero_or_pos (scaleOf v.den) with hk0 | hkpos
  · rw [jsNumToChars, if_pos hk0]
    rw [jsNumber_digits _ (natToChars_ne_nil _) (natToChars_digits _), charsToNat_natToChars]
    rw [hcast, hk0]
    norm_num
  · rw [jsNumToChars, if_neg (by omega)]
    obtain ⟨c0, cr, hceq⟩ := List.exists_cons_of_ne_nil
      (natToChars_ne_nil (v.num.toNat * (10 ^ scaleOf v.den / v.den) / 10 ^ scaleOf v.den))
    rw [hceq, List.cons_append, jsNumber, if_neg (List.cons_ne_nil _ _)]
    have hc0 : isDigitCh c0 := natToChars_digits _ c0 (hceq ▸ List.mem_cons_self c0 cr)
    have hsign : ¬((c0 :: (cr ++ '.' :: padZeros (scaleOf v.den)
        (natToChars (v.num.toNat * (10 ^ scaleOf v.den / v.den) % 10 ^ scaleOf v.den)))).headD ' '
          = '-'
        ∨ (c0 :: (cr ++ '.' :: padZeros (scaleOf v.den)
        (natToChars (v.num.toNat * (10 ^ scaleOf v.den / v.den) % 10 ^ scaleOf v.den)))).headD ' '
          = '+') := by
      rw [List.headD_cons]
      rintro (rfl | rfl) <;> revert hc0 <;> decide
    have hsign2 := fun hcon => hsign (Or.inl hcon)
    obtain ⟨htw, hdw⟩ := takeWhile_digits_append (c0 :: cr) '.'
      (padZeros (scaleOf v.den)
        (natToChars (v.num.toNat * (10 ^ scaleOf v.den / v.den) % 10 ^ scaleOf v.den)))
      (by rw [← hceq]; exact natToChars_digits _) (by decide)
    rw [List.cons_append] at htw hdw
    simp only [if_neg hsign, if_neg hsign2, htw, hdw]
    rw [if_neg (List.cons_ne_nil _ _)]
    rw [if_pos ⟨by rw [List.headD_cons], by
        rw [show List.drop 1 ('.' :: padZeros (scaleOf v.den)
          (natToChars (v.num.toNat * (10 ^ scaleOf v.den / v.den) % 10 ^ scaleOf v.den)))
          = padZeros (scaleOf v.den)
            (natToChars (v.num.toNat * (10 ^ scaleOf v.den / v.den) % 10 ^ scaleOf v.den))
          from rfl]
        rw [List.all_eq_true]
        intro c hc
        simpa using padZeros_digits _ _ (natToChars_digits _) c hc,
      Or.inl (List.cons_ne_nil _ _)⟩]
    rw [one_mul]
    rw [show List.drop 1 ('.' :: padZeros (scaleOf v.den)
        (natToChars (v.num.toNat * (10 ^ scaleOf v.den / v.den) % 10 ^ scaleOf v.den)))
        = padZeros (scaleOf v.den)
          (natToChars (v.num.toNat * (10 ^ scaleOf v.den / v.den) % 10 ^ scaleOf v.den))
        from rfl]
    rw [← hceq, charsToNat_natToChars, charsToNat_padZeros, charsToNat_natToChars]
    have hfrlt : v.num.toNat * (10 ^ scaleOf v.den / v.den) % 10 ^ scaleOf v.den
        < 10 ^ scaleOf v.den := Nat.mod_lt _ (by positivity)
    have hlen : (padZeros (scaleOf v.den)
        (natToChars (v.num.toNat * (10 ^ scaleOf v.den / v.den) % 10 ^ scaleOf v.den))).length
        = scaleOf v.den :=
      padZeros_length _ _ (natToChars_length_le _ _ hkpos hfrlt)
    rw [hlen]
    congr 1
    have hdm : v.num.toNat * (10 ^ scaleOf v.den / v.den) / 10 ^ scaleOf v.den
          * 10 ^ scaleOf v.den
        + v.num.toNat * (10 ^ scaleOf v.den / v.den) % 10 ^ scaleOf v.den
        = v.num.toNat * (10 ^ scaleOf v.den / v.den) := by
      have h1 := Nat.div_add_mod (v.num.toNat * (10 ^ scaleOf v.den / v.den))
        (10 ^ scaleOf v.den)
      rw [Nat.mul_comm (10 ^ scaleOf v.den)
        (v.num.toNat * (10 ^ scaleOf v.den / v.den) / 10 ^ scaleOf v.den)] at h1
      exact h1
    have hne10 : ((10 : ℚ)) ^ scaleOf v.den ≠ 0 := by positivity
    field_simp
    rw [← hcast]
    exact_mod_cast hdm

theorem list_len2 {α : Type} (l : List α) (h : l.length = 2) : ∃ a b, l = [a, b] := by
  rcases l with - | ⟨a, rest⟩
  · simp at h
  rcases rest with - | ⟨b, rest2⟩
  · simp at h
  rcases rest2 with - | ⟨c, rest3⟩
  · exact ⟨a, b, rfl⟩
  · simp at h

theorem list_len4 {α : Type} (l : List α) (h : l.length = 4) :
    ∃ a b c d, l = [a, b, c, d] := by
  rcases l with - | ⟨a, r1⟩
  · simp at h
  rcases r1 with - | ⟨b, r2⟩
  · simp at h
  rcases r2 with - | ⟨c, r3⟩
  · simp at h
  rcases r3 with - | ⟨d, r4⟩
  · simp at h
  rcases r4 with - | ⟨e, r5⟩
  · exact ⟨a, b, c, d, rfl⟩
  · simp at h

theorem digit_not_ws (c : Char) (h : isDigitCh c) : ¬ isWs c := by
  obtain ⟨hh1, hh2⟩ := h
  rintro (rfl | rfl | rfl | rfl) <;> revert hh1 hh2 <;> decide

theorem parseInputDate_eq (s : List Char) (a1 a2 b1 b2 c1 c2 c3 c4 : Char)
    (h : trimChars s = [a1, a2, '-', b1, b2, '-', c1, c2, c3, c4])
    (hd : isDigitCh a1 ∧ isDigitCh a2 ∧ isDigitCh b1 ∧ isDigitCh b2
      ∧ isDigitCh c1 ∧ isDigitCh c2 ∧ isDigitCh c3 ∧ isDigitCh c4) :
    parseInputDate s =
      (if jsDateUTC ((charsToNat [c1, c2, c3, c4] : Nat) : Int)
          (((charsToNat [b1, b2] : Nat) : Int) - 1) ((charsToNat [a1, a2] : Nat) : Int)
          = ⟨((charsToNat [c1, c2, c3, c4] : Nat) : Int), ((charsToNat [b1, b2] : Nat) : Int),
              ((charsToNat [a1, a2] : Nat) : Int)⟩
      then some ⟨((charsToNat [c1, c2, c3, c4] : Nat) : Int),
          ((charsToNat [b1, b2] : Nat) : Int), ((charsToNat [a1, a2] : Nat) : Int)⟩
      else none) := by
  unfold parseInputDate
  rw [h]
  dsimp only
  rw [if_pos ⟨rfl, rfl, hd.1, hd.2.1, hd.2.2.1, hd.2.2.2.1, hd.2.2.2.2.1,
    hd.2.2.2.2.2.1, hd.2.2.2.2.2.2.1, hd.2.2.2.2.2.2.2⟩]

/-- Re-parsing a formatted store key recovers the date: the `Date.UTC`
round-trip check passes because the year needs no remapping. -/
theorem parseInputDate_format (x : YMD) (hx : x.Valid) (hy1 : 1000 ≤ x.y) (hy2 : x.y ≤ 9999) :
    parseInputDate (formatDDMMYYYY x) = some x := by
  obtain ⟨h1, h2, h3, h4⟩ := hx
  have hd31 : x.d ≤ 31 := le_trans h4 (daysInMonth_bounds x.y x.m h1 h2).2
  have hdlen : (padZeros 2 (natToChars x.d.toNat)).length = 2 :=
    padZeros_length _ _ (natToChars_length_le _ 2 (by omega) (by
      have : (10 : ℕ) ^ 2 = 100 := by norm_num
      omega))
  have hmlen : (padZeros 2 (natToChars x.m.toNat)).length = 2 :=
    padZeros_length _ _ (natToChars_length_le _ 2 (by omega) (by
      have : (10 : ℕ) ^ 2 = 100 := by norm_num
      omega))
  have hylen : (padZeros 4 (natToChars x.y.toNat)).length = 4 :=
    padZeros_length _ _ (natToChars_length_le _ 4 (by omega) (by
      have : (10 : ℕ) ^ 4 = 10000 := by norm_num
      omega))
  obtain ⟨a1, a2, hab⟩ := list_len2 _ hdlen
  obtain ⟨b1, b2, hmb⟩ := list_len2 _ hmlen
  obtain ⟨c1, c2, c3, c4, hyc⟩ := list_len4 _ hylen
  have hadig : ∀ c ∈ [a1, a2], isDigitCh c := by
    intro c hc
    apply padZeros_digits 2 _ (natToChars_digits x.d.toNat)
    rw [hab]
    exact hc
  have hbdig : ∀ c ∈ [b1, b2], isDigitCh c := by
    intro c hc
    apply padZeros_digits 2 _ (natToChars_digits x.m.toNat)
    rw [hmb]
    exact hc
  have hcdig : ∀ c ∈ [c1, c2, c3, c4], isDigitCh c := by
    intro c hc
    apply padZeros_digits 4 _ (natToChars_digits x.y.toNat)
    rw [hyc]
    exact hc
  have hshape : formatDDMMYYYY x
      = [a1, a2, '-', b1, b2, '-', c1, c2, c3, c4] := by
    rw [formatDDMMYYYY, hab, hmb, hyc]
    rfl
  have htrim : trimChars (formatDDMMYYYY x) = [a1, a2, '-', b1, b2, '-', c1, c2, c3, c4] := by
    rw [show trimChars (formatDDMMYYYY x) = formatDDMMYYYY x from ?_, hshape]
    apply trimChars_eq_self
    intro c hc
    rw [hshape] at hc
    rcases List.mem_cons.mp hc with rfl | hc
    · exact digit_not_ws _ (hadig _ (by simp))
    rcases List.mem_cons.mp hc with rfl | hc
    · exact digit_not_ws _ (hadig _ (by simp))
    rcases List.mem_cons.mp hc with rfl | hc
    · decide
    rcases List.mem_cons.mp hc with rfl | hc
    · exact digit_not_ws _ (hbdig _ (by simp))
    rcases List.mem_cons.mp hc with rfl | hc
    · exact digit_not_ws _ (hbdig _ (by simp))
    rcases List.mem_cons.mp hc with rfl | hc
    · decide
    · exact digit_not_ws _ (hcdig _ hc)
  rw [parseInputDate_eq _ a1 a2 b1 b2 c1 c2 c3 c4 htrim
    ⟨hadig a1 (by simp), hadig a2 (by simp), hbdig b1 (by simp), hbdig b2 (by simp),
      hcdig c1 (by simp), hcdig c2 (by simp), hcdig c3 (by simp), hcdig c4 (by simp)⟩]
  have hdval : ((charsToNat [a1, a2] : Nat) : Int) = x.d := by
    rw [← hab, charsToNat_padZeros, charsToNat_natToChars]
    omega
  have hmval : ((charsToNat [b1, b2] : Nat) : Int) = x.m := by
    rw [← hmb, charsToNat_padZeros, charsToNat_natToChars]
    omega
  have hyval : ((charsToNat [c1, c2, c3, c4] : Nat) : Int) = x.y := by
    rw [← hyc, charsToNat_padZeros, charsToNat_natToChars]
    omega
  rw [hdval, hmval, hyval]
  have hjs : jsDateUTC x.y (x.m - 1) x.d = ⟨x.y, x.m, x.d⟩ :=
    jsDateUTC_id x ⟨h1, h2, h3, h4⟩ (by omega)
  rw [if_pos hjs]

theorem digit_ne_comma (c : Char) (h : isDigitCh c) : c ≠ ',' := by
  intro he
  rw [he] at h
  exact absurd h (by decide)

theorem digit_ne_nl (c : Char) (h : isDigitCh c) : c ≠ '\n' := by
  intro he
  rw [he] at h
  exact absurd h (by decide)

theorem jsNumToChars_chars (v : ℚ) : ∀ c ∈ jsNumToChars v, isDigitCh c ∨ c = '.' := by
  intro c hc
  rw [jsNumToChars] at hc
  split_ifs at hc with h
  · exact Or.inl (natToChars_digits _ c hc)
  · rcases List.mem_append.mp hc with h1 | h2
    · exact Or.inl (natToChars_digits _ c h1)
    · rcases List.mem_cons.mp h2 with rfl | h3
      · exact Or.inr rfl
      · exact Or.inl (padZeros_digits _ _ (natToChars_digits _) c h3)

theorem formatDDMMYYYY_chars (x : YMD) : ∀ c ∈ formatDDMMYYYY x, isDigitCh c ∨ c = '-' := by
  intro c hc
  rw [formatDDMMYYYY] at hc
  rcases List.mem_append.mp hc with h1 | h2
  · rcases List.mem_append.mp h1 with h3 | h4
    · exact Or.inl (padZeros_digits _ _ (natToChars_digits _) c h3)
    · rcases List.mem_cons.mp h4 with rfl | h5
      · exact Or.inr rfl
      · exact Or.inl (padZeros_digits _ _ (natToChars_digits _) c h5)
  · rcases List.mem_cons.mp h2 with rfl | h5
    · exact Or.inr rfl
    · exact Or.inl (padZeros_digits _ _ (natToChars_digits _) c h5)

theorem cellsOf_pair (u w : List Char) (hu : ',' ∉ u) (hw : ',' ∉ w)
    (hu2 : ∀ c ∈ u, ¬ isWs c) (hw2 : ∀ c ∈ w, ¬ isWs c) :
    cellsOf (u ++ ',' :: w) = [u, w] := by
  rw [cellsOf, splitOnChar_append_sep _ _ _ hu, splitOnChar_no_sep _ _ hw]
  rw [List.map_cons, List.map_cons, List.map_nil, trimChars_eq_self u hu2,
    trimChars_eq_self w hw2]

theorem linesOf_joinWith (ls : List (List Char)) (hne : ls ≠ [])
    (h1 : ∀ l ∈ ls, '\n' ∉ l) (h2 : ∀ l ∈ ls, ∀ c ∈ l, ¬ isWs c) (h3 : ∀ l ∈ ls, l ≠ []) :
    linesOf (joinWith '\n' ls) = ls := by
  rw [linesOf, splitOnChar_joinWith '\n' ls hne h1]
  rw [show ls.map trimChars = ls.map id from
    List.map_congr_left (fun l hl => (trimChars_eq_self l (h2 l hl)).trans rfl), List.map_id]
  rw [List.filter_eq_self.mpr (fun l hl => by simpa using h3 l hl)]

theorem csvLoop_good (l : List DP) (i : Nat)
    (h : ∀ p ∈ l, parseInputDate (formatDDMMYYYY p.date) = some p.date
      ∧ jsNumber ((jsNumToChars p.value).filter (fun c => decide (c ≠ ','))) = some p.value
      ∧ ¬ p.value < 0) :
    csvLoop (l.map (fun p => [formatDDMMYYYY p.date, jsNumToChars p.value])) i
      = (l.map (fun p => (p.date, p.value)), []) := by
  induction l generalizing i with
  | nil => rfl
  | cons p rest ih =>
    obtain ⟨hdp, hvp, hneg⟩ := h p (List.mem_cons_self p rest)
    simp only [List.map_cons, csvLoop, List.headD_cons, List.drop_succ_cons, List.drop_zero]
    rw [ih (i + 1) (fun q hq => h q (List.mem_cons_of_mem p hq)), hdp, hvp]
    dsimp only
    rw [if_neg hneg]

/-- C8 (amended): exporting a store of real calendar dates with four-digit
years (1000..9999) and non-negative decimal values, then re-ingesting the
text, reproduces exactly the original (date, value) pairs with no errors;
the header is recognised and dropped.  (The value-column key must be free of
commas and whitespace, as `gen`/`demand` are.) -/
theorem export_roundtrip_spec (l : List DP) (key : List Char)
    (hval : ∀ p ∈ l, p.date.Valid ∧ 1000 ≤ p.date.y ∧ p.date.y ≤ 9999)
    (hv : ∀ p ∈ l, 0 ≤ p.value ∧ p.value.den ∣ 10 ^ p.value.den)
    (hkey : (',' ∉ key) ∧ ∀ c ∈ key, ¬ isWs c) :
    csvParse (exportText l key) key = (l.map (fun p => (p.date, p.value)), []) := by
  have hkeynl : '\n' ∉ key := fun hmem => hkey.2 '\n' hmem (by decide)
  have hfmt_comma : ∀ p ∈ l, ',' ∉ formatDDMMYYYY p.date := by
    intro p _ hmem
    rcases formatDDMMYYYY_chars p.date ',' hmem with hd | hd
    · exact digit_ne_comma ',' hd rfl
    · cases hd
  have hfmt_ws : ∀ p ∈ l, ∀ c ∈ formatDDMMYYYY p.date, ¬ isWs c := by
    intro p _ c hmem
    rcases formatDDMMYYYY_chars p.date c hmem with hd | hd
    · exact digit_not_ws c hd
    · rw [hd]
      decide
  have hvalchars : ∀ p ∈ l, ∀ c ∈ jsNumToChars p.value, isDigitCh c ∨ c = '.' :=
    fun p _ => jsNumToChars_chars p.value
  have hval_comma : ∀ p ∈ l, ',' ∉ jsNumToChars p.value := by
    intro p hp hmem
    rcases hvalchars p hp ',' hmem with hd | hd
    · exact digit_ne_comma ',' hd rfl
    · cases hd
  have hval_ws : ∀ p ∈ l, ∀ c ∈ jsNumToChars p.value, ¬ isWs c := by
    intro p hp c hmem
    rcases hvalchars p hp c hmem with hd | hd
    · exact digit_not_ws c hd
    · rw [hd]
      decide
  have hlines : linesOf (exportText l key)
      = ('d' :: 'a' :: 't' :: 'e' :: ',' :: key)
        :: l.map (fun p => formatDDMMYYYY p.date ++ ',' :: jsNumToChars p.value) := by
    rw [exportText]
    apply linesOf_joinWith
    · simp
    · intro lin hlin
      rcases List.mem_cons.mp hlin with rfl | hlin2
      · intro hmem
        simp only [List.mem_cons] at hmem
        rcases hmem with h | h | h | h | h | h
        · exact absurd h (by decide)
        · exact absurd h (by decide)
        · exact absurd h (by decide)
        · exact absurd h (by decide)
        · exact absurd h (by decide)
        · exact hkeynl h
      · obtain ⟨p, hp, rfl⟩ := List.mem_map.mp hlin2
        intro hmem
        rcases List.mem_append.mp hmem with hml | hmr
        · rcases formatDDMMYYYY_chars p.date '\n' hml with hd | hd
          · exact digit_ne_nl '\n' hd rfl
          · cases hd
        · rcases List.mem_cons.mp hmr with hc | hmr2
          · cases hc
          · rcases hvalchars p hp '\n' hmr2 with hd | hd
            · exact digit_ne_nl '\n' hd rfl
            · cases hd
    · intro lin hlin c hc
      rcases List.mem_cons.mp hlin with rfl | hlin2
      · simp only [List.mem_cons] at hc
        rcases hc with rfl | rfl | rfl | rfl | rfl | hc2
        · decide
        · decide
        · decide
        · decide
        · decide
        · exact hkey.2 c hc2
      · obtain ⟨p, hp, rfl⟩ := List.mem_map.mp hlin2
        rcases List.mem_append.mp hc with hml | hmr
        · exact hfmt_ws p hp c hml
        · rcases List.mem_cons.mp hmr with rfl | hmr2
          · decide
          · exact hval_ws p hp c hmr2
    · intro lin hlin
      rcases List.mem_cons.mp hlin with rfl | hlin2
      · simp
      · obtain ⟨p, hp, rfl⟩ := List.mem_map.mp hlin2
        intro hcon
        rcases List.append_eq_nil.mp hcon with ⟨-, h2⟩
        cases h2
  have hcells : (linesOf (exportText l key)).map cellsOf
      = [['d', 'a', 't', 'e'], key]
        :: l.map (fun p => [formatDDMMYYYY p.date, jsNumToChars p.value]) := by
    rw [hlines, List.map_cons]
    congr 1
    · rw [show 'd' :: 'a' :: 't' :: 'e' :: ',' :: key = ['d', 'a', 't', 'e'] ++ ',' :: key
        from rfl]
      exact cellsOf_pair _ _ (by decide) hkey.1 (by decide) hkey.2
    · rw [List.map_map]
      apply List.map_congr_left
      intro p hp
      exact cellsOf_pair _ _ (hfmt_comma p hp) (hval_comma p hp) (hfmt_ws p hp) (hval_ws p hp)
  have hrows : rowsOf (exportText l key)
      = [['d', 'a', 't', 'e'], key]
        :: l.map (fun p => [formatDDMMYYYY p.date, jsNumToChars p.value]) := by
    rw [rowsOf, hcells]
    apply List.filter_eq_self.mpr
    intro r hr
    rcases List.mem_cons.mp hr with rfl | hr2
    · rfl
    · obtain ⟨p, hp, rfl⟩ := List.mem_map.mp hr2
      rfl
  have hH1 : List.IsInfix ['d', 'a', 't', 'e'] (lowerStr ([['d', 'a', 't', 'e'], key].headD []))
      := by
    rw [List.headD_cons]
    decide
  have hH2 : List.IsInfix (lowerStr key)
      (lowerStr (([['d', 'a', 't', 'e'], key].drop 1).headD [])) := by
    rw [show (([['d', 'a', 't', 'e'], key].drop 1).headD []) = key from rfl]
  rw [csvParse, hrows, dropHeader, if_pos ⟨hH1, Or.inl hH2⟩]
  apply csvLoop_good
  intro p hp
  obtain ⟨hpv, hpy1, hpy2⟩ := hval p hp
  obtain ⟨hv0, hvdec⟩ := hv p hp
  refine ⟨parseInputDate_format p.date hpv hpy1 hpy2, ?_, not_lt.mpr hv0⟩
  rw [List.filter_eq_self.mpr (fun c hc => by
    simp only [decide_eq_true_eq]
    rcases jsNumToChars_chars p.value c hc with hd | hd
    · exact digit_ne_comma c hd
    · rw [hd]
      decide)]
  exact jsNumber_jsNumToChars p.value hv0 hvdec

/-- Witness for C8 (amended): a two-record store with four-digit years
survives the export/import round trip exactly. -/
theorem export_roundtrip_spec_witness :
    csvParse (exportText [⟨⟨2024, 3, 4⟩, 5⟩, ⟨⟨2024, 3, 5⟩, 7⟩] ("gen".toList)) ("gen".toList)
      = ([(⟨2024, 3, 4⟩, 5), (⟨2024, 3, 5⟩, 7)], []) := by
  rw [export_roundtrip_spec [⟨⟨2024, 3, 4⟩, 5⟩, ⟨⟨2024, 3, 5⟩, 7⟩] ("gen".toList)
    (by decide) (by decide) (by decide)]
  rfl

/-- Witness for C9: a single bad-date row yields one outcome (the error),
whose row number is within the input's range. -/
theorem csv_error_handling_witness :
    (csvLoop [["banana".toList, "4".toList]] 0).1.length
        + (csvLoop [["banana".toList, "4".toList]] 0).2.length = 1 ∧
    (1 ≤ errRow (CsvErr.badDate 1 ("banana".toList))
      ∧ errRow (CsvErr.badDate 1 ("banana".toList)) ≤ 1) := by
  have h := csv_error_handling.1 [["banana".toList, "4".toList]] 0
  exact ⟨h.1, h.2.1 (CsvErr.badDate 1 ("banana".toList)) (by decide)⟩
